import Mathlib

/-!
# Fixed-point DSP kernel: FIR filter and radix-2 FFT

Shallow embedding of `software/dsp_math.h`, `software/fir_filter.c` and
`software/fft.c`.

Conventions of the embedding.

* C integers are `Int`; a store into an `int16_t` object narrows with `wrap16`,
  32-bit signed arithmetic that can leave the range is reduced with `wrap32`
  (two's complement, as on the RISC-V target).
* C arrays are `List`s.  An access outside the storage is undefined in C; the
  embedding returns `none` there, and so does a division by zero.  Every
  function that touches memory therefore returns an `Option`.
* `for (int i = 0; i < n; i++)` is a monadic left fold over `List.range n.toNat`.
* `x >> n` on a signed value is the arithmetic shift `Int.shiftRight`, `x & y` is
  `Int.land`, `x | y` is `Int.lor`.
-/

namespace DSP

/-! ## Machine integers and memory -/

/-- Two's complement narrowing to 16 bits, `(int16_t)v`. -/
def wrap16 (v : Int) : Int := (v + 32768) % 65536 - 32768

/-- Two's complement reduction to 32 bits. -/
def wrap32 (v : Int) : Int := (v + 2147483648) % 4294967296 - 2147483648

/-- Array read `a[i]`; `none` outside the storage. -/
def rd {α : Type} (a : List α) (i : Int) : Option α :=
  if 0 ≤ i then a[i.toNat]? else none

/-- Array write `a[i] = v`; `none` outside the storage. -/
def wr {α : Type} (a : List α) (i : Int) (v : α) : Option (List α) :=
  if 0 ≤ i ∧ i.toNat < a.length then some (a.set i.toNat v) else none

/-- C remainder `a % b` (truncating); `none` for a zero divisor. -/
def cmod (a b : Int) : Option Int :=
  if b = 0 then none else some (Int.tmod a b)

/-! ## dsp_math.h -/

/-- Modelled from the spec: the hardware `mac` instruction that the inline
assembly of `mac` in dsp_math.h issues is not part of the sources; the spec
gives it as `acc + a*b` in full-precision 32-bit accumulation without
saturation, so a result outside 32 bits wraps. -/
def mac (acc a b : Int) : Int := wrap32 (acc + a * b)

/-- The function `saturate_16` of dsp_math.h. -/
def saturate_16 (value : Int) : Int :=
  if value > 32767 then 32767
  else if value < -32768 then -32768
  else wrap16 value

/-- The function `round_16` of dsp_math.h. -/
def round_16 (value : Int) : Int :=
  wrap16 (Int.shiftRight (wrap32 (value + 16384)) 15)

/-! ## fir_filter.c -/

/-- The struct `fir_filter_t`; the two pointers are represented by the storage
they point to (two disjoint caller-owned arrays). -/
structure fir_filter_t where
  coeffs : List Int
  delay_line : List Int
  tap_count : Int
  index : Int
deriving DecidableEq, Repr

/-- The function `fir_init`. -/
def fir_init (coeffs delay_line : List Int) (taps : Int) : Option fir_filter_t := do
  let delay_line ← (List.range taps.toNat).foldlM
    (fun (d : List Int) (i : Nat) => wr d (i : Int) 0) delay_line
  pure { coeffs := coeffs, delay_line := delay_line, tap_count := taps, index := 0 }

/-- One iteration of the MAC loop of `fir_process`. -/
def fir_tap (fir : fir_filter_t) (delay_line : List Int) (acc : Int) (i : Nat) :
    Option Int := do
  let coeff ← rd fir.coeffs (i : Int)
  let k ← cmod (fir.index - (i : Int) + fir.tap_count) fir.tap_count
  let sample ← rd delay_line k
  pure (mac acc coeff sample)

/-- The function `fir_process`: the new filter state and the returned sample. -/
def fir_process (fir : fir_filter_t) (input : Int) : Option (fir_filter_t × Int) := do
  let delay_line ← wr fir.delay_line fir.index input
  let acc ← (List.range fir.tap_count.toNat).foldlM (fir_tap fir delay_line) (0 : Int)
  let next ← cmod (fir.index + 1) fir.tap_count
  pure ({ fir with delay_line := delay_line, index := wrap16 next }, saturate_16 acc)

/-- The sample loop of `process_fir_filter` in main.c:
`output[i] = fir_process(&fir_filter, input[i])` for consecutive `i`. -/
def fir_process_seq (fir : fir_filter_t) : List Int → Option (fir_filter_t × List Int)
  | [] => some (fir, [])
  | x :: xs => do
    let (fir1, y) ← fir_process fir x
    let (fir2, ys) ← fir_process_seq fir1 xs
    pure (fir2, y :: ys)

/-- The function `process_fir_filter` of main.c, with the globals `fir_coeffs`,
`fir_delay_line` and `FIR_TAPS` as parameters: the final state and the outputs. -/
def process_fir_filter (fir_coeffs fir_delay_line : List Int) (FIR_TAPS : Int)
    (input : List Int) : Option (fir_filter_t × List Int) := do
  let fir ← fir_init fir_coeffs fir_delay_line FIR_TAPS
  fir_process_seq fir input

/-- The loads into `coeffs_simd` in the inner loop of `fir_process_simd`. -/
def fir_simd_coeffs (fir : fir_filter_t) (i : Int) : Option (List Int) := do
  let c0 ← rd fir.coeffs i
  let c1 ← rd fir.coeffs (i + 1)
  let c2 ← rd fir.coeffs (i + 2)
  let c3 ← rd fir.coeffs (i + 3)
  pure [c0, c1, c2, c3]

/-- One delay-line load `fir->delay_line[(j + fir->tap_count) % fir->tap_count]`. -/
def fir_simd_sample_at (fir : fir_filter_t) (delay_line : List Int) (j : Int) : Option Int := do
  let k ← cmod (j + fir.tap_count) fir.tap_count
  rd delay_line k

/-- The loads into `samples_simd` in the inner loop of `fir_process_simd`. -/
def fir_simd_samples (fir : fir_filter_t) (delay_line : List Int) (i : Int) :
    Option (List Int) := do
  let s0 ← fir_simd_sample_at fir delay_line (fir.index - i)
  let s1 ← fir_simd_sample_at fir delay_line (fir.index - i - 1)
  let s2 ← fir_simd_sample_at fir delay_line (fir.index - i - 2)
  let s3 ← fir_simd_sample_at fir delay_line (fir.index - i - 3)
  pure [s0, s1, s2, s3]

/-- One group of four taps of the inner loop of `fir_process_simd`; the
instruction behind `simd_mac4` is a parameter. -/
def fir_simd_group (simd_mac4 : List Int → List Int → Int) (fir : fir_filter_t)
    (delay_line : List Int) (acc : Int × Int × Int × Int) (g : Nat) :
    Option (Int × Int × Int × Int) := do
  let i : Int := 4 * (g : Int)
  let coeffs_simd ← fir_simd_coeffs fir i
  let samples_simd ← fir_simd_samples fir delay_line i
  let simd_result : Int := wrap32 (simd_mac4 coeffs_simd samples_simd)
  pure (wrap32 (acc.1 + Int.land (Int.shiftRight simd_result 24) 0xFF),
        wrap32 (acc.2.1 + Int.land (Int.shiftRight simd_result 16) 0xFF),
        wrap32 (acc.2.2.1 + Int.land (Int.shiftRight simd_result 8) 0xFF),
        wrap32 (acc.2.2.2 + Int.land simd_result 0xFF))

/-- One iteration of the sample loop of `fir_process_simd`. -/
def fir_simd_sample (simd_mac4 : List Int → List Int → Int) (fir : fir_filter_t)
    (x : Int) : Option (fir_filter_t × Int) := do
  let delay_line ← wr fir.delay_line fir.index x
  let acc ← (List.range ((fir.tap_count.toNat + 3) / 4)).foldlM
    (fir_simd_group simd_mac4 fir delay_line) ((0, 0, 0, 0) : Int × Int × Int × Int)
  let next ← cmod (fir.index + 1) fir.tap_count
  pure ({ fir with delay_line := delay_line, index := wrap16 next }, saturate_16 acc.1)

/-- The function `fir_process_simd`: the new state and the block written to
`output` (the block length is the length of `input`). -/
def fir_process_simd (simd_mac4 : List Int → List Int → Int) (fir : fir_filter_t) :
    List Int → Option (fir_filter_t × List Int)
  | [] => some (fir, [])
  | x :: xs => do
    let (fir1, y) ← fir_simd_sample simd_mac4 fir x
    let (fir2, ys) ← fir_process_simd simd_mac4 fir1 xs
    pure (fir2, y :: ys)

/-- C division `a / b` (truncating); `none` for a zero divisor. -/
def cdiv (a b : Int) : Option Int :=
  if b = 0 then none else some (Int.tdiv a b)

/-- The function `fir_design_highpass`.  The call of `fir_design_lowpass`, which
computes in floating point, is the parameter `lowpass`: from the buffer and the
design parameters it returns the buffer as the call leaves it. -/
def fir_design_highpass (lowpass : List Int → Int → Int → Int → Option (List Int))
    (coeffs : List Int) (taps cutoff_freq sample_rate : Int) : Option (List Int) := do
  let coeffs ← lowpass coeffs taps cutoff_freq sample_rate
  let coeffs ← (List.range taps.toNat).foldlM
    (fun (c : List Int) (i : Nat) => do
      let v ← rd c (i : Int)
      wr c (i : Int) (wrap16 (-v))) coeffs
  let mid ← cdiv taps 2
  let v ← rd coeffs mid
  wr coeffs mid (wrap16 (v + 32767))

/-- The inner loop of `fir_design_bandpass` for output tap `i`:
`coeffs[i] += lowpass_coeffs[j] * highpass_coeffs[i - j]`, every sum stored
back into the `int16_t` entry. -/
def fir_bandpass_acc (lowpass_coeffs highpass_coeffs : List Int) (i : Nat)
    (coeffs : List Int) (j : Nat) : Option (List Int) := do
  let a ← rd lowpass_coeffs (j : Int)
  let b ← rd highpass_coeffs ((i : Int) - (j : Int))
  let c ← rd coeffs (i : Int)
  wr coeffs (i : Int) (wrap16 (wrap32 (c + wrap32 (a * b))))

/-- The body of the outer loop of `fir_design_bandpass` for output tap `i`. -/
def fir_bandpass_tap (lowpass_coeffs highpass_coeffs : List Int)
    (coeffs : List Int) (i : Nat) : Option (List Int) := do
  let coeffs ← wr coeffs (i : Int) 0
  let coeffs ← (List.range (i + 1)).foldlM
    (fir_bandpass_acc lowpass_coeffs highpass_coeffs i) coeffs
  let c ← rd coeffs (i : Int)
  wr coeffs (i : Int) (wrap16 (Int.shiftRight c 15))

/-- The function `fir_design_bandpass`; the two scratch arrays come from
`malloc` (taken to succeed) and `lowpass` stands for `fir_design_lowpass`. -/
def fir_design_bandpass (lowpass : List Int → Int → Int → Int → Option (List Int))
    (coeffs : List Int) (taps low_freq high_freq sample_rate : Int) : Option (List Int) := do
  let lowpass_coeffs ← lowpass (List.replicate taps.toNat 0) taps high_freq sample_rate
  let highpass_coeffs ← fir_design_highpass lowpass (List.replicate taps.toNat 0) taps
    low_freq sample_rate
  (List.range taps.toNat).foldlM (fir_bandpass_tap lowpass_coeffs highpass_coeffs) coeffs

/-! ## fft.c -/

/-- C left shift `a << n` of an `int`; `none` for a shift count outside `[0, 31]`. -/
def cshl (a n : Int) : Option Int :=
  if 0 ≤ n ∧ n < 32 then some (wrap32 (a * 2 ^ n.toNat)) else none

/-- C right shift `a >> n` of an `int` (arithmetic); `none` for a shift count
outside `[0, 31]`. -/
def cshr (a n : Int) : Option Int :=
  if 0 ≤ n ∧ n < 32 then some (Int.shiftRight a n.toNat) else none

/-- The struct `complex_t`. -/
structure complex_t where
  real : Int
  imag : Int
deriving DecidableEq, Repr

/-- A pointer to a `complex_t` array: `none` is `NULL`, `some b` is the start of
block `b` of the heap. -/
abbrev cptr := Option Nat

/-- The `complex_t` arrays in memory; a block is `none` once it has been freed. -/
abbrev Heap := List (Option (List complex_t))

/-- The live block a pointer refers to. -/
def hblock (h : Heap) (p : cptr) : Option (List complex_t) := do
  let b ← p
  let blk ← h[b]?
  blk

/-- Load `p[i]`. -/
def hload (h : Heap) (p : cptr) (i : Int) : Option complex_t := do
  let blk ← hblock h p
  rd blk i

/-- Store `p[i] = v`. -/
def hstore (h : Heap) (p : cptr) (i : Int) (v : complex_t) : Option Heap := do
  let b ← p
  let blk ← hblock h p
  let blk ← wr blk i v
  pure (h.set b (some blk))

/-- The call `malloc(n * sizeof(complex_t))`: a fresh block of `n` entries
(allocation is taken to succeed; the contents are unspecified, zero here). -/
def malloc (h : Heap) (n : Int) : Heap × cptr :=
  (h ++ [some (List.replicate n.toNat { real := 0, imag := 0 })], some h.length)

/-- The call `free(p)`: no effect on `NULL`, `none` when `p` is not a live block. -/
def free (h : Heap) (p : cptr) : Option Heap :=
  match p with
  | none => some h
  | some b => do
    let _ ← hblock h p
    pure (h.set b none)

/-- The struct `fft_t`. -/
structure fft_t where
  twiddle_factors : cptr
  temp_buffer : cptr
  fft_size : Int
  log2_size : Int
deriving DecidableEq, Repr

/-- The loop `while (temp > 1) { temp >>= 1; fft->log2_size++; }` of `fft_init`.
Both variables are `int16_t`, so the loop body runs at most 15 times; `fuel`
bounds the number of iterations and `none` means it was exhausted. -/
def fft_log2 : Nat → Int → Int → Option Int
  | 0, _, _ => none
  | fuel + 1, temp, log2_size =>
    if temp > 1 then fft_log2 fuel (wrap16 (Int.shiftRight temp 1)) (wrap16 (log2_size + 1))
    else some log2_size

/-- The function `fft_init`.  The table entry that the floating-point
expressions `(int16_t)(cos(angle) * 32767)` and `(int16_t)(sin(angle) * 32767)`
give for index `i` and size `size` is the parameter `twiddle i size`. -/
def fft_init (twiddle : Int → Int → complex_t) (h : Heap) (size : Int) :
    Option (Heap × fft_t) := do
  let log2_size ← fft_log2 16 size 0
  let (h, twiddle_factors) := malloc h size
  let (h, temp_buffer) := malloc h size
  let h ← (List.range size.toNat).foldlM
    (fun (h : Heap) (i : Nat) => hstore h twiddle_factors (i : Int) (twiddle (i : Int) size)) h
  pure (h, { twiddle_factors := twiddle_factors, temp_buffer := temp_buffer,
             fft_size := size, log2_size := log2_size })

/-- The function `bit_reverse`; the pair is `(result, x)`, both `int16_t`. -/
def bit_reverse (x log2_size : Int) : Int :=
  ((List.range log2_size.toNat).foldl
    (fun (s : Int × Int) (_ : Nat) =>
      (wrap16 (Int.lor (wrap32 (s.1 * 2)) (Int.land s.2 1)), wrap16 (Int.shiftRight s.2 1)))
    (0, x)).1

/-- The function `complex_mul`. -/
def complex_mul (a b : complex_t) : complex_t :=
  let real_part := wrap32 (mac 0 a.real b.real - mac 0 a.imag b.imag)
  let imag_part := wrap32 (mac 0 a.real b.imag + mac 0 a.imag b.real)
  { real := saturate_16 real_part, imag := saturate_16 imag_part }

/-- The function `complex_add`. -/
def complex_add (a b : complex_t) : complex_t :=
  { real := saturate_16 (wrap32 (a.real + b.real)), imag := saturate_16 (wrap32 (a.imag + b.imag)) }

/-- The function `complex_sub`. -/
def complex_sub (a b : complex_t) : complex_t :=
  { real := saturate_16 (wrap32 (a.real - b.real)), imag := saturate_16 (wrap32 (a.imag - b.imag)) }

/-- One butterfly: the body of the innermost loop of `fft_radix2`. -/
def fft_butterfly (fft : fft_t) (output : cptr) (group_size twiddle_step group : Int)
    (h : Heap) (k : Nat) : Option Heap := do
  let twiddle_index := wrap16 ((k : Int) * twiddle_step)
  let twiddle ← hload h fft.twiddle_factors twiddle_index
  let index1 := wrap16 (group + (k : Int))
  let index2 := wrap16 (group + (k : Int) + group_size)
  let o2 ← hload h output index2
  let temp := complex_mul o2 twiddle
  let o1 ← hload h output index1
  let sum := complex_add o1 temp
  let diff := complex_sub o1 temp
  let h ← hstore h output index1 sum
  hstore h output index2 diff

/-- One stage of `fft_radix2`: the body of the `stage` loop.  The `group` loop
`for (group = 0; group < size; group += 2 * group_size)` does not terminate
when `group_size ≤ 0 < size`; the embedding returns `none` there. -/
def fft_stage (fft : fft_t) (output : cptr) (h : Heap) (stage : Nat) : Option Heap := do
  let size := fft.fft_size
  let one_shl ← cshl 1 (stage : Int)
  let group_size := wrap16 one_shl
  let size_shr ← cshr size ((stage : Int) + 1)
  let twiddle_step := wrap16 size_shr
  if size ≤ 0 then pure h
  else if group_size ≤ 0 then none
  else
    (List.range ((size + 2 * group_size - 1) / (2 * group_size)).toNat).foldlM
      (fun (h : Heap) (g : Nat) =>
        (List.range group_size.toNat).foldlM
          (fft_butterfly fft output group_size twiddle_step ((g : Int) * (2 * group_size))) h) h

/-- The bit-reversal copy loop of `fft_radix2`:
`output[i] = input[bit_reverse(i, log2_size)]` for `i` from `0` to `size - 1`. -/
def fft_copy (h : Heap) (input output : cptr) (size log2_size : Int) : Option Heap :=
  (List.range size.toNat).foldlM
    (fun (h : Heap) (i : Nat) => do
      let reversed_index := bit_reverse (wrap16 (i : Int)) log2_size
      let v ← hload h input reversed_index
      hstore h output (i : Int) v) h

/-- The function `fft_radix2`. -/
def fft_radix2 (h : Heap) (fft : fft_t) (input output : cptr) : Option Heap := do
  let size := fft.fft_size
  let log2_size := fft.log2_size
  let h ← fft_copy h input output size log2_size
  (List.range log2_size.toNat).foldlM (fft_stage fft output) h

/-- The function `ifft_radix2`. -/
def ifft_radix2 (h : Heap) (fft : fft_t) (input output : cptr) : Option Heap := do
  let size := fft.fft_size
  let h ← (List.range size.toNat).foldlM
    (fun (h : Heap) (i : Nat) => do
      let c ← hload h input (i : Int)
      hstore h input (i : Int) { c with imag := wrap16 (-c.imag) }) h
  let h ← fft_radix2 h fft input output
  (List.range size.toNat).foldlM
    (fun (h : Heap) (i : Nat) => do
      let c ← hload h output (i : Int)
      let re ← cshr c.real fft.log2_size
      let h ← hstore h output (i : Int) { c with real := wrap16 re }
      let c ← hload h output (i : Int)
      let im ← cshr (-c.imag) fft.log2_size
      hstore h output (i : Int) { c with imag := wrap16 im }) h

/-- The function `fft_real`; `input` is the caller's array of real samples. -/
def fft_real (h : Heap) (fft : fft_t) (input : List Int) (output : cptr) : Option Heap := do
  let size := fft.fft_size
  let temp := fft.temp_buffer
  let h ← (List.range size.toNat).foldlM
    (fun (h : Heap) (i : Nat) => do
      let v ← rd input (i : Int)
      hstore h temp (i : Int) { real := v, imag := 0 }) h
  fft_radix2 h fft temp output

/-- The function `ifft_real`; `output` is the caller's array of real samples. -/
def ifft_real (h : Heap) (fft : fft_t) (input : cptr) (output : List Int) :
    Option (Heap × List Int) := do
  let size := fft.fft_size
  let temp := fft.temp_buffer
  let h ← ifft_radix2 h fft input temp
  let output ← (List.range size.toNat).foldlM
    (fun (out : List Int) (i : Nat) => do
      let c ← hload h temp (i : Int)
      wr out (i : Int) c.real) output
  pure (h, output)

/-- The response loop of `fft_filter`: both components of every bin are
multiplied by the Q15 response coefficient and shifted right by 15 bits. -/
def fft_apply_response (h : Heap) (fft_output : cptr) (size : Int)
    (filter_response : List Int) : Option Heap :=
  (List.range size.toNat).foldlM
    (fun (h : Heap) (i : Nat) => do
      let c ← hload h fft_output (i : Int)
      let r ← rd filter_response (i : Int)
      let h ← hstore h fft_output (i : Int)
        { c with real := wrap16 (Int.shiftRight (wrap32 (c.real * r)) 15) }
      let c ← hload h fft_output (i : Int)
      let r ← rd filter_response (i : Int)
      hstore h fft_output (i : Int)
        { c with imag := wrap16 (Int.shiftRight (wrap32 (c.imag * r)) 15) }) h

/-- The function `fft_filter`. -/
def fft_filter (h : Heap) (fft : fft_t) (input filter_response output : List Int) :
    Option (Heap × List Int) := do
  let size := fft.fft_size
  let fft_input := fft.temp_buffer
  let (h, fft_output) := malloc h size
  let h ← fft_real h fft input fft_input
  let h ← fft_radix2 h fft fft_input fft_output
  let h ← fft_apply_response h fft_output size filter_response
  let (h, output) ← ifft_real h fft fft_output output
  let h ← free h fft_output
  pure (h, output)

/-- One `if (p) { free(p); p = NULL; }` step of `fft_cleanup`: the heap and the
pointer afterwards. -/
def free_and_null (h : Heap) (p : cptr) : Option (Heap × cptr) :=
  match p with
  | none => some (h, none)
  | some b => do
    let h ← free h (some b)
    pure (h, none)

/-- The function `fft_cleanup`. -/
def fft_cleanup (h : Heap) (fft : fft_t) : Option (Heap × fft_t) := do
  let (h, twiddle_factors) ← free_and_null h fft.twiddle_factors
  let (h, temp_buffer) ← free_and_null h fft.temp_buffer
  pure (h, { fft with twiddle_factors := twiddle_factors, temp_buffer := temp_buffer })

/-! ## Specification-side definitions for the FIR filter -/

/-- Sample `m` of the input history `x`, zero before the first sample and past
the end. -/
def hist (x : List Int) (m : Int) : Int := if m < 0 then 0 else x.getD m.toNat 0

/-- Direct-form dot product of the coefficients with the explicit history at
call `n`: the sum over `i < L` of `C[i] * x[n - i]`, accumulated modulo `2^32`. -/
def direct_dot (C x : List Int) (L n : Nat) : Int :=
  (List.range L).foldl (fun acc i => wrap32 (acc + C.getD i 0 * hist x ((n : Int) - (i : Int)))) 0


/-- State invariant of the filter after `n` samples of `x`: the cursor is
`n mod L` and the delay line holds the `L` most recent samples in circular order. -/
structure FirInv (C : List Int) (L D : Nat) (x : List Int) (n : Nat) (fir : fir_filter_t) : Prop where
  coeffs : fir.coeffs = C
  taps : fir.tap_count = (L : Int)
  len : fir.delay_line.length = D
  idx : fir.index = (n : Int) % (L : Int)
  recent : ∀ j : Nat, j < L →
    rd fir.delay_line (((n : Int) - 1 - (j : Int)) % (L : Int)) = some (hist x ((n : Int) - 1 - (j : Int)))


/-- Output tap `i` of the band-pass design as the full-precision convolution
`(sum over j ≤ i of lp[j] * hp[i - j]) >> 15`. -/
def bandpass_conv (lp hp : List Int) (i : Nat) : Int :=
  Int.shiftRight (((List.range (i + 1)).map (fun j => lp.getD j 0 * hp.getD (i - j) 0)).sum) 15

/-- The value `fir_design_lowpass` computes for tap `i` before the cast to
`int16_t`, with its floating-point expressions read as exact real arithmetic:
`omega_c / M_PI * 32767` at the centre tap `taps / 2` (integer division), and
`sinc_val * hamming_window * 32767` elsewhere. -/
def lowpass_tap_is (taps cutoff_freq sample_rate i : Int) (r : ℝ) : Prop :=
  if i = Int.tdiv taps 2 then
    r = (2 * Real.pi * (cutoff_freq : ℝ) / (sample_rate : ℝ)) / Real.pi * 32767
  else
    r = Real.sin ((2 * Real.pi * (cutoff_freq : ℝ) / (sample_rate : ℝ))
            * ((i - Int.tdiv taps 2 : Int) : ℝ))
          / (Real.pi * ((i - Int.tdiv taps 2 : Int) : ℝ))
        * (0.54 - 0.46 * Real.cos (2 * Real.pi * (i : ℝ) / ((taps - 1 : Int) : ℝ)))
        * 32767

/-- The cast `(int16_t)r` of a real value: truncation toward zero, defined when
the truncated value is a 16-bit integer. -/
def cast_int16_is (r : ℝ) (c : Int) : Prop :=
  -32768 ≤ c ∧ c ≤ 32767 ∧
  (0 ≤ r → (c : ℝ) ≤ r ∧ r < (c : ℝ) + 1) ∧ (r < 0 → (c : ℝ) - 1 < r ∧ r ≤ (c : ℝ))

/-- The coefficient `fir_design_lowpass` writes into `coeffs[i]`. -/
def lowpass_coeff_is (taps cutoff_freq sample_rate i c : Int) : Prop :=
  ∃ r : ℝ, lowpass_tap_is taps cutoff_freq sample_rate i r ∧ cast_int16_is r c

/-! ## Specification-side definitions for the FFT -/

/-- Both components of a sample are 16-bit values. -/
def int16c (c : complex_t) : Prop :=
  -32768 ≤ c.real ∧ c.real ≤ 32767 ∧ -32768 ≤ c.imag ∧ c.imag ≤ 32767

instance (c : complex_t) : Decidable (int16c c) := by
  unfold int16c; infer_instance

/-- The heap `H` is `h` with block `out` replaced by `N` 16-bit samples. -/
def OutInv (h : Heap) (out N : Nat) (H : Heap) : Prop :=
  ∃ O : List complex_t, H = h.set out (some O) ∧ O.length = N ∧ ∀ c ∈ O, int16c c

/-- Complex conjugate with the imaginary part negated in 16-bit arithmetic. -/
def conj16 (c : complex_t) : complex_t :=
  { real := c.real, imag := wrap16 (-c.imag) }

/-- Conjugate and divide by `2 ^ m`, rounding both quotients toward minus
infinity: `(c.real >> m, (-c.imag) >> m)`. -/
def conj_scale (m : Nat) (c : complex_t) : complex_t :=
  { real := Int.fdiv c.real (2 ^ m), imag := Int.fdiv (-c.imag) (2 ^ m) }

/-- Limit an integer to the 16-bit range `[-32768, 32767]`. -/
def clamp16 (v : Int) : Int := max (-32768) (min 32767 v)

/-- The complex product over the integers with both components clamped to 16
bits: `(clamp (ac - bd), clamp (ad + bc))`. -/
def complex_mul_exact (a b : complex_t) : complex_t :=
  { real := clamp16 (a.real * b.real - a.imag * b.imag),
    imag := clamp16 (a.real * b.imag + a.imag * b.real) }

/-- Spectral filtering with a single forward transform: `fft_real` of the input
into a fresh block, the response loop, and the inverse transform whose real
parts are the output. -/
def spectral_filter_once (h : Heap) (fft : fft_t) (input filter_response output : List Int) :
    Option (Heap × List Int) := do
  let size := fft.fft_size
  let (h, fft_output) := malloc h size
  let h ← fft_real h fft input fft_output
  let h ← fft_apply_response h fft_output size filter_response
  let (h, output) ← ifft_real h fft fft_output output
  let h ← free h fft_output
  pure (h, output)

/-- The reversal of the low `n` bits of `y`: bit `k` of the result is bit
`n - 1 - k` of `y` (bit `j` of `y` is `(y / 2 ^ j) % 2`, also for negative `y`). -/
def rev_low_bits (y : Int) : Nat → Int
  | 0 => 0
  | n + 1 => 2 * rev_low_bits y n + (y / 2 ^ n) % 2

/-- One butterfly on a block: with `p = out[group + k]` and
`q = out[group + k + group_size]` as they are before the butterfly and
`t = complex_mul q T[k * twiddle_step]`, entry `group + k` becomes
`complex_add p t` and entry `group + k + group_size` becomes `complex_sub p t`. -/
def butterfly_net (T : List complex_t) (group_size twiddle_step group : Nat)
    (out : List complex_t) (k : Nat) : List complex_t :=
  let p := out.getD (group + k) { real := 0, imag := 0 }
  let q := out.getD (group + k + group_size) { real := 0, imag := 0 }
  let t := complex_mul q (T.getD (k * twiddle_step) { real := 0, imag := 0 })
  (out.set (group + k) (complex_add p t)).set (group + k + group_size) (complex_sub p t)

/-- Stage `stage` of the butterfly network on a block of `N` entries:
`group_size = 2 ^ stage`, `twiddle_step = N / (2 * group_size)`, and a butterfly
for every group start (the multiples of `2 * group_size` below `N`) and every
`k < group_size`. -/
def stage_net (T : List complex_t) (N : Nat) (out : List complex_t) (stage : Nat) :
    List complex_t :=
  (List.range (N / (2 * 2 ^ stage))).foldl
    (fun (out : List complex_t) (g : Nat) =>
      (List.range (2 ^ stage)).foldl
        (butterfly_net T (2 ^ stage) (N / (2 * 2 ^ stage)) (g * (2 * 2 ^ stage))) out) out

/-- The butterfly network of size `2 ^ m`: the bit-reversed copy
`out[i] = X[bit_reverse(i, m)]` followed by the stages `0 .. m - 1`. -/
def fft_net (T X : List complex_t) (m : Nat) : List complex_t :=
  (List.range m).foldl (stage_net T (2 ^ m))
    ((List.range (2 ^ m)).map
      (fun i : Nat => X.getD (bit_reverse (i : Int) (m : Int)).toNat { real := 0, imag := 0 }))

/-! ## Machine arithmetic and memory lemmas -/

theorem wrap32_wrap32_add (a b : Int) : wrap32 (wrap32 a + b) = wrap32 (a + b) := by
  unfold wrap32; omega

theorem wrap32_of_range {v : Int} (h1 : -2147483648 ≤ v) (h2 : v ≤ 2147483647) : wrap32 v = v := by
  unfold wrap32; omega

theorem wrap16_of_range {v : Int} (h1 : -32768 ≤ v) (h2 : v ≤ 32767) : wrap16 v = v := by
  unfold wrap16; omega

theorem foldlM_eq_some_foldl {α β : Type} (f : β → α → Option β) (g : β → α → β) :
    ∀ (l : List α) (init : β), (∀ a ∈ l, ∀ b, f b a = some (g b a)) →
      l.foldlM f init = some (l.foldl g init)
  | [], init, _ => rfl
  | a :: l, init, h => by
    simp only [List.foldlM_cons, List.foldl_cons]
    rw [h a (List.mem_cons_self a l) init]
    simp only [Option.bind_eq_bind, Option.some_bind]
    exact foldlM_eq_some_foldl f g l _ (fun a' ha' b => h a' (List.mem_cons_of_mem a ha') b)

theorem rd_eq_getElem? {α : Type} (a : List α) (i : Nat) : rd a (i : Int) = a[i]? := by
  simp [rd]

theorem rd_of_nonneg {α : Type} (a : List α) {i : Int} (h : 0 ≤ i) : rd a i = a[i.toNat]? := by
  simp [rd, h]

theorem wr_eq_some {α : Type} (a : List α) {i : Int} (v : α) (h0 : 0 ≤ i) (h1 : i < a.length) :
    wr a i v = some (a.set i.toNat v) := by
  have : i.toNat < a.length := by omega
  simp [wr, h0, this]

theorem cmod_pos {a b : Int} (ha : 0 ≤ a) (hb : 0 < b) : cmod a b = some (a % b) := by
  have : b ≠ 0 := by omega
  simp [cmod, this, Int.tmod_eq_emod ha (le_of_lt hb)]

/-! ## FIR filter: invariant and refinement -/

theorem emod_sub_ne (n L i : Int) (h1 : 0 < i) (h2 : i < L) : (n - i) % L ≠ n % L := by
  intro h
  have h3 := (Int.emod_emod_of_dvd n (dvd_refl L))
  have h4 : (n - i - n) % L = 0 := Int.emod_eq_emod_iff_emod_sub_eq_zero.mp h
  have h5 : L ∣ (n - i - n) := Int.dvd_of_emod_eq_zero h4
  have h6 : L ∣ i := by
    have : n - i - n = -i := by ring
    rw [this] at h5
    exact (Int.dvd_neg).mp h5
  have := Int.le_of_dvd h1 h6
  omega

theorem tap_index_eq (n L i : Int) : (n % L - i + L) % L = (n - i) % L := by
  rw [Int.add_emod_self, Int.sub_emod, Int.emod_emod, ← Int.sub_emod]

theorem fir_init_loop (d : List Int) (k : Nat) (hk : k ≤ d.length) :
    ∃ d', (List.range k).foldlM (fun (d : List Int) (i : Nat) => wr d (i : Int) 0) d = some d' ∧
      d'.length = d.length ∧ (∀ p, p < k → d'[p]? = some 0) ∧ (∀ p, k ≤ p → d'[p]? = d[p]?) := by
  induction k with
  | zero => exact ⟨d, rfl, rfl, by intro p hp; omega, fun _ _ => rfl⟩
  | succ k ih =>
    obtain ⟨d1, h1, hlen, hz, hr⟩ := ih (by omega)
    have hw : wr d1 (k : Int) 0 = some (d1.set k 0) := by
      have := wr_eq_some d1 (i := (k : Int)) 0 (by omega) (by omega)
      simpa using this
    refine ⟨d1.set k 0, ?_, ?_, ?_, ?_⟩
    · rw [List.range_succ, List.foldlM_append, h1]
      simp [hw]
    · simp [hlen]
    · intro p hp
      by_cases hpk : p = k
      · subst hpk; simp [List.getElem?_set, hlen]; omega
      · rw [List.getElem?_set_ne (by omega)]; exact hz p (by omega)
    · intro p hp
      rw [List.getElem?_set_ne (by omega)]; exact hr p (by omega)

theorem hist_of_lt (x : List Int) (n : Nat) (h : n < x.length) : hist x (n : Int) = x[n] := by
  have : ¬ ((n : Int) < 0) := by omega
  simp [hist, this, List.getD_eq_getElem?_getD, List.getElem?_eq_getElem h]

/-- Every tap of the MAC loop reads the sample the history prescribes. -/
theorem fir_tap_eq (C : List Int) (L D : Nat) (x : List Int) (n : Nat) (fir : fir_filter_t)
    (hL : 1 ≤ L) (hC : L ≤ C.length) (hD : L ≤ D) (hn : n < x.length)
    (inv : FirInv C L D x n fir) (i : Nat) (hi : i < L) (acc : Int) :
    fir_tap fir (fir.delay_line.set fir.index.toNat x[n]) acc i
      = some (wrap32 (acc + C.getD i 0 * hist x ((n : Int) - (i : Int)))) := by
  have hLpos : (0 : Int) < (L : Int) := by omega
  have hidx0 : 0 ≤ fir.index := by rw [inv.idx]; exact Int.emod_nonneg _ (by omega)
  have hidxL : fir.index < (L : Int) := by rw [inv.idx]; exact Int.emod_lt_of_pos _ hLpos
  have hco : rd fir.coeffs (i : Int) = some (C.getD i 0) := by
    rw [rd_eq_getElem?, inv.coeffs, List.getD_eq_getElem?_getD,
      List.getElem?_eq_getElem (by omega)]
    rfl
  have hk : cmod (fir.index - (i : Int) + fir.tap_count) fir.tap_count
      = some (((n : Int) - (i : Int)) % (L : Int)) := by
    rw [inv.taps, cmod_pos (by omega) hLpos, inv.idx, tap_index_eq]
  have hpos0 : 0 ≤ ((n : Int) - (i : Int)) % (L : Int) := Int.emod_nonneg _ (by omega)
  have hposL : ((n : Int) - (i : Int)) % (L : Int) < (L : Int) := Int.emod_lt_of_pos _ hLpos
  have hs : rd (fir.delay_line.set fir.index.toNat x[n]) (((n : Int) - (i : Int)) % (L : Int))
      = some (hist x ((n : Int) - (i : Int))) := by
    rw [rd_of_nonneg _ hpos0]
    by_cases hi0 : i = 0
    · subst hi0
      have : fir.index.toNat < fir.delay_line.length := by rw [inv.len]; omega
      simp only [Nat.cast_zero, sub_zero, ← inv.idx]
      rw [List.getElem?_set_self this, hist_of_lt x n hn]
    · have hne : ((n : Int) - (i : Int)) % (L : Int) ≠ fir.index := by
        rw [inv.idx]; exact emod_sub_ne _ _ _ (by omega) (by omega)
      have hne' : fir.index.toNat ≠ (((n : Int) - (i : Int)) % (L : Int)).toNat := by omega
      rw [List.getElem?_set_ne hne', ← rd_of_nonneg _ hpos0]
      have := inv.recent (i - 1) (by omega)
      have e : (n : Int) - 1 - ((i - 1 : Nat) : Int) = (n : Int) - (i : Int) := by omega
      rw [e] at this
      exact this
  simp [fir_tap, hco, hk, hs, mac]

/-- One call of `fir_process` on sample `n` returns the direct dot product and
re-establishes the invariant for `n + 1`. -/
theorem fir_process_step (C : List Int) (L D : Nat) (x : List Int) (n : Nat) (fir : fir_filter_t)
    (hL : 1 ≤ L) (hL16 : L ≤ 32767) (hC : L ≤ C.length) (hD : L ≤ D) (hn : n < x.length)
    (inv : FirInv C L D x n fir) :
    ∃ fir', fir_process fir x[n] = some (fir', saturate_16 (direct_dot C x L n)) ∧
      FirInv C L D x (n + 1) fir' := by
  have hLpos : (0 : Int) < (L : Int) := by omega
  have hidx0 : 0 ≤ fir.index := by rw [inv.idx]; exact Int.emod_nonneg _ (by omega)
  have hidxL : fir.index < (L : Int) := by rw [inv.idx]; exact Int.emod_lt_of_pos _ hLpos
  have hlen : fir.index < (fir.delay_line.length : Int) := by rw [inv.len]; omega
  have hw := wr_eq_some fir.delay_line x[n] hidx0 hlen
  have hfold := foldlM_eq_some_foldl
    (fir_tap fir (fir.delay_line.set fir.index.toNat x[n]))
    (fun acc i => wrap32 (acc + C.getD i 0 * hist x ((n : Int) - (i : Int))))
    (List.range L) 0
    (fun i hi acc => fir_tap_eq C L D x n fir hL hC hD hn inv i (List.mem_range.mp hi) acc)
  have hnext : cmod (fir.index + 1) fir.tap_count = some ((fir.index + 1) % (L : Int)) := by
    rw [inv.taps, cmod_pos (by omega) hLpos]
  have hnext0 : 0 ≤ (fir.index + 1) % (L : Int) := Int.emod_nonneg _ (by omega)
  have hnextL : (fir.index + 1) % (L : Int) < (L : Int) := Int.emod_lt_of_pos _ hLpos
  have hwrap : wrap16 ((fir.index + 1) % (L : Int)) = (fir.index + 1) % (L : Int) :=
    wrap16_of_range (by omega) (by omega)
  refine ⟨{ fir with delay_line := fir.delay_line.set fir.index.toNat x[n],
                     index := (fir.index + 1) % (L : Int) }, ?_, ?_⟩
  · simp only [fir_process, hw, Option.bind_eq_bind, Option.some_bind, inv.taps, Int.toNat_ofNat,
      hfold]
    rw [← inv.taps, hnext]
    simp [hwrap, direct_dot, inv.taps]
  · refine ⟨inv.coeffs, inv.taps, ?_, ?_, ?_⟩
    · simp [inv.len]
    · show (fir.index + 1) % (L : Int) = ((n + 1 : Nat) : Int) % (L : Int)
      rw [inv.idx, Nat.cast_add, Nat.cast_one, Int.add_emod, Int.emod_emod, ← Int.add_emod]
    · intro j hj
      have e : ((n + 1 : Nat) : Int) - 1 - (j : Int) = (n : Int) - (j : Int) := by omega
      show rd (fir.delay_line.set fir.index.toNat x[n]) _ = _
      rw [e]
      have hpos0 : 0 ≤ ((n : Int) - (j : Int)) % (L : Int) := Int.emod_nonneg _ (by omega)
      rw [rd_of_nonneg _ hpos0]
      by_cases hj0 : j = 0
      · subst hj0
        have : fir.index.toNat < fir.delay_line.length := by omega
        simp only [Nat.cast_zero, sub_zero, ← inv.idx]
        rw [List.getElem?_set_self this, hist_of_lt x n hn]
      · have hne : ((n : Int) - (j : Int)) % (L : Int) ≠ fir.index := by
          rw [inv.idx]; exact emod_sub_ne _ _ _ (by omega) (by omega)
        have hne' : fir.index.toNat ≠ (((n : Int) - (j : Int)) % (L : Int)).toNat := by omega
        rw [List.getElem?_set_ne hne', ← rd_of_nonneg _ hpos0]
        have := inv.recent (j - 1) (by omega)
        have e : (n : Int) - 1 - ((j - 1 : Nat) : Int) = (n : Int) - (j : Int) := by omega
        rw [e] at this
        exact this

theorem fir_process_seq_spec (C : List Int) (L D : Nat)
    (hL : 1 ≤ L) (hL16 : L ≤ 32767) (hC : L ≤ C.length) (hD : L ≤ D) :
    ∀ (s p : List Int) (fir : fir_filter_t), FirInv C L D (p ++ s) p.length fir →
      ∃ fir', fir_process_seq fir s = some (fir', (List.range s.length).map
          (fun k => saturate_16 (direct_dot C (p ++ s) L (p.length + k)))) ∧
        FirInv C L D (p ++ s) (p ++ s).length fir'
  | [], p, fir, inv => by
    refine ⟨fir, rfl, ?_⟩
    simpa using inv
  | a :: s, p, fir, inv => by
    have hn : p.length < (p ++ a :: s).length := by simp
    obtain ⟨fir1, h1, inv1⟩ := fir_process_step C L D (p ++ a :: s) p.length fir hL hL16 hC hD hn inv
    have ha : (p ++ a :: s)[p.length] = a := by
      rw [List.getElem_append_right (le_refl _)]
      simp
    rw [ha] at h1
    have e : p ++ a :: s = (p ++ [a]) ++ s := by simp
    have inv1' : FirInv C L D ((p ++ [a]) ++ s) (p ++ [a]).length fir1 := by
      rw [← e]; simpa using inv1
    obtain ⟨fir2, h2, inv2⟩ := fir_process_seq_spec C L D hL hL16 hC hD s (p ++ [a]) fir1 inv1'
    refine ⟨fir2, ?_, by rw [e]; exact inv2⟩
    simp only [fir_process_seq, h1, h2, Option.bind_eq_bind, Option.some_bind, ← e]
    simp only [List.length_cons, List.range_succ_eq_map, List.map_cons, List.map_map,
      Nat.add_zero, List.length_append, List.length_singleton, Option.pure_def, Option.some.injEq,
      Prod.mk.injEq, true_and, List.cons.injEq]
    apply List.map_congr_left
    intro k _
    simp only [Function.comp, Nat.succ_eq_add_one]
    simp only [List.length_nil]
    congr 2
    omega

theorem fir_init_spec (C d : List Int) (L : Nat) (x : List Int) (hL : 1 ≤ L) (hd : L ≤ d.length) :
    ∃ fir, fir_init C d (L : Int) = some fir ∧ FirInv C L d.length x 0 fir ∧
      (∀ p, p < L → fir.delay_line[p]? = some 0) := by
  obtain ⟨d', h1, hlen, hz, _⟩ := fir_init_loop d L hd
  refine ⟨{ coeffs := C, delay_line := d', tap_count := (L : Int), index := 0 }, ?_, ?_, hz⟩
  · simp [fir_init, h1]
  · refine ⟨rfl, rfl, hlen, by simp, ?_⟩
    intro j hj
    have hLpos : (0 : Int) < (L : Int) := by omega
    have hpos0 : 0 ≤ (((0 : Nat) : Int) - 1 - (j : Int)) % (L : Int) := Int.emod_nonneg _ (by omega)
    have hposL : (((0 : Nat) : Int) - 1 - (j : Int)) % (L : Int) < (L : Int) :=
      Int.emod_lt_of_pos _ hLpos
    rw [rd_of_nonneg _ hpos0]
    show d'[_]? = _
    rw [hz _ (by omega)]
    have : ((0 : Nat) : Int) - 1 - (j : Int) < 0 := by omega
    simp only [hist, this, if_true]

theorem foldl_mac_eq_sum (c s : Nat → Int) (n : Nat) :
    (List.range n).foldl (fun acc i => mac acc (c i) (s i)) 0
      = wrap32 (∑ i in Finset.range n, c i * s i) := by
  induction n with
  | zero => rfl
  | succ n ih =>
    rw [List.range_succ, List.foldl_append, ih, Finset.sum_range_succ]
    simp only [List.foldl_cons, List.foldl_nil, mac]
    exact wrap32_wrap32_add _ _

/-- C3: single-step postcondition of `fir_process`. For a state with tap count
`L` in `[1, 32767]`, cursor `c` in `[0, L)` and both arrays holding at least `L`
entries, the call returns `saturate_16` of the 32-bit sum over `i < L` of
`coeffs[i] * d'[(c - i + L) mod L]`, where `d'` is the old delay line with entry
`c` replaced by the sample; the new delay line is `d'`, the new cursor is
`(c + 1) mod L`, and the coefficients and tap count are unchanged. -/
theorem fir_process_postcondition (fir : fir_filter_t) (s : Int)
    (hL : 1 ≤ fir.tap_count) (hL16 : fir.tap_count ≤ 32767)
    (hc0 : 0 ≤ fir.index) (hcL : fir.index < fir.tap_count)
    (hco : fir.tap_count ≤ (fir.coeffs.length : Int))
    (hd : fir.tap_count ≤ (fir.delay_line.length : Int)) :
    fir_process fir s = some
      ({ coeffs := fir.coeffs
         delay_line := fir.delay_line.set fir.index.toNat s
         tap_count := fir.tap_count
         index := (fir.index + 1) % fir.tap_count },
       saturate_16 (wrap32 (∑ i in Finset.range fir.tap_count.toNat,
         fir.coeffs.getD i 0 *
           (fir.delay_line.set fir.index.toNat s).getD
             ((fir.index - (i : Int) + fir.tap_count) % fir.tap_count).toNat 0))) := by
  have hLpos : 0 < fir.tap_count := by omega
  have hw := wr_eq_some fir.delay_line s hc0 (by omega)
  have htap : ∀ i ∈ List.range fir.tap_count.toNat, ∀ acc,
      fir_tap fir (fir.delay_line.set fir.index.toNat s) acc i
        = some (mac acc (fir.coeffs.getD i 0)
            ((fir.delay_line.set fir.index.toNat s).getD
              ((fir.index - (i : Int) + fir.tap_count) % fir.tap_count).toNat 0)) := by
    intro i hi acc
    have hi' : (i : Int) < fir.tap_count := by
      have := List.mem_range.mp hi; omega
    have h1 : rd fir.coeffs (i : Int) = some (fir.coeffs.getD i 0) := by
      rw [rd_eq_getElem?, List.getD_eq_getElem?_getD, List.getElem?_eq_getElem (by omega)]
      rfl
    have h2 := cmod_pos (a := fir.index - (i : Int) + fir.tap_count) (by omega) hLpos
    have h30 : 0 ≤ (fir.index - (i : Int) + fir.tap_count) % fir.tap_count :=
      Int.emod_nonneg _ (by omega)
    have h3L : (fir.index - (i : Int) + fir.tap_count) % fir.tap_count < fir.tap_count :=
      Int.emod_lt_of_pos _ hLpos
    have h3 : rd (fir.delay_line.set fir.index.toNat s)
        ((fir.index - (i : Int) + fir.tap_count) % fir.tap_count)
        = some ((fir.delay_line.set fir.index.toNat s).getD
            ((fir.index - (i : Int) + fir.tap_count) % fir.tap_count).toNat 0) := by
      rw [rd_of_nonneg _ h30, List.getD_eq_getElem?_getD,
        List.getElem?_eq_getElem (by rw [List.length_set]; omega)]
      rfl
    unfold fir_tap
    rw [h1, h2]
    simp only [Option.bind_eq_bind, Option.some_bind]
    rw [h3]
    rfl
  have hfold := foldlM_eq_some_foldl _ _ (List.range fir.tap_count.toNat) 0 htap
  have hnext := cmod_pos (a := fir.index + 1) (by omega) hLpos
  have hn0 : 0 ≤ (fir.index + 1) % fir.tap_count := Int.emod_nonneg _ (by omega)
  have hnL : (fir.index + 1) % fir.tap_count < fir.tap_count := Int.emod_lt_of_pos _ hLpos
  have hwrap := wrap16_of_range (v := (fir.index + 1) % fir.tap_count) (by omega) (by omega)
  simp only [fir_process, hw, hfold, hnext, hwrap, Option.bind_eq_bind, Option.some_bind,
    Option.pure_def, foldl_mac_eq_sum
      (fun i => fir.coeffs.getD i 0)
      (fun i => (fir.delay_line.set fir.index.toNat s).getD
        ((fir.index - (i : Int) + fir.tap_count) % fir.tap_count).toNat 0)]

theorem fir_process_postcondition_witness :
    fir_process { coeffs := [1, 2, 3], delay_line := [7, 8, 9], tap_count := 3, index := 2 } 5
      = some ({ coeffs := [1, 2, 3], delay_line := [7, 8, 5], tap_count := 3, index := 0 }, 42) :=
  (fir_process_postcondition
    { coeffs := [1, 2, 3], delay_line := [7, 8, 9], tap_count := 3, index := 2 } 5
    (by decide) (by decide) (by decide) (by decide) (by decide) (by decide)).trans (by decide)

/-- Initialisation followed by the sample loop: outputs and final invariant. -/
theorem process_fir_filter_spec (C d x : List Int) (L : Nat)
    (hL : 1 ≤ L) (hL16 : L ≤ 32767) (hC : L ≤ C.length) (hd : L ≤ d.length) :
    ∃ fir, process_fir_filter C d (L : Int) x
        = some (fir, (List.range x.length).map (fun n => saturate_16 (direct_dot C x L n))) ∧
      FirInv C L d.length x x.length fir := by
  obtain ⟨fir0, h0, inv0, _⟩ := fir_init_spec C d L x hL hd
  obtain ⟨fir, h1, inv⟩ := fir_process_seq_spec C L d.length hL hL16 hC hd x [] fir0
    (by simpa using inv0)
  refine ⟨fir, ?_, by simpa using inv⟩
  simp only [process_fir_filter, h0, Option.bind_eq_bind, Option.some_bind, h1]
  simp

theorem fir_stream_eq (C d x : List Int) (L : Nat)
    (hL : 1 ≤ L) (hL16 : L ≤ 32767) (hC : L ≤ C.length) (hd : L ≤ d.length) :
    ∃ fir, process_fir_filter C d (L : Int) x
        = some (fir, (List.range x.length).map (fun n => saturate_16 (direct_dot C x L n))) := by
  obtain ⟨fir, h, _⟩ := process_fir_filter_spec C d x L hL hL16 hC hd
  exact ⟨fir, h⟩

/-- C1: after `fir_init` with `L` taps (`1 ≤ L ≤ 32767`, the range of the
`int16_t` tap count) on arrays holding at least `L` entries, the sample returned
by the `(n+1)`-th consecutive call `fir_process(x[n])` is `saturate_16` of the
direct dot product of the coefficients with the explicit input history
`x[n], x[n-1], ...` (zero before the first sample), accumulated modulo `2^32`;
this holds at every call, also after the cursor has wrapped around. -/
theorem fir_stream_matches_direct_dot (C d x : List Int) (L : Nat)
    (hL : 1 ≤ L) (hL16 : L ≤ 32767) (hC : L ≤ C.length) (hd : L ≤ d.length) :
    ∃ fir, process_fir_filter C d (L : Int) x
        = some (fir, (List.range x.length).map (fun n => saturate_16 (direct_dot C x L n))) := by
  obtain ⟨fir, h, _⟩ := process_fir_filter_spec C d x L hL hL16 hC hd
  exact ⟨fir, h⟩

theorem fir_stream_matches_direct_dot_witness :
    ∃ fir, process_fir_filter [1, 2, 3] [9, 9, 9] ((3 : Nat) : Int) [10, 20, 30, 40, 50]
        = some (fir, (List.range [10, 20, 30, 40, 50].length).map
            (fun n => saturate_16 (direct_dot [1, 2, 3] [10, 20, 30, 40, 50] 3 n))) :=
  fir_stream_matches_direct_dot [1, 2, 3] [9, 9, 9] [10, 20, 30, 40, 50] 3
    (by decide) (by decide) (by decide) (by decide)

/-- C4: FIR state invariant. `fir_init` with `L` taps (`1 ≤ L ≤ 32767`) zeroes
the first `L` delay-line entries and sets the cursor to 0; after `n` further
calls `fir_process(x[0]) ... fir_process(x[n-1])` the delay line has kept its
length, the tap count is `L`, the cursor equals `n mod L` and lies in `[0, L)`,
every read index `(cursor - i + L) % L` of the next call lies in `[0, L)`, and
for every `j < L` the entry at `(cursor - 1 - j) mod L` is `x[n-1-j]` when
`j < n` and `0` otherwise. -/
theorem fir_state_invariant (C d x : List Int) (L : Nat)
    (hL : 1 ≤ L) (hL16 : L ≤ 32767) (hC : L ≤ C.length) (hd : L ≤ d.length) :
    (∃ fir0, fir_init C d (L : Int) = some fir0 ∧ fir0.index = 0 ∧
      fir0.delay_line.length = d.length ∧ ∀ p, p < L → fir0.delay_line[p]? = some 0) ∧
    ∃ fir outs, process_fir_filter C d (L : Int) x = some (fir, outs) ∧
      fir.delay_line.length = d.length ∧
      fir.tap_count = (L : Int) ∧
      fir.index = (x.length : Int) % (L : Int) ∧
      0 ≤ fir.index ∧ fir.index < (L : Int) ∧
      (∀ i : Nat, i < L → ∃ k, cmod (fir.index - (i : Int) + fir.tap_count) fir.tap_count = some k ∧
        0 ≤ k ∧ k < (L : Int)) ∧
      (∀ j : Nat, j < L → rd fir.delay_line ((fir.index - 1 - (j : Int)) % (L : Int))
        = some (if j < x.length then x.getD (x.length - 1 - j) 0 else 0)) := by
  have hLpos : (0 : Int) < (L : Int) := by omega
  constructor
  · obtain ⟨fir0, h0, inv0, hz⟩ := fir_init_spec C d L x hL hd
    exact ⟨fir0, h0, by simpa using inv0.idx, inv0.len, hz⟩
  · obtain ⟨fir, h, inv⟩ := process_fir_filter_spec C d x L hL hL16 hC hd
    have hidx0 : 0 ≤ fir.index := by rw [inv.idx]; exact Int.emod_nonneg _ (by omega)
    have hidxL : fir.index < (L : Int) := by rw [inv.idx]; exact Int.emod_lt_of_pos _ hLpos
    refine ⟨fir, _, h, inv.len, inv.taps, inv.idx, hidx0, hidxL, ?_, ?_⟩
    · intro i hi
      refine ⟨(fir.index - (i : Int) + (L : Int)) % (L : Int), ?_,
        Int.emod_nonneg _ (by omega), Int.emod_lt_of_pos _ hLpos⟩
      rw [inv.taps, cmod_pos (by omega) hLpos]
    · intro j hj
      have e : (fir.index - 1 - (j : Int)) % (L : Int)
          = ((x.length : Int) - 1 - (j : Int)) % (L : Int) := by
        rw [inv.idx, sub_sub, sub_sub, Int.sub_emod, Int.emod_emod, ← Int.sub_emod]
      rw [e, inv.recent j hj]
      congr 1
      unfold hist
      by_cases hjn : j < x.length
      · have h1 : ¬ ((x.length : Int) - 1 - (j : Int) < 0) := by omega
        have h2 : ((x.length : Int) - 1 - (j : Int)).toNat = x.length - 1 - j := by omega
        simp only [h1, hjn, if_true, if_false, h2]
      · have h1 : (x.length : Int) - 1 - (j : Int) < 0 := by omega
        simp only [h1, hjn, if_true, if_false]

theorem fir_state_invariant_witness :
    (∃ fir0, fir_init [1, 2, 3] [9, 9, 9] ((3 : Nat) : Int) = some fir0 ∧ fir0.index = 0 ∧
      fir0.delay_line.length = [(9 : Int), 9, 9].length ∧
      ∀ p, p < 3 → fir0.delay_line[p]? = some 0) ∧
    ∃ fir outs, process_fir_filter [1, 2, 3] [9, 9, 9] ((3 : Nat) : Int) [10, 20, 30, 40]
        = some (fir, outs) ∧
      fir.delay_line.length = [(9 : Int), 9, 9].length ∧
      fir.tap_count = ((3 : Nat) : Int) ∧
      fir.index = ([(10 : Int), 20, 30, 40].length : Int) % ((3 : Nat) : Int) ∧
      0 ≤ fir.index ∧ fir.index < ((3 : Nat) : Int) ∧
      (∀ i : Nat, i < 3 → ∃ k, cmod (fir.index - (i : Int) + fir.tap_count) fir.tap_count = some k ∧
        0 ≤ k ∧ k < ((3 : Nat) : Int)) ∧
      (∀ j : Nat, j < 3 → rd fir.delay_line ((fir.index - 1 - (j : Int)) % ((3 : Nat) : Int))
        = some (if j < [(10 : Int), 20, 30, 40].length
            then [(10 : Int), 20, 30, 40].getD ([(10 : Int), 20, 30, 40].length - 1 - j) 0 else 0)) :=
  fir_state_invariant [1, 2, 3] [9, 9, 9] [10, 20, 30, 40] 3
    (by decide) (by decide) (by decide) (by decide)

theorem mul_int16_bounds {a b : Int} (ha1 : -32768 ≤ a) (ha2 : a ≤ 32767)
    (hb1 : -32768 ≤ b) (hb2 : b ≤ 32767) :
    -1073709056 ≤ a * b ∧ a * b ≤ 1073741824 := by
  constructor
  · rcases le_total 0 a with h | h
    · nlinarith [mul_nonneg h (by linarith : (0 : Int) ≤ b + 32768),
        mul_nonneg (by linarith : (0 : Int) ≤ 32767 - a) (by linarith : (0 : Int) ≤ b + 32768)]
    · nlinarith [mul_nonneg (by linarith : (0 : Int) ≤ -a) (by linarith : (0 : Int) ≤ 32767 - b),
        mul_nonneg (by linarith : (0 : Int) ≤ a + 32768) (by linarith : (0 : Int) ≤ 32767 - b)]
  · nlinarith [mul_nonneg (by linarith : (0 : Int) ≤ a + 32768) (by linarith : (0 : Int) ≤ 32767 - b),
      mul_nonneg (by linarith : (0 : Int) ≤ 32767 - a) (by linarith : (0 : Int) ≤ b + 32768),
      mul_nonneg (by linarith : (0 : Int) ≤ a + 32768) (by linarith : (0 : Int) ≤ b + 32768),
      mul_nonneg (by linarith : (0 : Int) ≤ 32767 - a) (by linarith : (0 : Int) ≤ 32767 - b)]

theorem hist_impulse (a : Int) (m : Nat) (k : Int) :
    hist (a :: List.replicate m 0) k = if k = 0 then a else 0 := by
  unfold hist
  by_cases hk : k < 0
  · have : k ≠ 0 := by omega
    simp [hk, this]
  · by_cases hk0 : k = 0
    · subst hk0; simp
    · obtain ⟨t, ht⟩ : ∃ t : Nat, k.toNat = t + 1 := ⟨k.toNat - 1, by omega⟩
      simp only [hk, hk0, if_false, ht, List.getD_cons_succ]
      rw [List.getD_eq_getElem?_getD]
      by_cases htm : t < m
      · simp [List.getElem?_replicate, htm]
      · simp [List.getElem?_replicate, htm]

theorem direct_dot_impulse_upto (C : List Int) (a : Int) (m n : Nat) (k : Nat) :
    (List.range k).foldl (fun acc i => wrap32 (acc + C.getD i 0 *
        hist (a :: List.replicate m 0) ((n : Int) - (i : Int)))) 0
      = if n < k then wrap32 (C.getD n 0 * a) else 0 := by
  induction k with
  | zero => simp
  | succ k ih =>
    rw [List.range_succ, List.foldl_append, ih]
    simp only [List.foldl_cons, List.foldl_nil, hist_impulse]
    rcases Nat.lt_trichotomy n k with h | h | h
    · have h1 : (n : Int) - (k : Int) ≠ 0 := by omega
      have h2 : n < k + 1 := by omega
      simp only [h, h1, h2, if_true, if_false, mul_zero, add_zero]
      unfold wrap32; omega
    · subst h
      simp [wrap32]
    · have h1 : (n : Int) - (k : Int) ≠ 0 := by omega
      have h2 : ¬ n < k + 1 := by omega
      have h3 : ¬ n < k := by omega
      simp only [h3, h1, h2, if_false, mul_zero, add_zero]
      rfl

theorem direct_dot_impulse (C : List Int) (a : Int) (m n L : Nat)
    (ha1 : -32768 ≤ a) (ha2 : a ≤ 32767)
    (hC : ∀ i, i < L → -32768 ≤ C.getD i 0 ∧ C.getD i 0 ≤ 32767) :
    direct_dot C (a :: List.replicate m 0) L n = if n < L then C.getD n 0 * a else 0 := by
  unfold direct_dot
  rw [direct_dot_impulse_upto]
  by_cases h : n < L
  · simp only [h, if_true]
    obtain ⟨h1, h2⟩ := mul_int16_bounds (hC n h).1 (hC n h).2 ha1 ha2
    exact wrap32_of_range (by omega) (by omega)
  · simp only [h, if_false]

/-- C2: impulse response. With `L` taps (`1 ≤ L ≤ 32767`), 16-bit coefficients
and a 16-bit amplitude `a`, feeding `a` at the first call after `fir_init` and
`0` at the `m` later calls makes `fir_process` return `saturate_16 (C[n] * a)`
at call `n < L` and exactly `0` at every call `n ≥ L`. -/
theorem fir_impulse_response (C d : List Int) (L m : Nat) (a : Int)
    (hL : 1 ≤ L) (hL16 : L ≤ 32767) (hC : L ≤ C.length) (hd : L ≤ d.length)
    (ha1 : -32768 ≤ a) (ha2 : a ≤ 32767)
    (hCr : ∀ i, i < L → -32768 ≤ C.getD i 0 ∧ C.getD i 0 ≤ 32767) :
    ∃ fir, process_fir_filter C d (L : Int) (a :: List.replicate m 0)
        = some (fir, (List.range (m + 1)).map
            (fun n => if n < L then saturate_16 (C.getD n 0 * a) else 0)) := by
  obtain ⟨fir, h⟩ := fir_stream_eq C d (a :: List.replicate m 0) L hL hL16 hC hd
  refine ⟨fir, ?_⟩
  rw [h]
  simp only [List.length_cons, List.length_replicate, Option.some.injEq, Prod.mk.injEq, true_and]
  apply List.map_congr_left
  intro n _
  rw [direct_dot_impulse C a m n L ha1 ha2 hCr]
  by_cases hn : n < L
  · simp only [hn, if_true]
  · simp only [hn, if_false]
    rfl

theorem fir_impulse_response_witness :
    ∃ fir, process_fir_filter [16384, -3, 7] [9, 9, 9] ((3 : Nat) : Int)
          (32767 :: List.replicate 4 0)
        = some (fir, (List.range (4 + 1)).map
            (fun n => if n < 3 then saturate_16 ([16384, -3, 7].getD n 0 * 32767) else 0)) :=
  fir_impulse_response [16384, -3, 7] [9, 9, 9] 3 4 32767
    (by decide) (by decide) (by decide) (by decide) (by decide) (by decide) (by decide)

theorem land_255_bounds (x : Int) : 0 ≤ Int.land x 255 ∧ Int.land x 255 ≤ 255 := by
  cases x with
  | ofNat m =>
    have h : Int.land (Int.ofNat m) 255 = ((m &&& 255 : Nat) : Int) := rfl
    rw [h]
    have := @Nat.and_le_right m 255
    omega
  | negSucc m =>
    have h : Int.land (Int.negSucc m) 255 = ((Nat.ldiff 255 m : Nat) : Int) := rfl
    rw [h]
    have : Nat.ldiff 255 m < 2 ^ 8 := by
      apply Nat.lt_pow_two_of_testBit
      intro i hi
      rw [Nat.testBit_ldiff]
      have : Nat.testBit 255 i = false :=
        Nat.testBit_eq_false_of_lt (lt_of_lt_of_le (by norm_num) (Nat.pow_le_pow_right (by norm_num) hi))
      simp [this]
    omega

/-- C5: whatever value the `simd_mac4` instruction returns, on the 4-tap filter
with coefficients `[-1, 0, 0, 0]`, a cleared delay line and the one-sample
block `[1]`, `fir_process_simd` writes a sample in `[0, 255]`, while
`fir_process` on the same state and sample returns `-1`. -/
theorem fir_process_simd_differs (simd_mac4 : List Int → List Int → Int) :
    (∃ fir y, fir_process_simd simd_mac4
        { coeffs := [-1, 0, 0, 0], delay_line := [0, 0, 0, 0], tap_count := 4, index := 0 } [1]
        = some (fir, [y]) ∧ 0 ≤ y ∧ y ≤ 255) ∧
    ∃ fir, fir_process_seq
        { coeffs := [-1, 0, 0, 0], delay_line := [0, 0, 0, 0], tap_count := 4, index := 0 } [1]
        = some (fir, [-1]) := by
  constructor
  · obtain ⟨h0, h1⟩ := land_255_bounds
      (Int.shiftRight (wrap32 (simd_mac4 [-1, 0, 0, 0] [1, 0, 0, 0])) 24)
    refine ⟨{ coeffs := [-1, 0, 0, 0], delay_line := [1, 0, 0, 0], tap_count := 4, index := 1 }, saturate_16 (wrap32 (0 + Int.land
      (Int.shiftRight (wrap32 (simd_mac4 [-1, 0, 0, 0] [1, 0, 0, 0])) 24) 255)), ?_, ?_, ?_⟩
    · rfl
    · rw [wrap32_of_range (by omega) (by omega)]
      unfold saturate_16 wrap16
      split_ifs <;> omega
    · rw [wrap32_of_range (by omega) (by omega)]
      unfold saturate_16 wrap16
      split_ifs <;> omega
  · exact ⟨{ coeffs := [-1, 0, 0, 0], delay_line := [1, 0, 0, 0], tap_count := 4, index := 1 }, by decide⟩

/-! ## FFT: index safety, totality and the inverse transform -/

theorem saturate_16_range (v : Int) : -32768 ≤ saturate_16 v ∧ saturate_16 v ≤ 32767 := by
  unfold saturate_16 wrap16
  split_ifs <;> omega

theorem saturate_16_of_range {v : Int} (h1 : -32768 ≤ v) (h2 : v ≤ 32767) : saturate_16 v = v := by
  unfold saturate_16 wrap16
  split_ifs <;> omega

theorem lor_natCast (a b : Nat) : Int.lor (a : Int) (b : Int) = ((a ||| b : Nat) : Int) := rfl

theorem land_natCast (a b : Nat) : Int.land (a : Int) (b : Int) = ((a &&& b : Nat) : Int) := rfl

theorem shiftRight_natCast (a n : Nat) : Int.shiftRight (a : Int) n = ((a >>> n : Nat) : Int) := rfl

/-- One iteration of the loop of `bit_reverse` on non-negative 16-bit values. -/
theorem bit_reverse_step (r x : Nat) (hr : r < 16384) (hx : x < 32768) :
    (wrap16 (Int.lor (wrap32 ((r : Int) * 2)) (Int.land (x : Int) 1)),
      wrap16 (Int.shiftRight (x : Int) 1))
      = (((2 * r + x % 2 : Nat) : Int), ((x / 2 : Nat) : Int)) := by
  have h1 : wrap32 ((r : Int) * 2) = ((2 * r : Nat) : Int) := by
    rw [wrap32_of_range (by omega) (by omega)]; push_cast; ring
  have h2 : Int.land (x : Int) 1 = ((x % 2 : Nat) : Int) := by
    have := land_natCast x 1
    rw [Nat.and_one_is_mod] at this
    exact this
  have h3 : (2 * r ||| x % 2) = 2 * r + x % 2 := by
    have := Nat.mul_add_lt_is_or (i := 1) (b := x % 2) (by omega) r
    simpa using this.symm
  have h4 : Int.shiftRight (x : Int) 1 = ((x / 2 : Nat) : Int) := by
    rw [shiftRight_natCast, Nat.shiftRight_eq_div_pow]
  rw [h1, h2, lor_natCast, h3, h4, wrap16_of_range (by omega) (by omega),
    wrap16_of_range (by omega) (by omega)]

/-- State of the loop of `bit_reverse` after `j` iterations, on naturals. -/
theorem bit_reverse_loop (x : Nat) (hx : x < 32768) (j : Nat) (hj : j ≤ 14) :
    ∃ r y : Nat, (List.range j).foldl
        (fun (s : Int × Int) (_ : Nat) =>
          (wrap16 (Int.lor (wrap32 (s.1 * 2)) (Int.land s.2 1)), wrap16 (Int.shiftRight s.2 1)))
        ((0 : Int), (x : Int)) = ((r : Int), (y : Int)) ∧ r < 2 ^ j ∧ y < 32768 := by
  induction j with
  | zero => exact ⟨0, x, rfl, by simp, hx⟩
  | succ j ih =>
    obtain ⟨r, y, h, hr, hy⟩ := ih (by omega)
    have hr' : r < 16384 := lt_of_lt_of_le hr
      (by calc 2 ^ j ≤ 2 ^ 13 := Nat.pow_le_pow_right (by norm_num) (by omega)
            _ = 8192 := by norm_num
            _ ≤ 16384 := by norm_num)
    refine ⟨2 * r + y % 2, y / 2, ?_, ?_, by omega⟩
    · rw [List.range_succ, List.foldl_append, h]
      simp only [List.foldl_cons, List.foldl_nil]
      exact bit_reverse_step r y hr' hy
    · rw [pow_succ]; omega

theorem bit_reverse_bounds (i m : Nat) (hm : m ≤ 14) (hi : i < 2 ^ m) :
    0 ≤ bit_reverse (wrap16 (i : Int)) (m : Int) ∧ bit_reverse (wrap16 (i : Int)) (m : Int) < (2 : Int) ^ m := by
  have h14 : 2 ^ m ≤ 2 ^ 14 := Nat.pow_le_pow_right (by norm_num) hm
  have hi' : i < 32768 := by
    have : (2 : Nat) ^ 14 = 16384 := by norm_num
    omega
  obtain ⟨r, y, h, hr, _⟩ := bit_reverse_loop i hi' m hm
  have hw : wrap16 (i : Int) = (i : Int) := wrap16_of_range (by omega) (by omega)
  unfold bit_reverse
  rw [hw, Int.toNat_ofNat, h]
  constructor
  · exact Int.natCast_nonneg r
  · show (r : Int) < _
    exact_mod_cast hr

theorem foldlM_invariant {α β : Type} (P : β → Prop) (f : β → α → Option β) :
    ∀ (l : List α) (b : β), (∀ a ∈ l, ∀ b, P b → ∃ b', f b a = some b' ∧ P b') → P b →
      ∃ b', l.foldlM f b = some b' ∧ P b'
  | [], b, _, hb => ⟨b, rfl, hb⟩
  | a :: l, b, h, hb => by
    obtain ⟨b1, h1, hb1⟩ := h a (List.mem_cons_self a l) b hb
    obtain ⟨b2, h2, hb2⟩ := foldlM_invariant P f l b1
      (fun a' ha' => h a' (List.mem_cons_of_mem a ha')) hb1
    refine ⟨b2, ?_, hb2⟩
    simp only [List.foldlM_cons, h1, Option.bind_eq_bind, Option.some_bind, h2]

theorem hblock_set_same (h : Heap) (b : Nat) (O : List complex_t) (hb : b < h.length) :
    hblock (h.set b (some O)) (some b) = some O := by
  simp [hblock, List.getElem?_set_self hb]

theorem hblock_set_ne (h : Heap) (b b' : Nat) (v : Option (List complex_t)) (hne : b ≠ b') :
    hblock (h.set b v) (some b') = hblock h (some b') := by
  simp [hblock, List.getElem?_set_ne hne]

theorem hblock_of_getElem? (h : Heap) (b : Nat) (O : List complex_t)
    (hb : h[b]? = some (some O)) : hblock h (some b) = some O := by
  simp [hblock, hb]

theorem hload_set_same (h : Heap) (b : Nat) (O : List complex_t) (i : Int) (hb : b < h.length) :
    hload (h.set b (some O)) (some b) i = rd O i := by
  simp [hload, hblock_set_same h b O hb]

theorem hload_set_ne (h : Heap) (b b' : Nat) (v : Option (List complex_t)) (i : Int)
    (hne : b ≠ b') : hload (h.set b v) (some b') i = hload h (some b') i := by
  simp [hload, hblock_set_ne h b b' v hne]

theorem hload_of_getElem? (h : Heap) (b : Nat) (O : List complex_t) (i : Int)
    (hb : h[b]? = some (some O)) : hload h (some b) i = rd O i := by
  simp [hload, hblock_of_getElem? h b O hb]

theorem hstore_set_same (h : Heap) (b : Nat) (O : List complex_t) (i : Int) (v : complex_t)
    (hb : b < h.length) (h0 : 0 ≤ i) (h1 : i < O.length) :
    hstore (h.set b (some O)) (some b) i v = some (h.set b (some (O.set i.toNat v))) := by
  simp [hstore, hblock_set_same h b O hb, wr_eq_some O v h0 h1, List.set_set]

theorem hstore_of_getElem? (h : Heap) (b : Nat) (O : List complex_t) (i : Int) (v : complex_t)
    (hb : h[b]? = some (some O)) (h0 : 0 ≤ i) (h1 : i < O.length) :
    hstore h (some b) i v = some (h.set b (some (O.set i.toNat v))) := by
  simp [hstore, hblock_of_getElem? h b O hb, wr_eq_some O v h0 h1]

theorem rd_eq_some_getElem {α : Type} (a : List α) (i : Nat) (hi : i < a.length) :
    rd a (i : Int) = some a[i] := by
  rw [rd_eq_getElem?, List.getElem?_eq_getElem hi]

theorem complex_add_int16 (a b : complex_t) : int16c (complex_add a b) := by
  unfold int16c complex_add
  exact ⟨(saturate_16_range _).1, (saturate_16_range _).2, (saturate_16_range _).1,
    (saturate_16_range _).2⟩

theorem complex_sub_int16 (a b : complex_t) : int16c (complex_sub a b) := by
  unfold int16c complex_sub
  exact ⟨(saturate_16_range _).1, (saturate_16_range _).2, (saturate_16_range _).1,
    (saturate_16_range _).2⟩

theorem int16c_of_mem_set {O : List complex_t} {i : Nat} {v c : complex_t}
    (hO : ∀ c ∈ O, int16c c) (hv : int16c v) (hc : c ∈ O.set i v) : int16c c := by
  rcases List.mem_or_eq_of_mem_set hc with h | h
  · exact hO c h
  · rw [h]; exact hv

/-- A butterfly with in-range indices succeeds and keeps the output block a
block of `N` 16-bit samples. -/
theorem fft_butterfly_total (h : Heap) (fft : fft_t) (tw out N G Q : Nat) (T : List complex_t)
    (htw : fft.twiddle_factors = some tw) (hT : h[tw]? = some (some T)) (hTlen : N ≤ T.length)
    (hne : tw ≠ out) (hout : out < h.length)
    (hN : N = 2 * G * Q) (hN14 : N ≤ 16384)
    (g k : Nat) (hg : g < Q) (hk : k < G) (H : Heap) (hH : OutInv h out N H) :
    ∃ H', fft_butterfly fft (some out) (G : Int) (Q : Int) ((g : Int) * (2 * (G : Int))) H k
      = some H' ∧ OutInv h out N H' := by
  obtain ⟨O, rfl, hOlen, hO⟩ := hH
  have h1 : k * Q < G * Q := Nat.mul_lt_mul_of_pos_right hk (by omega)
  have h2 : (g + 1) * (2 * G) ≤ Q * (2 * G) := Nat.mul_le_mul_right _ (by omega)
  have h3 : Q * (2 * G) = N := by rw [hN]; ring
  have h4 : (g + 1) * (2 * G) = g * (2 * G) + 2 * G := by ring
  have h5 : G * Q + G * Q = N := by rw [hN]; ring
  have e1 : (k : Int) * (Q : Int) = ((k * Q : Nat) : Int) := by push_cast; ring
  have e2 : (g : Int) * (2 * (G : Int)) + (k : Int) = ((g * (2 * G) + k : Nat) : Int) := by
    push_cast; ring
  have e3 : (g : Int) * (2 * (G : Int)) + (k : Int) + (G : Int)
      = ((g * (2 * G) + k + G : Nat) : Int) := by push_cast; ring
  have w1 : wrap16 ((k : Int) * (Q : Int)) = ((k * Q : Nat) : Int) := by
    rw [e1]; exact wrap16_of_range (by omega) (by omega)
  have w2 : wrap16 ((g : Int) * (2 * (G : Int)) + (k : Int)) = ((g * (2 * G) + k : Nat) : Int) := by
    rw [e2]; exact wrap16_of_range (by omega) (by omega)
  have w3 : wrap16 ((g : Int) * (2 * (G : Int)) + (k : Int) + (G : Int))
      = ((g * (2 * G) + k + G : Nat) : Int) := by
    rw [e3]; exact wrap16_of_range (by omega) (by omega)
  have i1 : g * (2 * G) + k < O.length := by omega
  have i2 : g * (2 * G) + k + G < O.length := by omega
  have i0 : k * Q < T.length := by omega
  have l0 : hload (h.set out (some O)) fft.twiddle_factors ((k * Q : Nat) : Int)
      = some T[k * Q] := by
    rw [htw, hload_set_ne h out tw _ _ (Ne.symm hne), hload_of_getElem? h tw T _ hT,
      rd_eq_some_getElem T _ i0]
  have l2 : hload (h.set out (some O)) (some out) ((g * (2 * G) + k + G : Nat) : Int)
      = some O[g * (2 * G) + k + G] := by
    rw [hload_set_same h out O _ hout, rd_eq_some_getElem O _ i2]
  have l1 : hload (h.set out (some O)) (some out) ((g * (2 * G) + k : Nat) : Int)
      = some O[g * (2 * G) + k] := by
    rw [hload_set_same h out O _ hout, rd_eq_some_getElem O _ i1]
  have s1 := hstore_set_same h out O ((g * (2 * G) + k : Nat) : Int)
    (complex_add O[g * (2 * G) + k] (complex_mul O[g * (2 * G) + k + G] T[k * Q]))
    hout (by omega) (by omega)
  have s2 := hstore_set_same h out
    (O.set (g * (2 * G) + k)
      (complex_add O[g * (2 * G) + k] (complex_mul O[g * (2 * G) + k + G] T[k * Q])))
    ((g * (2 * G) + k + G : Nat) : Int)
    (complex_sub O[g * (2 * G) + k] (complex_mul O[g * (2 * G) + k + G] T[k * Q]))
    hout (by omega) (by rw [List.length_set]; omega)
  simp only [Int.toNat_ofNat] at s1 s2
  refine ⟨h.set out (some ((O.set (g * (2 * G) + k)
      (complex_add O[g * (2 * G) + k] (complex_mul O[g * (2 * G) + k + G] T[k * Q]))).set
        (g * (2 * G) + k + G)
      (complex_sub O[g * (2 * G) + k] (complex_mul O[g * (2 * G) + k + G] T[k * Q])))), ?_,
    ⟨_, rfl, ?_, ?_⟩⟩
  · unfold fft_butterfly
    simp only [w1, w2, w3, l0, l1, l2, Option.bind_eq_bind, Option.some_bind]
    rw [s1]
    simp only [Option.some_bind]
    rw [s2]
  · simp only [List.length_set]; exact hOlen
  · intro c hc
    exact int16c_of_mem_set (fun c hc => int16c_of_mem_set hO (complex_add_int16 _ _) hc)
      (complex_sub_int16 _ _) hc

theorem two_pow_le_16384 {m : Nat} (hm : m ≤ 14) : 2 ^ m ≤ 16384 :=
  calc 2 ^ m ≤ 2 ^ 14 := Nat.pow_le_pow_right (by norm_num) hm
    _ = 16384 := by norm_num

theorem stage_split (m s : Nat) (hs : s < m) : 2 ^ m = 2 * 2 ^ s * 2 ^ (m - s - 1) := by
  have : m = 1 + s + (m - s - 1) := by omega
  conv_lhs => rw [this]
  rw [pow_add, pow_add]; ring

/-- The loop parameters of stage `s` of a transform of size `2 ^ m`. -/
theorem fft_stage_params (m s : Nat) (hm : m ≤ 14) (hs : s < m) :
    cshl 1 (s : Int) = some ((2 ^ s : Nat) : Int) ∧
    wrap16 ((2 ^ s : Nat) : Int) = ((2 ^ s : Nat) : Int) ∧
    cshr ((2 : Int) ^ m) ((s : Int) + 1) = some ((2 ^ (m - s - 1) : Nat) : Int) ∧
    wrap16 ((2 ^ (m - s - 1) : Nat) : Int) = ((2 ^ (m - s - 1) : Nat) : Int) ∧
    (((2 : Int) ^ m + 2 * ((2 ^ s : Nat) : Int) - 1) / (2 * ((2 ^ s : Nat) : Int))).toNat
      = 2 ^ (m - s - 1) := by
  have hG : 2 ^ s ≤ 16384 := two_pow_le_16384 (by omega)
  have hQ : 2 ^ (m - s - 1) ≤ 16384 := two_pow_le_16384 (by omega)
  have hN : 2 ^ m ≤ 16384 := two_pow_le_16384 hm
  have hGpos : 0 < 2 ^ s := pow_pos (by norm_num) _
  have hsplit := stage_split m s hs
  have hdiv : 2 ^ m / 2 ^ (s + 1) = 2 ^ (m - s - 1) := by
    rw [Nat.pow_div (by omega) (by norm_num)]
    congr 1
  have e2m : ((2 : Int) ^ m) = ((2 ^ m : Nat) : Int) := by push_cast; rfl
  have e2s : ((2 : Int) ^ s) = ((2 ^ s : Nat) : Int) := by push_cast; rfl
  rw [e2m]
  generalize 2 ^ s = G at *
  generalize 2 ^ (m - s - 1) = Q at *
  generalize 2 ^ m = N at *
  refine ⟨?_, wrap16_of_range (by omega) (by omega), ?_, wrap16_of_range (by omega) (by omega), ?_⟩
  · have h1 : (0 : Int) ≤ (s : Int) ∧ (s : Int) < 32 := by omega
    simp only [cshl, h1, and_self, if_true, Int.toNat_ofNat, one_mul]
    rw [e2s, wrap32_of_range (by omega) (by omega)]
  · have h1 : (0 : Int) ≤ (s : Int) + 1 ∧ (s : Int) + 1 < 32 := by omega
    have h2 : ((s : Int) + 1).toNat = s + 1 := by omega
    simp only [cshr, h1, and_self, if_true, h2]
    rw [shiftRight_natCast, Nat.shiftRight_eq_div_pow, hdiv]
  · have e : (N : Int) + 2 * (G : Int) - 1 = (2 * (G : Int) - 1) + (2 * (G : Int)) * (Q : Int) := by
      rw [hsplit]; push_cast; ring
    rw [e, Int.add_mul_ediv_left _ _ (by omega), Int.ediv_eq_zero_of_lt (by omega) (by omega)]
    simp

/-- Every stage of the transform succeeds and keeps the output block a block of
`2 ^ m` 16-bit samples. -/
theorem fft_stage_total (h : Heap) (fft : fft_t) (tw out m : Nat) (T : List complex_t)
    (hm : m ≤ 14) (hsize : fft.fft_size = (2 : Int) ^ m)
    (htw : fft.twiddle_factors = some tw) (hT : h[tw]? = some (some T)) (hTlen : 2 ^ m ≤ T.length)
    (hne : tw ≠ out) (hout : out < h.length)
    (s : Nat) (hs : s < m) (H : Heap) (hH : OutInv h out (2 ^ m) H) :
    ∃ H', fft_stage fft (some out) H s = some H' ∧ OutInv h out (2 ^ m) H' := by
  obtain ⟨p1, p2, p3, p4, p5⟩ := fft_stage_params m s hm hs
  have hGpos : 0 < 2 ^ s := pow_pos (by norm_num) _
  have hNpos : 0 < 2 ^ m := pow_pos (by norm_num) _
  have hsz : ¬ ((2 : Int) ^ m ≤ 0) := not_le.mpr (pow_pos (by norm_num) _)
  have hgs : ¬ (((2 ^ s : Nat) : Int) ≤ 0) := not_le.mpr (by exact_mod_cast hGpos)
  have inner : ∀ g ∈ List.range (2 ^ (m - s - 1)), ∀ H1, OutInv h out (2 ^ m) H1 →
      ∃ H2, (List.range (2 ^ s)).foldlM
        (fft_butterfly fft (some out) ((2 ^ s : Nat) : Int) ((2 ^ (m - s - 1) : Nat) : Int)
          ((g : Int) * (2 * ((2 ^ s : Nat) : Int)))) H1 = some H2 ∧ OutInv h out (2 ^ m) H2 := by
    intro g hg H1 hH1
    exact foldlM_invariant (OutInv h out (2 ^ m)) _ _ H1
      (fun k hk H2 hH2 => fft_butterfly_total h fft tw out (2 ^ m) (2 ^ s) (2 ^ (m - s - 1)) T
        htw hT hTlen hne hout (stage_split m s hs) (two_pow_le_16384 hm) g k
        (List.mem_range.mp hg) (List.mem_range.mp hk) H2 hH2) hH1
  obtain ⟨H', hH', hinv⟩ := foldlM_invariant (OutInv h out (2 ^ m)) _ _ H inner hH
  refine ⟨H', ?_, hinv⟩
  unfold fft_stage
  simp only [hsize, p1, p2, p3, p4, p5, Option.bind_eq_bind, Option.some_bind, hsz, hgs, if_false,
    Int.toNat_ofNat]
  exact hH'

theorem heap_set_self (h : Heap) (b : Nat) (O : List complex_t) (hb : h[b]? = some (some O)) :
    h.set b (some O) = h := by
  apply List.ext_getElem?
  intro j
  by_cases hj : b = j
  · subst hj
    have hlt : b < h.length := by
      by_contra hc
      rw [List.getElem?_eq_none (by omega)] at hb
      exact Option.noConfusion hb
    rw [List.getElem?_set_self hlt, hb]
  · rw [List.getElem?_set_ne hj]

theorem lt_length_of_getElem? {α : Type} (l : List α) (b : Nat) (v : α) (hb : l[b]? = some v) :
    b < l.length := by
  by_contra hc
  rw [List.getElem?_eq_none (by omega)] at hb
  exact Option.noConfusion hb

/-- The bit-reversal copy loop of `fft_radix2` between two distinct blocks: after
`k` iterations the first `k` output entries are the permuted input entries. -/
theorem fft_copy_loop (h : Heap) (inp out m : Nat) (X O : List complex_t)
    (hm : m ≤ 14) (hX : h[inp]? = some (some X)) (hXlen : X.length = 2 ^ m)
    (hO : h[out]? = some (some O)) (hOlen : O.length = 2 ^ m) (hio : inp ≠ out)
    (k : Nat) (hk : k ≤ 2 ^ m) :
    ∃ O', (List.range k).foldlM
        (fun (h : Heap) (i : Nat) => do
          let reversed_index := bit_reverse (wrap16 (i : Int)) (m : Int)
          let v ← hload h (some inp) reversed_index
          hstore h (some out) (i : Int) v) h = some (h.set out (some O')) ∧
      O'.length = 2 ^ m ∧
      (∀ p, p < k → O'[p]? = X[(bit_reverse (wrap16 (p : Int)) (m : Int)).toNat]? ∧
        (bit_reverse (wrap16 (p : Int)) (m : Int)).toNat < 2 ^ m) ∧
      (∀ p, k ≤ p → O'[p]? = O[p]?) := by
  have hout : out < h.length := lt_length_of_getElem? h out _ hO
  induction k with
  | zero =>
    refine ⟨O, ?_, hOlen, by intro p hp; omega, fun _ _ => rfl⟩
    rw [heap_set_self h out O hO]; rfl
  | succ k ih =>
    obtain ⟨O1, h1, hlen1, hcp, hrest⟩ := ih (by omega)
    obtain ⟨hb0, hbN⟩ := bit_reverse_bounds k m hm (by omega)
    have hbN' : (bit_reverse (wrap16 (k : Int)) (m : Int)).toNat < 2 ^ m := by
      have : ((2 : Int) ^ m) = ((2 ^ m : Nat) : Int) := by push_cast; rfl
      omega
    have hl : hload (h.set out (some O1)) (some inp) (bit_reverse (wrap16 (k : Int)) (m : Int))
        = some X[(bit_reverse (wrap16 (k : Int)) (m : Int)).toNat] := by
      rw [hload_set_ne h out inp _ _ (Ne.symm hio), hload_of_getElem? h inp X _ hX,
        rd_of_nonneg _ hb0, List.getElem?_eq_getElem (by omega)]
    have hs := hstore_set_same h out O1 (k : Int)
      X[(bit_reverse (wrap16 (k : Int)) (m : Int)).toNat] hout (by omega) (by omega)
    simp only [Int.toNat_ofNat] at hs
    refine ⟨O1.set k X[(bit_reverse (wrap16 (k : Int)) (m : Int)).toNat], ?_, ?_, ?_, ?_⟩
    · rw [List.range_succ, List.foldlM_append, h1]
      simp only [Option.bind_eq_bind, Option.some_bind, List.foldlM_cons, List.foldlM_nil, hl, hs,
        Option.pure_def]
    · rw [List.length_set]; exact hlen1
    · intro p hp
      by_cases hpk : p = k
      · subst hpk
        rw [List.getElem?_set_self (by omega), List.getElem?_eq_getElem (by omega)]
        exact ⟨rfl, hbN'⟩
      · rw [List.getElem?_set_ne (fun e => hpk e.symm)]
        exact hcp p (by omega)
    · intro p hp
      rw [List.getElem?_set_ne (by omega)]
      exact hrest p (by omega)

/-- On a valid context with distinct input, output and twiddle blocks,
`fft_radix2` succeeds, writes only the output block, and leaves `2 ^ m` 16-bit
samples there. -/
theorem fft_radix2_total (h : Heap) (fft : fft_t) (tw inp out m : Nat) (T X O : List complex_t)
    (hm : m ≤ 14) (hsize : fft.fft_size = (2 : Int) ^ m) (hlog : fft.log2_size = (m : Int))
    (htw : fft.twiddle_factors = some tw) (hT : h[tw]? = some (some T)) (hTlen : 2 ^ m ≤ T.length)
    (hX : h[inp]? = some (some X)) (hXlen : X.length = 2 ^ m) (hXr : ∀ c ∈ X, int16c c)
    (hO : h[out]? = some (some O)) (hOlen : O.length = 2 ^ m)
    (hio : inp ≠ out) (hto : tw ≠ out) :
    ∃ F, fft_radix2 h fft (some inp) (some out) = some (h.set out (some F)) ∧
      F.length = 2 ^ m ∧ ∀ c ∈ F, int16c c := by
  have hout : out < h.length := lt_length_of_getElem? h out _ hO
  obtain ⟨O1, h1, hlen1, hcp, _⟩ := fft_copy_loop h inp out m X O hm hX hXlen hO hOlen hio
    (2 ^ m) (le_refl _)
  have hinv1 : OutInv h out (2 ^ m) (h.set out (some O1)) := by
    refine ⟨O1, rfl, hlen1, ?_⟩
    intro c hc
    obtain ⟨p, hp, hpc⟩ := List.getElem_of_mem hc
    obtain ⟨e, hlt⟩ := hcp p (by omega)
    rw [List.getElem?_eq_getElem hp, List.getElem?_eq_getElem (by omega), hpc] at e
    have : c ∈ X := by
      rw [Option.some.inj e]
      exact List.getElem_mem _
    exact hXr c this
  obtain ⟨H', hH', F, hF, hFlen, hFr⟩ := foldlM_invariant (OutInv h out (2 ^ m))
    (fft_stage fft (some out)) (List.range m) _
    (fun s hs H hH => fft_stage_total h fft tw out m T hm hsize htw hT hTlen hto hout s
      (List.mem_range.mp hs) H hH) hinv1
  refine ⟨F, ?_, hFlen, hFr⟩
  have e2m : ((2 : Int) ^ m).toNat = 2 ^ m := by
    have : ((2 : Int) ^ m) = ((2 ^ m : Nat) : Int) := by push_cast; rfl
    rw [this, Int.toNat_ofNat]
  unfold fft_radix2 fft_copy
  simp only [hsize, hlog, e2m, Int.toNat_ofNat]
  rw [h1]
  simp only [Option.bind_eq_bind, Option.some_bind]
  rw [hH', hF]

/-- A loop that rewrites entry `i` of one block at iteration `i` maps the block. -/
theorem heap_map_loop (h : Heap) (b N : Nat) (B : List complex_t) (f : complex_t → complex_t)
    (body : Heap → Nat → Option Heap) (hlen : B.length = N)
    (hbody : ∀ (O : List complex_t) (i : Nat) (hi : i < O.length), O.length = N →
      O[i]? = B[i]? → body (h.set b (some O)) i = some (h.set b (some (O.set i (f O[i]))))) :
    (List.range N).foldlM body (h.set b (some B)) = some (h.set b (some (B.map f))) := by
  have key : ∀ k, k ≤ N → ∃ O, (List.range k).foldlM body (h.set b (some B))
      = some (h.set b (some O)) ∧ O.length = N ∧
        (∀ p, p < k → O[p]? = (B[p]?).map f) ∧ (∀ p, k ≤ p → O[p]? = B[p]?) := by
    intro k
    induction k with
    | zero => intro _; exact ⟨B, rfl, hlen, by intro p hp; omega, fun _ _ => rfl⟩
    | succ k ih =>
      intro hk
      obtain ⟨O, h1, hOlen, hmap, hrest⟩ := ih (by omega)
      have hkO : k < O.length := by omega
      refine ⟨O.set k (f O[k]), ?_, ?_, ?_, ?_⟩
      · rw [List.range_succ, List.foldlM_append, h1]
        simp only [Option.bind_eq_bind, Option.some_bind, List.foldlM_cons, List.foldlM_nil]
        rw [hbody O k hkO hOlen (hrest k (le_refl _))]
        rfl
      · rw [List.length_set]; exact hOlen
      · intro p hp
        by_cases hpk : p = k
        · subst hpk
          have e := hrest p (le_refl _)
          rw [List.getElem?_eq_getElem hkO, List.getElem?_eq_getElem (by omega)] at e
          rw [List.getElem?_set_self hkO, List.getElem?_eq_getElem (by omega), Option.some.inj e]
          rfl
        · rw [List.getElem?_set_ne (fun e => hpk e.symm)]
          exact hmap p (by omega)
      · intro p hp
        rw [List.getElem?_set_ne (by omega)]
        exact hrest p (by omega)
  obtain ⟨O, h1, hOlen, hmap, _⟩ := key N (le_refl _)
  rw [h1]
  congr 3
  apply List.ext_getElem?
  intro p
  rw [List.getElem?_map]
  by_cases hp : p < N
  · exact hmap p hp
  · rw [List.getElem?_eq_none (by omega), List.getElem?_eq_none (by omega)]
    rfl

theorem ediv_int16_bounds {x d : Int} (hx1 : -32768 ≤ x) (hx2 : x ≤ 32768) (hd : 2 ≤ d) :
    -32768 ≤ x / d ∧ x / d ≤ 32767 := by
  have h1 := Int.ediv_mul_le x (by omega : d ≠ 0)
  have h2 := Int.lt_ediv_add_one_mul_self x (by omega : 0 < d)
  constructor
  · by_contra hc
    have : x / d + 1 ≤ -32768 := by omega
    nlinarith
  · by_contra hc
    have : 32768 ≤ x / d := by omega
    nlinarith

theorem shiftRight_eq_fdiv (x : Int) (m : Nat) : Int.shiftRight x m = Int.fdiv x (2 ^ m) := by
  have h := Int.shiftRight_eq_div_pow x m
  have h2 : Int.fdiv x (2 ^ m) = x / 2 ^ m := Int.fdiv_eq_ediv x (by positivity)
  rw [h2]
  rw [show (Int.shiftRight x m) = x >>> m from rfl, h]
  push_cast
  rfl

/-- The scaling step of `ifft_radix2` on a 16-bit sample, for `m ≥ 1`. -/
theorem scale_int16 (m : Nat) (hm1 : 1 ≤ m) (c : complex_t) (hc : int16c c) :
    ({ real := wrap16 (Int.shiftRight c.real m), imag := wrap16 (Int.shiftRight (-c.imag) m) }
      : complex_t) = conj_scale m c := by
  obtain ⟨h1, h2, h3, h4⟩ := hc
  have hd : (2 : Int) ≤ 2 ^ m := by
    calc (2 : Int) = 2 ^ 1 := by norm_num
      _ ≤ 2 ^ m := pow_le_pow_right₀ (by norm_num) hm1
  have e1 : Int.fdiv c.real (2 ^ m) = c.real / 2 ^ m := Int.fdiv_eq_ediv _ (by positivity)
  have e2 : Int.fdiv (-c.imag) (2 ^ m) = (-c.imag) / 2 ^ m := Int.fdiv_eq_ediv _ (by positivity)
  obtain ⟨a1, a2⟩ := ediv_int16_bounds (x := c.real) (d := 2 ^ m) h1 (by omega) hd
  obtain ⟨b1, b2⟩ := ediv_int16_bounds (x := -c.imag) (d := 2 ^ m) (by omega) (by omega) hd
  unfold conj_scale
  rw [shiftRight_eq_fdiv, shiftRight_eq_fdiv, e1, e2, wrap16_of_range a1 a2, wrap16_of_range b1 b2]

/-- C8: on a context of size `2 ^ m` with `1 ≤ m ≤ 14` whose twiddle table,
input block (16-bit samples) and output block are three distinct blocks of
`2 ^ m` entries, `ifft_radix2` succeeds; it leaves the input block conjugated in
16-bit arithmetic, and the output block is entry by entry
`(F[i].real >> m, (-F[i].imag) >> m)`, the quotients by `2 ^ m` rounded toward
minus infinity, where `F` is the block `fft_radix2` produces from the
conjugated input. -/
theorem ifft_radix2_conj_scale (h : Heap) (fft : fft_t) (tw inp out m : Nat)
    (T X O : List complex_t)
    (hm1 : 1 ≤ m) (hm : m ≤ 14)
    (hsize : fft.fft_size = (2 : Int) ^ m) (hlog : fft.log2_size = (m : Int))
    (htw : fft.twiddle_factors = some tw) (hT : h[tw]? = some (some T)) (hTlen : T.length = 2 ^ m)
    (hX : h[inp]? = some (some X)) (hXlen : X.length = 2 ^ m) (hXr : ∀ c ∈ X, int16c c)
    (hO : h[out]? = some (some O)) (hOlen : O.length = 2 ^ m)
    (hio : inp ≠ out) (hto : tw ≠ out) (hti : tw ≠ inp) :
    ∃ F, fft_radix2 (h.set inp (some (X.map conj16))) fft (some inp) (some out)
        = some ((h.set inp (some (X.map conj16))).set out (some F)) ∧
      F.length = 2 ^ m ∧
      ifft_radix2 h fft (some inp) (some out)
        = some ((h.set inp (some (X.map conj16))).set out (some (F.map (conj_scale m)))) := by
  have hinp : inp < h.length := lt_length_of_getElem? h inp _ hX
  have hout : out < h.length := lt_length_of_getElem? h out _ hO
  have e2m : ((2 : Int) ^ m).toNat = 2 ^ m := by
    have : ((2 : Int) ^ m) = ((2 ^ m : Nat) : Int) := by push_cast; rfl
    rw [this, Int.toNat_ofNat]
  -- conjugation loop
  have hconj := heap_map_loop h inp (2 ^ m) X conj16
    (fun (h : Heap) (i : Nat) => do
      let c ← hload h (some inp) (i : Int)
      hstore h (some inp) (i : Int) { c with imag := wrap16 (-c.imag) }) hXlen
    (by
      intro B i hi _ _
      have hs := hstore_set_same h inp B (i : Int) (conj16 B[i]) hinp (by omega) (by omega)
      simp only [Int.toNat_ofNat] at hs
      simp only [hload_set_same h inp B _ hinp, rd_eq_some_getElem B i hi, Option.bind_eq_bind,
        Option.some_bind]
      exact hs)
  rw [heap_set_self h inp X hX] at hconj
  -- forward transform of the conjugated input
  have hXc : ∀ c ∈ X.map conj16, int16c c := by
    intro c hc
    obtain ⟨a, ha, rfl⟩ := List.mem_map.mp hc
    obtain ⟨a1, a2, a3, a4⟩ := hXr a ha
    refine ⟨a1, a2, ?_, ?_⟩ <;> (simp only [conj16, wrap16]; omega)
  obtain ⟨F, hF, hFlen, hFr⟩ := fft_radix2_total (h.set inp (some (X.map conj16))) fft tw inp out m
    T (X.map conj16) O hm hsize hlog htw
    (by rw [List.getElem?_set_ne (Ne.symm hti)]; exact hT) (le_of_eq hTlen.symm)
    (by rw [List.getElem?_set_self hinp])
    (by rw [List.length_map]; exact hXlen) hXc
    (by rw [List.getElem?_set_ne hio]; exact hO) hOlen hio hto
  -- scaling loop
  have hout1 : out < (h.set inp (some (X.map conj16))).length := by
    rw [List.length_set]; exact hout
  have hm32 : (0 : Int) ≤ (m : Int) ∧ (m : Int) < 32 := by omega
  have hscale := heap_map_loop (h.set inp (some (X.map conj16))) out (2 ^ m) F (conj_scale m)
    (fun (h : Heap) (i : Nat) => do
      let c ← hload h (some out) (i : Int)
      let re ← cshr c.real fft.log2_size
      let h ← hstore h (some out) (i : Int) { c with real := wrap16 re }
      let c ← hload h (some out) (i : Int)
      let im ← cshr (-c.imag) fft.log2_size
      hstore h (some out) (i : Int) { c with imag := wrap16 im }) hFlen
    (by
      intro B i hi hBlen hBi
      have hc : int16c B[i] := by
        rw [List.getElem?_eq_getElem hi, List.getElem?_eq_getElem (by omega)] at hBi
        rw [Option.some.inj hBi]
        exact hFr _ (List.getElem_mem _)
      have l1 : hload ((h.set inp (some (X.map conj16))).set out (some B)) (some out) (i : Int)
          = some B[i] := by
        rw [hload_set_same _ out B _ hout1, rd_eq_some_getElem B i hi]
      have s1 := hstore_set_same (h.set inp (some (X.map conj16))) out B (i : Int)
        { B[i] with real := wrap16 (Int.shiftRight B[i].real m) } hout1 (by omega) (by omega)
      have l2 : hload ((h.set inp (some (X.map conj16))).set out
          (some (B.set i { B[i] with real := wrap16 (Int.shiftRight B[i].real m) })))
          (some out) (i : Int)
          = some { B[i] with real := wrap16 (Int.shiftRight B[i].real m) } := by
        rw [hload_set_same _ out _ _ hout1, rd_eq_getElem?, List.getElem?_set_self hi]
      have s2 := hstore_set_same (h.set inp (some (X.map conj16))) out
        (B.set i { B[i] with real := wrap16 (Int.shiftRight B[i].real m) }) (i : Int)
        { real := wrap16 (Int.shiftRight B[i].real m),
          imag := wrap16 (Int.shiftRight (-B[i].imag) m) } hout1 (by omega)
        (by rw [List.length_set]; omega)
      simp only [Int.toNat_ofNat, List.set_set] at s1 s2
      have c1 : cshr B[i].real fft.log2_size = some (Int.shiftRight B[i].real m) := by
        simp only [cshr, hlog, hm32, and_self, if_true, Int.toNat_ofNat]
      have c2 : cshr (-B[i].imag) fft.log2_size = some (Int.shiftRight (-B[i].imag) m) := by
        simp only [cshr, hlog, hm32, and_self, if_true, Int.toNat_ofNat]
      simp only [l1, c1, s1, l2, c2, s2, Option.bind_eq_bind, Option.some_bind]
      rw [scale_int16 m hm1 B[i] hc])
  refine ⟨F, hF, hFlen, ?_⟩
  unfold ifft_radix2
  simp only [hsize, e2m]
  rw [hconj]
  simp only [Option.bind_eq_bind, Option.some_bind]
  rw [hF]
  simp only [Option.some_bind]
  exact hscale

theorem ifft_radix2_conj_scale_witness :
    ∃ F, fft_radix2
          (([some [⟨32767, 0⟩, ⟨-32767, 0⟩], some [⟨100, -5⟩, ⟨-7, 3⟩], some [⟨0, 0⟩, ⟨0, 0⟩]] :
            Heap).set 1 (some (([⟨100, -5⟩, ⟨-7, 3⟩] : List complex_t).map conj16)))
          { twiddle_factors := some 0, temp_buffer := none, fft_size := 2, log2_size := 1 }
          (some 1) (some 2)
        = some ((([some [⟨32767, 0⟩, ⟨-32767, 0⟩], some [⟨100, -5⟩, ⟨-7, 3⟩],
            some [⟨0, 0⟩, ⟨0, 0⟩]] : Heap).set 1
              (some (([⟨100, -5⟩, ⟨-7, 3⟩] : List complex_t).map conj16))).set 2 (some F)) ∧
      F.length = 2 ^ 1 ∧
      ifft_radix2
          [some [⟨32767, 0⟩, ⟨-32767, 0⟩], some [⟨100, -5⟩, ⟨-7, 3⟩], some [⟨0, 0⟩, ⟨0, 0⟩]]
          { twiddle_factors := some 0, temp_buffer := none, fft_size := 2, log2_size := 1 }
          (some 1) (some 2)
        = some ((([some [⟨32767, 0⟩, ⟨-32767, 0⟩], some [⟨100, -5⟩, ⟨-7, 3⟩],
            some [⟨0, 0⟩, ⟨0, 0⟩]] : Heap).set 1
              (some (([⟨100, -5⟩, ⟨-7, 3⟩] : List complex_t).map conj16))).set 2
                (some (F.map (conj_scale 1)))) :=
  ifft_radix2_conj_scale
    [some [⟨32767, 0⟩, ⟨-32767, 0⟩], some [⟨100, -5⟩, ⟨-7, 3⟩], some [⟨0, 0⟩, ⟨0, 0⟩]]
    { twiddle_factors := some 0, temp_buffer := none, fft_size := 2, log2_size := 1 }
    0 1 2 1 [⟨32767, 0⟩, ⟨-32767, 0⟩] [⟨100, -5⟩, ⟨-7, 3⟩] [⟨0, 0⟩, ⟨0, 0⟩]
    (by decide) (by decide) (by decide) (by decide) rfl rfl rfl rfl rfl (by decide) rfl rfl
    (by decide) (by decide) (by decide)

/-- C6: round trip at `N = 4` with the Q15 twiddle table
`[(32767,0), (0,-32767), (-32767,0), (0,32767)]` on the impulse
`[(1,0), 0, 0, 0]`: `fft_radix2` returns `[(1,0), (1,0), (1,0), (1,0)]`, and
`ifft_radix2` of that spectrum returns
`[(8191,0), (-8192,-8192), (0,0), (-8192,8191)]`, so the first real component
differs from the input by 8190. -/
theorem fft_roundtrip_impulse_diverges :
    fft_radix2
        [some [⟨32767, 0⟩, ⟨0, -32767⟩, ⟨-32767, 0⟩, ⟨0, 32767⟩],
         some [⟨1, 0⟩, ⟨0, 0⟩, ⟨0, 0⟩, ⟨0, 0⟩],
         some [⟨0, 0⟩, ⟨0, 0⟩, ⟨0, 0⟩, ⟨0, 0⟩],
         some [⟨0, 0⟩, ⟨0, 0⟩, ⟨0, 0⟩, ⟨0, 0⟩]]
        { twiddle_factors := some 0, temp_buffer := none, fft_size := 4, log2_size := 2 }
        (some 1) (some 2)
      = some
        [some [⟨32767, 0⟩, ⟨0, -32767⟩, ⟨-32767, 0⟩, ⟨0, 32767⟩],
         some [⟨1, 0⟩, ⟨0, 0⟩, ⟨0, 0⟩, ⟨0, 0⟩],
         some [⟨1, 0⟩, ⟨1, 0⟩, ⟨1, 0⟩, ⟨1, 0⟩],
         some [⟨0, 0⟩, ⟨0, 0⟩, ⟨0, 0⟩, ⟨0, 0⟩]] ∧
    ifft_radix2
        [some [⟨32767, 0⟩, ⟨0, -32767⟩, ⟨-32767, 0⟩, ⟨0, 32767⟩],
         some [⟨1, 0⟩, ⟨0, 0⟩, ⟨0, 0⟩, ⟨0, 0⟩],
         some [⟨1, 0⟩, ⟨1, 0⟩, ⟨1, 0⟩, ⟨1, 0⟩],
         some [⟨0, 0⟩, ⟨0, 0⟩, ⟨0, 0⟩, ⟨0, 0⟩]]
        { twiddle_factors := some 0, temp_buffer := none, fft_size := 4, log2_size := 2 }
        (some 2) (some 3)
      = some
        [some [⟨32767, 0⟩, ⟨0, -32767⟩, ⟨-32767, 0⟩, ⟨0, 32767⟩],
         some [⟨1, 0⟩, ⟨0, 0⟩, ⟨0, 0⟩, ⟨0, 0⟩],
         some [⟨1, 0⟩, ⟨1, 0⟩, ⟨1, 0⟩, ⟨1, 0⟩],
         some [⟨8191, 0⟩, ⟨-8192, -8192⟩, ⟨0, 0⟩, ⟨-8192, 8191⟩]] := by
  constructor <;> decide

/-- C7: DC input at `N = 2` with the Q15 twiddle table `[(32767,0), (-32767,0)]`:
`fft_real` of the constant block `[1, 1]` returns `[(32767, 0), (-32766, 0)]`, so
bin 1 holds `-32766`, not a value near zero. -/
theorem fft_real_dc_leaks :
    fft_real
        [some [⟨32767, 0⟩, ⟨-32767, 0⟩], some [⟨0, 0⟩, ⟨0, 0⟩], some [⟨0, 0⟩, ⟨0, 0⟩]]
        { twiddle_factors := some 0, temp_buffer := some 1, fft_size := 2, log2_size := 1 }
        [1, 1] (some 2)
      = some [some [⟨32767, 0⟩, ⟨-32767, 0⟩], some [⟨1, 0⟩, ⟨1, 0⟩],
          some [⟨32767, 0⟩, ⟨-32766, 0⟩]] := by
  decide

/-- C9: at `N = 2`, with the Q15 twiddle table `[(32767,0), (-32767,0)]`, input
`[1, 0]` and the all-pass response `[32767, 32767]`, `fft_filter` writes
`[-1, 16383]`, while the filter with a single forward transform writes
`[0, 0]`: `fft_filter` transforms the input twice before the multiplication. -/
theorem fft_filter_transforms_twice :
    fft_filter [some [⟨32767, 0⟩, ⟨-32767, 0⟩], some [⟨0, 0⟩, ⟨0, 0⟩]]
        { twiddle_factors := some 0, temp_buffer := some 1, fft_size := 2, log2_size := 1 }
        [1, 0] [32767, 32767] [0, 0]
      = some ([some [⟨32767, 0⟩, ⟨-32767, 0⟩], some [⟨-1, 0⟩, ⟨16383, 0⟩], none],
          [-1, 16383]) ∧
    spectral_filter_once [some [⟨32767, 0⟩, ⟨-32767, 0⟩], some [⟨0, 0⟩, ⟨0, 0⟩]]
        { twiddle_factors := some 0, temp_buffer := some 1, fft_size := 2, log2_size := 1 }
        [1, 0] [32767, 32767] [0, 0]
      = some ([some [⟨32767, 0⟩, ⟨-32767, 0⟩], some [⟨0, 0⟩, ⟨0, 0⟩], none], [0, 0]) := by
  constructor <;> decide

/-- C10: at `a = b = (-32768, -32768)` the sum `ad + bc = 2^31` wraps in 32
bits, so `complex_mul` returns the imaginary part `-32768`, while the clamped
exact product has the imaginary part `32767`. -/
theorem complex_mul_corner_wraps :
    complex_mul ⟨-32768, -32768⟩ ⟨-32768, -32768⟩ = ⟨0, -32768⟩ ∧
    complex_mul_exact ⟨-32768, -32768⟩ ⟨-32768, -32768⟩ = ⟨0, 32767⟩ := by
  constructor <;> decide

theorem mul_int16_lt_of_ne {a b : Int} (ha1 : -32768 ≤ a) (ha2 : a ≤ 32767)
    (hb1 : -32768 ≤ b) (hb2 : b ≤ 32767) (hne : ¬ (a = -32768 ∧ b = -32768)) :
    a * b ≤ 1073741823 := by
  by_cases ha : a = -32768
  · have hb : -32767 ≤ b := by
      by_contra hc
      exact hne ⟨ha, by omega⟩
    subst ha
    nlinarith
  · have ha' : -32767 ≤ a := by omega
    rcases le_total 0 b with hb | hb
    · nlinarith [mul_nonneg (by linarith : (0 : Int) ≤ 32767 - a) hb]
    · nlinarith [mul_nonneg (by linarith : (0 : Int) ≤ a + 32767) (by linarith : (0 : Int) ≤ -b)]

/-- Away from the corner `a = b = (-32768, -32768)`, `complex_mul` on 16-bit
operands is the clamped exact complex product. -/
theorem complex_mul_eq_exact (a b : complex_t) (ha : int16c a) (hb : int16c b)
    (hne : ¬ (a.real = -32768 ∧ a.imag = -32768 ∧ b.real = -32768 ∧ b.imag = -32768)) :
    complex_mul a b = complex_mul_exact a b := by
  obtain ⟨a1, a2, a3, a4⟩ := ha
  obtain ⟨b1, b2, b3, b4⟩ := hb
  obtain ⟨p1, p2⟩ := mul_int16_bounds a1 a2 b1 b2
  obtain ⟨q1, q2⟩ := mul_int16_bounds a3 a4 b3 b4
  obtain ⟨r1, r2⟩ := mul_int16_bounds a1 a2 b3 b4
  obtain ⟨s1, s2⟩ := mul_int16_bounds a3 a4 b1 b2
  have hsum : a.real * b.imag + a.imag * b.real ≤ 2147483647 := by
    by_cases h1 : a.real = -32768 ∧ b.imag = -32768
    · have h2 : ¬ (a.imag = -32768 ∧ b.real = -32768) := fun h => hne ⟨h1.1, h.1, h.2, h1.2⟩
      have := mul_int16_lt_of_ne a3 a4 b1 b2 h2
      omega
    · have := mul_int16_lt_of_ne a1 a2 b3 b4 h1
      omega
  have m1 : mac 0 a.real b.real = a.real * b.real := by
    unfold mac; rw [zero_add, wrap32_of_range (by omega) (by omega)]
  have m2 : mac 0 a.imag b.imag = a.imag * b.imag := by
    unfold mac; rw [zero_add, wrap32_of_range (by omega) (by omega)]
  have m3 : mac 0 a.real b.imag = a.real * b.imag := by
    unfold mac; rw [zero_add, wrap32_of_range (by omega) (by omega)]
  have m4 : mac 0 a.imag b.real = a.imag * b.real := by
    unfold mac; rw [zero_add, wrap32_of_range (by omega) (by omega)]
  have hre : wrap32 (mac 0 a.real b.real - mac 0 a.imag b.imag)
      = a.real * b.real - a.imag * b.imag := by
    rw [m1, m2, wrap32_of_range (by omega) (by omega)]
  have him : wrap32 (mac 0 a.real b.imag + mac 0 a.imag b.real)
      = a.real * b.imag + a.imag * b.real := by
    rw [m3, m4, wrap32_of_range (by omega) (by omega)]
  have hsat : ∀ v : Int, saturate_16 v = clamp16 v := by
    intro v
    unfold saturate_16 clamp16 wrap16
    split_ifs <;> omega
  unfold complex_mul complex_mul_exact
  simp only [hre, him, hsat]

/-! ## Arithmetic primitives -/

/-- C11: `saturate_16` clamps: the result lies in `[-32768, 32767]`, equals `v`
when `v` is in that range, is `32767` above it and `-32768` below it.  For
16-bit operands the components of `complex_add` and `complex_sub` are
`saturate_16` of the exact sum and difference; they lie in `[-32768, 32767]` and
equal the exact sum or difference whenever that is in range. -/
theorem saturate_16_clamps (v : Int) (x y : complex_t) (hx : int16c x) (hy : int16c y) :
    (-32768 ≤ saturate_16 v ∧ saturate_16 v ≤ 32767) ∧
    (-32768 ≤ v → v ≤ 32767 → saturate_16 v = v) ∧
    (32767 < v → saturate_16 v = 32767) ∧
    (v < -32768 → saturate_16 v = -32768) ∧
    complex_add x y = ⟨saturate_16 (x.real + y.real), saturate_16 (x.imag + y.imag)⟩ ∧
    complex_sub x y = ⟨saturate_16 (x.real - y.real), saturate_16 (x.imag - y.imag)⟩ ∧
    int16c (complex_add x y) ∧ int16c (complex_sub x y) ∧
    (-32768 ≤ x.real + y.real → x.real + y.real ≤ 32767 →
      (complex_add x y).real = x.real + y.real) ∧
    (-32768 ≤ x.imag + y.imag → x.imag + y.imag ≤ 32767 →
      (complex_add x y).imag = x.imag + y.imag) ∧
    (-32768 ≤ x.real - y.real → x.real - y.real ≤ 32767 →
      (complex_sub x y).real = x.real - y.real) ∧
    (-32768 ≤ x.imag - y.imag → x.imag - y.imag ≤ 32767 →
      (complex_sub x y).imag = x.imag - y.imag) := by
  obtain ⟨x1, x2, x3, x4⟩ := hx
  obtain ⟨y1, y2, y3, y4⟩ := hy
  have ea : complex_add x y = ⟨saturate_16 (x.real + y.real), saturate_16 (x.imag + y.imag)⟩ := by
    unfold complex_add
    rw [wrap32_of_range (by omega) (by omega), wrap32_of_range (by omega) (by omega)]
  have es : complex_sub x y = ⟨saturate_16 (x.real - y.real), saturate_16 (x.imag - y.imag)⟩ := by
    unfold complex_sub
    rw [wrap32_of_range (by omega) (by omega), wrap32_of_range (by omega) (by omega)]
  refine ⟨saturate_16_range v, fun h1 h2 => saturate_16_of_range h1 h2, ?_, ?_, ea, es,
    complex_add_int16 x y, complex_sub_int16 x y, ?_, ?_, ?_, ?_⟩
  · intro h; unfold saturate_16; simp [h]
  · intro h
    unfold saturate_16
    have : ¬ (v > 32767) := by omega
    simp [this, h]
  · intro h1 h2; rw [ea]; exact saturate_16_of_range h1 h2
  · intro h1 h2; rw [ea]; exact saturate_16_of_range h1 h2
  · intro h1 h2; rw [es]; exact saturate_16_of_range h1 h2
  · intro h1 h2; rw [es]; exact saturate_16_of_range h1 h2

theorem saturate_16_clamps_witness :
    saturate_16 40000 = 32767 ∧
    (complex_add ⟨30000, -30000⟩ ⟨10000, 5⟩).imag = -30000 + 5 :=
  ⟨(saturate_16_clamps 40000 ⟨30000, -30000⟩ ⟨10000, 5⟩ (by decide) (by decide)).2.2.1
      (by decide),
    (saturate_16_clamps 40000 ⟨30000, -30000⟩ ⟨10000, 5⟩ (by decide) (by decide)).2.2.2.2.2.2.2.2.2.1
      (by decide) (by decide)⟩

/-- C18: for a 32-bit `v` whose biased value `v + 16384` does not overflow and
whose rounded quotient `floor((v + 16384) / 32768)` is a 16-bit value,
`round_16 v` is that quotient, so `32768 * r - 16384 ≤ v ≤ 32768 * r + 16383`
for the result `r` (round to nearest, halves up).  The result is not saturated:
`round_16 (2^30)` is `-32768`, the low 16 bits of `32768`. -/
theorem round_16_half_up (v : Int) (hv1 : -2147483648 ≤ v) (hv2 : v + 16384 ≤ 2147483647)
    (hr1 : -32768 ≤ Int.fdiv (v + 16384) 32768) (hr2 : Int.fdiv (v + 16384) 32768 ≤ 32767) :
    round_16 v = Int.fdiv (v + 16384) 32768 ∧
    32768 * round_16 v - 16384 ≤ v ∧ v ≤ 32768 * round_16 v + 16383 ∧
    round_16 1073741824 = -32768 := by
  have hf : Int.fdiv (v + 16384) 32768 = (v + 16384) / 32768 :=
    Int.fdiv_eq_ediv _ (by norm_num)
  rw [hf] at hr1 hr2 ⊢
  have hs : Int.shiftRight (v + 16384) 15 = (v + 16384) / 32768 := by
    rw [shiftRight_eq_fdiv, Int.fdiv_eq_ediv _ (by norm_num)]
    norm_num
  have e : round_16 v = (v + 16384) / 32768 := by
    unfold round_16
    rw [wrap32_of_range (by omega) (by omega), hs, wrap16_of_range hr1 hr2]
  refine ⟨e, ?_, ?_, by decide⟩
  · rw [e]; omega
  · rw [e]; omega

theorem round_16_half_up_witness :
    round_16 49152 = Int.fdiv (49152 + 16384) 32768 ∧
    32768 * round_16 49152 - 16384 ≤ 49152 ∧ 49152 ≤ 32768 * round_16 49152 + 16383 ∧
    round_16 1073741824 = -32768 :=
  round_16_half_up 49152 (by decide) (by decide) (by decide) (by decide)

/-! ## FFT context: initialisation and release -/

/-- C16: on an initialised context (both buffers live, distinct blocks)
`fft_cleanup` frees both blocks, nulls both pointers and keeps `fft_size` and
`log2_size`; a second `fft_cleanup` on the result frees nothing and returns the
heap and the context exactly as the first call left them. -/
theorem fft_cleanup_idempotent (h : Heap) (fft : fft_t) (tw tp : Nat) (T S : List complex_t)
    (htw : fft.twiddle_factors = some tw) (htp : fft.temp_buffer = some tp)
    (hT : h[tw]? = some (some T)) (hS : h[tp]? = some (some S)) (hne : tw ≠ tp) :
    fft_cleanup h fft
      = some ((h.set tw none).set tp none,
          { twiddle_factors := none, temp_buffer := none,
            fft_size := fft.fft_size, log2_size := fft.log2_size }) ∧
    fft_cleanup ((h.set tw none).set tp none)
        { twiddle_factors := none, temp_buffer := none,
          fft_size := fft.fft_size, log2_size := fft.log2_size }
      = some ((h.set tw none).set tp none,
          { twiddle_factors := none, temp_buffer := none,
            fft_size := fft.fft_size, log2_size := fft.log2_size }) := by
  constructor
  · have h1 : free_and_null h (some tw) = some (h.set tw none, none) := by
      simp [free_and_null, free, hblock, hT]
    have h2 : free_and_null (h.set tw none) (some tp) = some ((h.set tw none).set tp none, none) := by
      simp [free_and_null, free, hblock, List.getElem?_set_ne hne, hS]
    simp only [fft_cleanup, htw, htp, h1, h2, Option.bind_eq_bind, Option.some_bind,
      Option.pure_def]
  · rfl

theorem fft_cleanup_idempotent_witness :
    fft_cleanup [some [⟨32767, 0⟩, ⟨-32767, 0⟩], some [⟨1, 2⟩, ⟨3, 4⟩]]
        { twiddle_factors := some 0, temp_buffer := some 1, fft_size := 2, log2_size := 1 }
      = some (([some [⟨32767, 0⟩, ⟨-32767, 0⟩], some [⟨1, 2⟩, ⟨3, 4⟩]] : Heap).set 0 none |>.set 1 none,
          { twiddle_factors := none, temp_buffer := none, fft_size := 2, log2_size := 1 }) :=
  (fft_cleanup_idempotent [some [⟨32767, 0⟩, ⟨-32767, 0⟩], some [⟨1, 2⟩, ⟨3, 4⟩]]
    { twiddle_factors := some 0, temp_buffer := some 1, fft_size := 2, log2_size := 1 }
    0 1 [⟨32767, 0⟩, ⟨-32767, 0⟩] [⟨1, 2⟩, ⟨3, 4⟩] rfl rfl rfl rfl (by decide)).1

theorem fft_log2_pow (d : Nat) : ∀ (fuel : Nat) (c : Int), d ≤ 14 → d < fuel → 0 ≤ c →
    c + d ≤ 32767 → fft_log2 fuel ((2 : Int) ^ d) c = some (c + d) := by
  induction d with
  | zero =>
    intro fuel c _ hf _ _
    obtain ⟨f, rfl⟩ : ∃ f, fuel = f + 1 := ⟨fuel - 1, by omega⟩
    simp [fft_log2]
  | succ d ih =>
    intro fuel c hd hf hc hcd
    obtain ⟨f, rfl⟩ : ∃ f, fuel = f + 1 := ⟨fuel - 1, by omega⟩
    have hpos : (1 : Int) < 2 ^ (d + 1) := by
      have : (1 : Int) ≤ 2 ^ d := one_le_pow₀ (by norm_num)
      rw [pow_succ]; omega
    have hle : (2 : Int) ^ d ≤ 16384 := by
      have := two_pow_le_16384 (m := d) (by omega)
      exact_mod_cast this
    have hge : (0 : Int) ≤ 2 ^ d := by positivity
    have hs : Int.shiftRight ((2 : Int) ^ (d + 1)) 1 = 2 ^ d := by
      rw [shiftRight_eq_fdiv, Int.fdiv_eq_ediv _ (by norm_num), pow_succ]
      omega
    have h1 : wrap16 (Int.shiftRight ((2 : Int) ^ (d + 1)) 1) = 2 ^ d := by
      rw [hs]; exact wrap16_of_range (by omega) (by omega)
    have h2 : wrap16 (c + 1) = c + 1 := wrap16_of_range (by omega) (by omega)
    rw [fft_log2]
    simp only [gt_iff_lt, hpos, if_true, h1, h2]
    rw [ih f (c + 1) (by omega) (by omega) (by omega) (by push_cast at hcd ⊢; omega)]
    push_cast
    congr 1
    ring

/-- A loop that stores `f i` into entry `i` of one block. -/
theorem heap_fill_loop (h : Heap) (b N : Nat) (B : List complex_t) (f : Nat → complex_t)
    (hb : h[b]? = some (some B)) (hlen : B.length = N) :
    ∃ O : List complex_t, (List.range N).foldlM
        (fun (H : Heap) (i : Nat) => hstore H (some b) (i : Int) (f i)) h
        = some (h.set b (some O)) ∧ O.length = N ∧ ∀ p : Nat, p < N → O[p]? = some (f p) := by
  have hbl : b < h.length := lt_length_of_getElem? h b _ hb
  have key : ∀ j, j ≤ N → ∃ O : List complex_t, (List.range j).foldlM
      (fun (H : Heap) (i : Nat) => hstore H (some b) (i : Int) (f i)) h
        = some (h.set b (some O)) ∧ O.length = N ∧ ∀ p : Nat, p < j → O[p]? = some (f p) := by
    intro j
    induction j with
    | zero =>
      intro _
      refine ⟨B, ?_, hlen, by intro p hp; omega⟩
      rw [heap_set_self h b B hb]; rfl
    | succ j ih =>
      intro hj
      obtain ⟨O, h1, hOlen, hO⟩ := ih (by omega)
      have hs := hstore_set_same h b O (j : Int) (f j) hbl (by omega) (by omega)
      simp only [Int.toNat_ofNat] at hs
      refine ⟨O.set j (f j), ?_, by rw [List.length_set]; exact hOlen, ?_⟩
      · rw [List.range_succ, List.foldlM_append, h1]
        simp only [Option.bind_eq_bind, Option.some_bind, List.foldlM_cons, List.foldlM_nil, hs]
        rfl
      · intro p hp
        by_cases hpj : p = j
        · subst hpj; rw [List.getElem?_set_self (by omega)]
        · rw [List.getElem?_set_ne (fun e => hpj e.symm)]; exact hO p (by omega)
  exact key N (le_refl _)

/-- C17: for `size = 2^k` with `1 ≤ k ≤ 14`, `fft_init` returns a context with
`fft_size = size` and `log2_size = k` (so `2 ^ log2_size = fft_size`), whose
twiddle table and scratch buffer are two distinct live blocks of exactly `size`
entries; entry `i` of the table is the value `twiddle i size`. -/
theorem fft_init_invariant (twiddle : Int → Int → complex_t) (h : Heap) (k : Nat)
    (hk1 : 1 ≤ k) (hk : k ≤ 14) :
    ∃ (h1 : Heap) (fft : fft_t) (T S : List complex_t),
      fft_init twiddle h ((2 : Int) ^ k) = some (h1, fft) ∧
      fft.fft_size = (2 : Int) ^ k ∧ fft.log2_size = (k : Int) ∧
      (2 : Int) ^ fft.log2_size.toNat = fft.fft_size ∧
      hblock h1 fft.twiddle_factors = some T ∧ T.length = 2 ^ k ∧
      hblock h1 fft.temp_buffer = some S ∧ S.length = 2 ^ k ∧
      fft.twiddle_factors ≠ fft.temp_buffer ∧
      ∀ i : Nat, i < 2 ^ k → T[i]? = some (twiddle (i : Int) ((2 : Int) ^ k)) := by
  have e2m : ((2 : Int) ^ k).toNat = 2 ^ k := by
    have : ((2 : Int) ^ k) = ((2 ^ k : Nat) : Int) := by push_cast; rfl
    rw [this, Int.toNat_ofNat]
  have hlog := fft_log2_pow k 16 0 hk (by omega) (le_refl _) (by omega)
  rw [zero_add] at hlog
  obtain ⟨Z, hZ⟩ : ∃ Z : List complex_t, Z = List.replicate (2 ^ k) { real := 0, imag := 0 } :=
    ⟨_, rfl⟩
  have hZlen : Z.length = 2 ^ k := by rw [hZ, List.length_replicate]
  obtain ⟨h2, hh2⟩ : ∃ h2 : Heap, h2 = (h ++ [some Z]) ++ [some Z] := ⟨_, rfl⟩
  have htwb : h2[h.length]? = some (some Z) := by
    rw [hh2, List.getElem?_append_left (by simp), List.getElem?_append_right (le_refl _)]
    simp
  have htpb : h2[h.length + 1]? = some (some Z) := by
    rw [hh2, List.getElem?_append_right (by simp)]
    simp
  obtain ⟨T, hfill, hTlen, hT⟩ := heap_fill_loop h2 h.length (2 ^ k) Z
    (fun i => twiddle (i : Int) ((2 : Int) ^ k)) htwb hZlen
  have hbl : h.length < h2.length := lt_length_of_getElem? h2 _ _ htwb
  refine ⟨h2.set h.length (some T),
    { twiddle_factors := some h.length, temp_buffer := some (h.length + 1),
      fft_size := (2 : Int) ^ k, log2_size := (k : Int) }, T, Z, ?_, rfl, rfl, ?_, ?_, hTlen, ?_,
    hZlen, ?_, hT⟩
  · unfold fft_init
    simp only [hlog, Option.bind_eq_bind, Option.some_bind, malloc, e2m, ← hZ,
      List.length_append, List.length_singleton, ← hh2, hfill, Option.pure_def]
  · simp
  · exact hblock_set_same h2 h.length T hbl
  · rw [hblock_set_ne h2 h.length (h.length + 1) _ (by omega)]
    exact hblock_of_getElem? h2 _ Z htpb
  · simp

theorem fft_init_invariant_witness :
    ∃ (h1 : Heap) (fft : fft_t) (T S : List complex_t),
      fft_init (fun _ _ => ⟨7, 9⟩) [] ((2 : Int) ^ 3) = some (h1, fft) ∧
      fft.fft_size = (2 : Int) ^ 3 ∧ fft.log2_size = ((3 : Nat) : Int) ∧
      (2 : Int) ^ fft.log2_size.toNat = fft.fft_size ∧
      hblock h1 fft.twiddle_factors = some T ∧ T.length = 2 ^ 3 ∧
      hblock h1 fft.temp_buffer = some S ∧ S.length = 2 ^ 3 ∧
      fft.twiddle_factors ≠ fft.temp_buffer ∧
      ∀ i : Nat, i < 2 ^ 3 →
        T[i]? = some ((fun (_ _ : Int) => (⟨7, 9⟩ : complex_t)) (i : Int) ((2 : Int) ^ 3)) :=
  fft_init_invariant (fun _ _ => ⟨7, 9⟩) [] 3 (by decide) (by decide)

/-! ## FIR coefficient design -/

/-- A loop that rewrites entry `i` of an array with `f` at iteration `i`. -/
theorem list_map_loop (B : List Int) (N : Nat) (f : Int → Int) (hN : N ≤ B.length) :
    ∃ O : List Int, (List.range N).foldlM
        (fun (c : List Int) (i : Nat) => do
          let v ← rd c (i : Int)
          wr c (i : Int) (f v)) B = some O ∧
      O.length = B.length ∧ (∀ p, p < N → O[p]? = (B[p]?).map f) ∧
      (∀ p, N ≤ p → O[p]? = B[p]?) := by
  induction N with
  | zero => exact ⟨B, rfl, rfl, by intro p hp; omega, fun _ _ => rfl⟩
  | succ k ih =>
    obtain ⟨O, h1, hOlen, hmap, hrest⟩ := ih (by omega)
    have hk : k < O.length := by omega
    have hr : rd O (k : Int) = some O[k] := rd_eq_some_getElem O k hk
    have hw := wr_eq_some O (i := (k : Int)) (f O[k]) (by omega) (by omega)
    simp only [Int.toNat_ofNat] at hw
    refine ⟨O.set k (f O[k]), ?_, by rw [List.length_set]; exact hOlen, ?_, ?_⟩
    · rw [List.range_succ, List.foldlM_append, h1]
      simp only [Option.bind_eq_bind, Option.some_bind, List.foldlM_cons, List.foldlM_nil, hr, hw]
      rfl
    · intro p hp
      by_cases hpk : p = k
      · subst hpk
        have e := hrest p (le_refl _)
        rw [List.getElem?_eq_getElem hk, List.getElem?_eq_getElem (by omega)] at e
        rw [List.getElem?_set_self hk, List.getElem?_eq_getElem (by omega), Option.some.inj e]
        rfl
      · rw [List.getElem?_set_ne (fun e => hpk e.symm)]
        exact hmap p (by omega)
    · intro p hp
      rw [List.getElem?_set_ne (by omega)]
      exact hrest p (by omega)

/-- C13 (as amended): with `L` the coefficients the low-pass call leaves
(`taps ≥ 1` of them), `fir_design_highpass` returns `H` with
`H[i] = (int16_t)(-L[i])` for `i ≠ taps/2` and
`H[taps/2] = (int16_t)((int16_t)(-L[taps/2]) + 32767)`; hence `H[i] = -L[i]`
whenever `L[i]` is in `[-32767, 32767]`, and `H[taps/2] = 32767 - L[taps/2]`
whenever `L[taps/2]` is in `[0, 32767]`. -/
theorem fir_design_highpass_spec (lowpass : List Int → Int → Int → Int → Option (List Int))
    (coeffs L : List Int) (taps : Nat) (cutoff_freq sample_rate : Int)
    (hlp : lowpass coeffs (taps : Int) cutoff_freq sample_rate = some L)
    (ht : 1 ≤ taps) (hlen : taps ≤ L.length) :
    ∃ H : List Int,
      fir_design_highpass lowpass coeffs (taps : Int) cutoff_freq sample_rate = some H ∧
      H.length = L.length ∧
      (∀ i, i < taps → i ≠ taps / 2 → H.getD i 0 = wrap16 (-(L.getD i 0))) ∧
      H.getD (taps / 2) 0 = wrap16 (wrap16 (-(L.getD (taps / 2) 0)) + 32767) ∧
      (∀ i, i < taps → i ≠ taps / 2 → -32767 ≤ L.getD i 0 → L.getD i 0 ≤ 32767 →
        H.getD i 0 = -(L.getD i 0)) ∧
      (0 ≤ L.getD (taps / 2) 0 → L.getD (taps / 2) 0 ≤ 32767 →
        H.getD (taps / 2) 0 = 32767 - L.getD (taps / 2) 0) := by
  obtain ⟨O, h1, hOlen, hmap, _⟩ := list_map_loop L taps (fun v => wrap16 (-v)) hlen
  have hmidlt : taps / 2 < taps := by omega
  have hmid : cdiv (taps : Int) 2 = some ((taps / 2 : Nat) : Int) := by
    have h2 : (2 : Int) ≠ 0 := by norm_num
    simp only [cdiv, h2, if_false]
    rw [Int.tdiv_eq_ediv (by omega) (by norm_num)]
    congr 1
  have hOmid : O[taps / 2]? = some (wrap16 (-(L.getD (taps / 2) 0))) := by
    rw [hmap _ hmidlt, List.getD_eq_getElem?_getD, List.getElem?_eq_getElem (by omega)]
    rfl
  have hr : rd O ((taps / 2 : Nat) : Int) = some (wrap16 (-(L.getD (taps / 2) 0))) := by
    rw [rd_eq_getElem?, hOmid]
  have hw := wr_eq_some O (i := ((taps / 2 : Nat) : Int))
    (wrap16 (wrap16 (-(L.getD (taps / 2) 0)) + 32767)) (by omega) (by omega)
  simp only [Int.toNat_ofNat] at hw
  have hH1 : ∀ i, i < taps → i ≠ taps / 2 →
      (O.set (taps / 2) (wrap16 (wrap16 (-(L.getD (taps / 2) 0)) + 32767))).getD i 0
        = wrap16 (-(L.getD i 0)) := by
    intro i hi hne
    rw [List.getD_eq_getElem?_getD, List.getElem?_set_ne (fun e => hne e.symm), hmap i hi,
      List.getD_eq_getElem?_getD, List.getElem?_eq_getElem (by omega)]
    rfl
  have hH2 : (O.set (taps / 2) (wrap16 (wrap16 (-(L.getD (taps / 2) 0)) + 32767))).getD
      (taps / 2) 0 = wrap16 (wrap16 (-(L.getD (taps / 2) 0)) + 32767) := by
    rw [List.getD_eq_getElem?_getD, List.getElem?_set_self (by omega)]
    rfl
  refine ⟨O.set (taps / 2) (wrap16 (wrap16 (-(L.getD (taps / 2) 0)) + 32767)), ?_, ?_, hH1, hH2,
    ?_, ?_⟩
  · simp only [Option.bind_eq_bind] at h1
    unfold fir_design_highpass
    simp only [hlp, Option.bind_eq_bind, Option.some_bind, Int.toNat_ofNat, h1, hmid, hr, hw]
  · rw [List.length_set]; exact hOlen
  · intro i hi hne hl1 hl2
    rw [hH1 i hi hne]
    exact wrap16_of_range (by omega) (by omega)
  · intro hl1 hl2
    rw [hH2, wrap16_of_range (v := -(L.getD (taps / 2) 0)) (by omega) (by omega)]
    rw [wrap16_of_range (by omega) (by omega)]
    ring

theorem fir_design_highpass_spec_witness :
    ∃ H : List Int,
      fir_design_highpass (fun _ _ _ _ => some [-3, 5, 100, 7]) [0, 0, 0, 0] ((4 : Nat) : Int)
        1000 10000 = some H ∧
      H.length = [(-3 : Int), 5, 100, 7].length ∧
      (∀ i, i < 4 → i ≠ 4 / 2 → H.getD i 0 = wrap16 (-([(-3 : Int), 5, 100, 7].getD i 0))) ∧
      H.getD (4 / 2) 0 = wrap16 (wrap16 (-([(-3 : Int), 5, 100, 7].getD (4 / 2) 0)) + 32767) ∧
      (∀ i, i < 4 → i ≠ 4 / 2 → -32767 ≤ [(-3 : Int), 5, 100, 7].getD i 0 →
        [(-3 : Int), 5, 100, 7].getD i 0 ≤ 32767 →
        H.getD i 0 = -([(-3 : Int), 5, 100, 7].getD i 0)) ∧
      (0 ≤ [(-3 : Int), 5, 100, 7].getD (4 / 2) 0 → [(-3 : Int), 5, 100, 7].getD (4 / 2) 0 ≤ 32767 →
        H.getD (4 / 2) 0 = 32767 - [(-3 : Int), 5, 100, 7].getD (4 / 2) 0) :=
  fir_design_highpass_spec (fun _ _ _ _ => some [-3, 5, 100, 7]) [0, 0, 0, 0] [-3, 5, 100, 7] 4
    1000 10000 rfl (by decide) (by decide)

/-- C13 (counterexample): with the low-pass coefficients `L = [-32768, -1, 0]`
(`taps = 3`, centre tap 1) `fir_design_highpass` returns `[-32768, -32768, 0]`:
entry 0 is not `-L[0] = 32768` and the centre entry is not
`32767 - L[1] = 32768`. -/
theorem fir_design_highpass_wraps :
    fir_design_highpass (fun _ _ _ _ => some [-32768, -1, 0]) [0, 0, 0] 3 1000 10000
      = some [-32768, -32768, 0] ∧
    (-32768 : Int) ≠ -(-32768) ∧ (-32768 : Int) ≠ 32767 - (-1) := by
  refine ⟨by decide, by decide, by decide⟩

/-- C14: with the low-pass design `[16384]` at both cutoffs (`taps = 1`, so the
high-pass design is `[16383]`), `fir_design_bandpass` writes `[-1]`: the product
`16384 * 16383` is stored into the `int16_t` entry `coeffs[0]` (leaving `-16384`)
before the shift, while the full-precision convolution shifted right by 15 bits
is `8191`. -/
theorem fir_design_bandpass_truncates :
    fir_design_highpass (fun _ _ _ _ => some [16384]) [0] 1 1000 10000 = some [16383] ∧
    fir_design_bandpass (fun _ _ _ _ => some [16384]) [0] 1 1000 2000 10000 = some [-1] ∧
    bandpass_conv [16384] [16383] 0 = 8191 := by
  refine ⟨by decide, by decide, by decide⟩

theorem lowpass_tap0 : lowpass_tap_is 2 1 4 0 (2621.36 / Real.pi) := by
  have hpi := Real.pi_ne_zero
  have h1 : ¬ ((0 : Int) = Int.tdiv 2 2) := by decide
  have h2 : ((0 - Int.tdiv 2 2 : Int) : ℝ) = -1 := by
    have : (0 - Int.tdiv 2 2 : Int) = -1 := by decide
    rw [this]; norm_num
  have h3 : (((2 : Int) - 1 : Int) : ℝ) = 1 := by norm_num
  unfold lowpass_tap_is
  rw [if_neg h1, h2, h3]
  have hs : Real.sin (2 * Real.pi * ((1 : Int) : ℝ) / ((4 : Int) : ℝ) * -1) = -1 := by
    have : 2 * Real.pi * ((1 : Int) : ℝ) / ((4 : Int) : ℝ) * -1 = -(Real.pi / 2) := by
      push_cast; ring
    rw [this, Real.sin_neg, Real.sin_pi_div_two]
  have hc : Real.cos (2 * Real.pi * ((0 : Int) : ℝ) / 1) = 1 := by
    have : 2 * Real.pi * ((0 : Int) : ℝ) / 1 = 0 := by push_cast; ring
    rw [this, Real.cos_zero]
  rw [hs, hc]
  field_simp
  ring

theorem lowpass_tap1 : lowpass_tap_is 2 1 4 1 16383.5 := by
  have hpi := Real.pi_ne_zero
  have h1 : (1 : Int) = Int.tdiv 2 2 := by decide
  unfold lowpass_tap_is
  rw [if_pos h1]
  push_cast
  field_simp
  ring

theorem lowpass_tap_unique {taps cutoff_freq sample_rate i : Int} {r s : ℝ}
    (hr : lowpass_tap_is taps cutoff_freq sample_rate i r)
    (hs : lowpass_tap_is taps cutoff_freq sample_rate i s) : r = s := by
  unfold lowpass_tap_is at hr hs
  split_ifs at hr hs
  · rw [hr, hs]
  · rw [hr, hs]

theorem tap0_bounds : (834 : ℝ) < 2621.36 / Real.pi ∧ 2621.36 / Real.pi < 835 := by
  have h1 := Real.pi_gt_d2
  have h2 := Real.pi_lt_d4
  have hpos : (0 : ℝ) < Real.pi := Real.pi_pos
  constructor
  · rw [lt_div_iff₀ hpos]; nlinarith
  · rw [div_lt_iff₀ hpos]; nlinarith

theorem cast_int16_unique {r : ℝ} {c n : Int} (hc : cast_int16_is r c)
    (h0 : (n : ℝ) ≤ r) (h1 : r < (n : ℝ) + 1) (hn : 0 ≤ n) : c = n := by
  obtain ⟨_, _, hpos, _⟩ := hc
  have hr : (0 : ℝ) ≤ r := le_trans (by exact_mod_cast hn) h0
  obtain ⟨a, b⟩ := hpos hr
  have e1 : (c : ℝ) < (n : ℝ) + 1 := lt_of_le_of_lt a h1
  have e2 : (n : ℝ) < (c : ℝ) + 1 := lt_of_le_of_lt h0 b
  have e1' : c < n + 1 := by exact_mod_cast e1
  have e2' : n < c + 1 := by exact_mod_cast e2
  omega

/-- C15: for `taps = 2`, `cutoff_freq = 1`, `sample_rate = 4` (so
`0 < cutoff < sample_rate / 2`), reading the formula of `fir_design_lowpass` as
exact real arithmetic with truncating casts, the coefficients written are
`coeffs[0] = 834` and `coeffs[1] = 16383`, and no other values: the design is
not symmetric, `coeffs[0] ≠ coeffs[taps - 1 - 0]`. -/
theorem fir_design_lowpass_even_asymmetric :
    lowpass_coeff_is 2 1 4 0 834 ∧ lowpass_coeff_is 2 1 4 1 16383 ∧
    ∀ c0 c1 : Int, lowpass_coeff_is 2 1 4 0 c0 → lowpass_coeff_is 2 1 4 (2 - 1 - 0) c1 →
      c0 = 834 ∧ c1 = 16383 ∧ c0 ≠ c1 := by
  obtain ⟨b1, b2⟩ := tap0_bounds
  have hc0 : cast_int16_is (2621.36 / Real.pi) 834 := by
    refine ⟨by norm_num, by norm_num, fun _ => ⟨by push_cast; linarith, by push_cast; linarith⟩,
      fun h => ?_⟩
    exfalso; linarith
  have hc1 : cast_int16_is 16383.5 16383 := by
    refine ⟨by norm_num, by norm_num, fun _ => ⟨by norm_num, by norm_num⟩, fun h => ?_⟩
    exfalso; norm_num at h
  refine ⟨⟨_, lowpass_tap0, hc0⟩, ⟨_, lowpass_tap1, hc1⟩, ?_⟩
  intro c0 c1 ⟨r0, ht0, hr0⟩ ⟨r1, ht1, hr1⟩
  have e0 : r0 = 2621.36 / Real.pi := lowpass_tap_unique ht0 lowpass_tap0
  have e1 : r1 = 16383.5 := lowpass_tap_unique ht1 lowpass_tap1
  rw [e0] at hr0
  rw [e1] at hr1
  have a0 : c0 = 834 := cast_int16_unique hr0 (by push_cast; linarith) (by push_cast; linarith)
    (by norm_num)
  have a1 : c1 = 16383 := cast_int16_unique hr1 (by norm_num) (by norm_num) (by norm_num)
  refine ⟨a0, a1, ?_⟩
  rw [a0, a1]; decide

/-! ## Bit reversal -/

theorem ldiff_one (m : Nat) : Nat.ldiff 1 m = 1 - m % 2 := by
  apply Nat.eq_of_testBit_eq
  intro i
  rw [Nat.testBit_ldiff]
  cases i with
  | zero =>
    rcases Nat.mod_two_eq_zero_or_one m with h | h <;> simp [h]
  | succ i =>
    have h1 : Nat.testBit 1 (i + 1) = false :=
      Nat.testBit_lt_two_pow (lt_of_lt_of_le (by norm_num) (Nat.pow_le_pow_right (by norm_num)
        (by omega : 1 ≤ i + 1)))
    have h2 : Nat.testBit (1 - m % 2) (i + 1) = false :=
      Nat.testBit_lt_two_pow (lt_of_lt_of_le (by omega : 1 - m % 2 < 2 ^ 1)
        (Nat.pow_le_pow_right (by norm_num) (by omega : 1 ≤ i + 1)))
    rw [h1, h2]; rfl

theorem land_one (z : Int) : Int.land z 1 = z % 2 := by
  cases z with
  | ofNat m =>
    have h : Int.land (Int.ofNat m) 1 = ((m &&& 1 : Nat) : Int) := rfl
    rw [h, Nat.and_one_is_mod]
    rfl
  | negSucc m =>
    have h : Int.land (Int.negSucc m) 1 = ((Nat.ldiff 1 m : Nat) : Int) := rfl
    rw [h, ldiff_one]
    have : Int.negSucc m = -((m : Int) + 1) := rfl
    rw [this]
    omega

/-- One iteration of the loop of `bit_reverse` on 16-bit values. -/
theorem bit_reverse_step_int (r z : Int) (hr0 : 0 ≤ r) (hr : r < 16384)
    (hz1 : -32768 ≤ z) (hz2 : z ≤ 32767) :
    (wrap16 (Int.lor (wrap32 (r * 2)) (Int.land z 1)), wrap16 (Int.shiftRight z 1))
      = (2 * r + z % 2, z / 2) := by
  obtain ⟨a, rfl⟩ := Int.eq_ofNat_of_zero_le hr0
  have hb0 : 0 ≤ z % 2 := Int.emod_nonneg _ (by norm_num)
  obtain ⟨b, hb⟩ := Int.eq_ofNat_of_zero_le hb0
  have hb2 : b < 2 := by omega
  have h1 : wrap32 ((a : Int) * 2) = ((2 * a : Nat) : Int) := by
    rw [wrap32_of_range (by omega) (by omega)]; push_cast; ring
  have h3 : (2 * a ||| b) = 2 * a + b := by
    have := Nat.mul_add_lt_is_or (i := 1) (b := b) (by omega) a
    simpa using this.symm
  have h4 : Int.shiftRight z 1 = z / 2 := by
    rw [shiftRight_eq_fdiv, Int.fdiv_eq_ediv _ (by norm_num)]
    norm_num
  rw [h1, land_one, hb, lor_natCast, h3, h4, wrap16_of_range (by omega) (by omega),
    wrap16_of_range (by omega) (by omega)]
  push_cast
  rfl

theorem ediv_ediv_two (y a : Int) (ha : 0 < a) : y / a / 2 = y / (a * 2) := by
  have h1 := Int.ediv_mul_le y (ne_of_gt ha)
  have h2 := Int.lt_ediv_add_one_mul_self y ha
  have h3 : 2 * (y / a / 2) ≤ y / a := by omega
  have h4 : y / a ≤ 2 * (y / a / 2) + 1 := by omega
  symm
  have := (Int.ediv_emod_unique (a := y) (b := a * 2) (r := y - a * 2 * (y / a / 2))
    (q := y / a / 2) (by omega)).mpr ⟨by ring, by nlinarith, by nlinarith⟩
  exact this.1

theorem ediv_two_pow_succ (y : Int) (j : Nat) : y / 2 ^ j / 2 = y / 2 ^ (j + 1) := by
  rw [ediv_ediv_two _ _ (by positivity), pow_succ]

theorem ediv_two_pow_int16 (y : Int) (j : Nat) (h1 : -32768 ≤ y) (h2 : y ≤ 32767) :
    -32768 ≤ y / 2 ^ j ∧ y / 2 ^ j ≤ 32767 := by
  have hp : (0 : Int) < 2 ^ j := by positivity
  have hp1 : (1 : Int) ≤ 2 ^ j := by omega
  have a := Int.ediv_mul_le y (ne_of_gt hp)
  have b := Int.lt_ediv_add_one_mul_self y hp
  constructor
  · by_contra hc
    have : y / 2 ^ j + 1 ≤ -32768 := by omega
    nlinarith
  · by_contra hc
    have : 32768 ≤ y / 2 ^ j := by omega
    nlinarith

/-- State of the loop of `bit_reverse` after `j` iterations. -/
theorem bit_reverse_loop_int (y : Int) (h1 : -32768 ≤ y) (h2 : y ≤ 32767) (j : Nat)
    (hj : j ≤ 14) :
    (List.range j).foldl
        (fun (s : Int × Int) (_ : Nat) =>
          (wrap16 (Int.lor (wrap32 (s.1 * 2)) (Int.land s.2 1)), wrap16 (Int.shiftRight s.2 1)))
        ((0 : Int), y) = (rev_low_bits y j, y / 2 ^ j) ∧
      0 ≤ rev_low_bits y j ∧ rev_low_bits y j < 2 ^ j := by
  induction j with
  | zero => simp [rev_low_bits]
  | succ j ih =>
    obtain ⟨h, hr0, hr⟩ := ih (by omega)
    have hpow : (2 : Int) ^ j ≤ 8192 := by
      have : (2 : Nat) ^ j ≤ 2 ^ 13 := Nat.pow_le_pow_right (by norm_num) (by omega)
      have : ((2 ^ j : Nat) : Int) ≤ 8192 := by exact_mod_cast this
      simpa using this
    obtain ⟨z1, z2⟩ := ediv_two_pow_int16 y j h1 h2
    have hb0 : 0 ≤ (y / 2 ^ j) % 2 := Int.emod_nonneg _ (by norm_num)
    have hb1 : (y / 2 ^ j) % 2 < 2 := Int.emod_lt_of_pos _ (by norm_num)
    refine ⟨?_, ?_, ?_⟩
    · rw [List.range_succ, List.foldl_append, h]
      simp only [List.foldl_cons, List.foldl_nil]
      rw [bit_reverse_step_int _ _ hr0 (by omega) z1 z2, ediv_two_pow_succ]
      rfl
    · simp only [rev_low_bits]; omega
    · simp only [rev_low_bits]; rw [pow_succ]; omega

theorem bit_reverse_eq_rev (y : Int) (h1 : -32768 ≤ y) (h2 : y ≤ 32767) (n : Nat) (hn : n ≤ 14) :
    bit_reverse y (n : Int) = rev_low_bits y n := by
  unfold bit_reverse
  rw [Int.toNat_ofNat, (bit_reverse_loop_int y h1 h2 n hn).1]

theorem bit_of_emod (y : Int) (n j : Nat) (hj : j < n) :
    (y / 2 ^ j) % 2 = ((y % 2 ^ n) / 2 ^ j) % 2 := by
  have hsplit : (2 : Int) ^ n = 2 ^ j * (2 * 2 ^ (n - j - 1)) := by
    have : n = j + (1 + (n - j - 1)) := by omega
    conv_lhs => rw [this]
    rw [pow_add, pow_add, pow_one]
  have hy : y = y % 2 ^ n + 2 ^ j * (2 * 2 ^ (n - j - 1) * (y / 2 ^ n)) := by
    have := Int.emod_add_ediv y (2 ^ n)
    rw [hsplit] at this ⊢
    linarith
  have hne : (2 : Int) ^ j ≠ 0 := by positivity
  conv_lhs => rw [hy]
  rw [Int.add_mul_ediv_left _ _ hne, mul_assoc, Int.add_mul_emod_self_left]

theorem rev_low_bits_emod (y : Int) (n : Nat) : ∀ j, j ≤ n →
    rev_low_bits y j = rev_low_bits (y % 2 ^ n) j := by
  intro j
  induction j with
  | zero => intro _; rfl
  | succ j ih =>
    intro hj
    simp only [rev_low_bits]
    rw [ih (by omega), bit_of_emod y n j (by omega)]

theorem rev_low_bits_testBit (x : Nat) : ∀ n : Nat, ∃ r : Nat,
    rev_low_bits (x : Int) n = (r : Int) ∧ ∀ k, k < n → r.testBit k = x.testBit (n - 1 - k) := by
  intro n
  induction n with
  | zero => exact ⟨0, rfl, by intro k hk; omega⟩
  | succ n ih =>
    obtain ⟨r, hr, hbits⟩ := ih
    refine ⟨2 * r + x / 2 ^ n % 2, ?_, ?_⟩
    · simp only [rev_low_bits]
      rw [hr]
      push_cast
      rfl
    · intro k hk
      have hb : x / 2 ^ n % 2 < 2 := Nat.mod_lt _ (by norm_num)
      cases k with
      | zero =>
        rw [Nat.testBit_zero, Nat.testBit_to_div_mod]
        have : (2 * r + x / 2 ^ n % 2) % 2 = x / 2 ^ n % 2 := by omega
        rw [this]
        simp
      | succ k =>
        rw [Nat.testBit_succ]
        have : (2 * r + x / 2 ^ n % 2) / 2 = r := by omega
        rw [this, hbits k (by omega)]
        congr 1
        omega

/-- C12: for `n ≤ 14` and `x` in `[0, 2^n)`, `bit_reverse(x, n)` lies in
`[0, 2^n)` and its bit `k` is bit `n - 1 - k` of `x` for every `k < n`; and for
every 16-bit `y` the result depends only on the low `n` bits of `y`:
`bit_reverse(y, n) = bit_reverse(y mod 2^n, n)`. -/
theorem bit_reverse_bits (n x : Nat) (hn : n ≤ 14) (hx : x < 2 ^ n) :
    0 ≤ bit_reverse (x : Int) (n : Int) ∧ bit_reverse (x : Int) (n : Int) < 2 ^ n ∧
    (∀ k, k < n → (bit_reverse (x : Int) (n : Int)).toNat.testBit k = x.testBit (n - 1 - k)) ∧
    (∀ y : Int, -32768 ≤ y → y ≤ 32767 →
      bit_reverse y (n : Int) = bit_reverse (y % 2 ^ n) (n : Int)) := by
  have hx16 : x < 32768 := by
    have := two_pow_le_16384 hn
    omega
  have e := bit_reverse_eq_rev (x : Int) (by omega) (by omega) n hn
  obtain ⟨_, hr0, hr⟩ := bit_reverse_loop_int (x : Int) (by omega) (by omega) n hn
  obtain ⟨r, hr', hbits⟩ := rev_low_bits_testBit x n
  refine ⟨by rw [e]; exact hr0, by rw [e]; exact hr, ?_, ?_⟩
  · intro k hk
    rw [e, hr', Int.toNat_ofNat]
    exact hbits k hk
  · intro y h1 h2
    have hp : (0 : Int) < 2 ^ n := by positivity
    have hp14 : (2 : Int) ^ n ≤ 16384 := by
      have : ((2 ^ n : Nat) : Int) ≤ 16384 := by exact_mod_cast two_pow_le_16384 hn
      simpa using this
    have m0 := Int.emod_nonneg y (ne_of_gt hp)
    have m1 := Int.emod_lt_of_pos y hp
    rw [bit_reverse_eq_rev y h1 h2 n hn,
      bit_reverse_eq_rev (y % 2 ^ n) (by omega) (by omega) n hn]
    exact rev_low_bits_emod y n n (le_refl _)

theorem bit_reverse_bits_witness :
    0 ≤ bit_reverse ((6 : Nat) : Int) ((3 : Nat) : Int) ∧
    bit_reverse ((6 : Nat) : Int) ((3 : Nat) : Int) < 2 ^ 3 ∧
    (∀ k, k < 3 →
      (bit_reverse ((6 : Nat) : Int) ((3 : Nat) : Int)).toNat.testBit k = (6 : Nat).testBit (3 - 1 - k)) ∧
    (∀ y : Int, -32768 ≤ y → y ≤ 32767 →
      bit_reverse y ((3 : Nat) : Int) = bit_reverse (y % 2 ^ 3) ((3 : Nat) : Int)) :=
  bit_reverse_bits 3 6 (by decide) (by decide)

theorem bit_reverse_nat (n x : Nat) (hn : n ≤ 14) (hx : x < 2 ^ n) :
    ∃ r : Nat, bit_reverse (x : Int) (n : Int) = (r : Int) ∧ r < 2 ^ n ∧
      ∀ k, k < n → r.testBit k = x.testBit (n - 1 - k) := by
  have hx16 : x < 32768 := by
    have := two_pow_le_16384 hn
    omega
  have e := bit_reverse_eq_rev (x : Int) (by omega) (by omega) n hn
  obtain ⟨_, _, hr⟩ := bit_reverse_loop_int (x : Int) (by omega) (by omega) n hn
  obtain ⟨r, hr', hbits⟩ := rev_low_bits_testBit x n
  refine ⟨r, by rw [e, hr'], ?_, hbits⟩
  rw [hr'] at hr
  exact_mod_cast hr

theorem bit_reverse_twice (n x : Nat) (hn : n ≤ 14) (hx : x < 2 ^ n) :
    bit_reverse (bit_reverse (x : Int) (n : Int)) (n : Int) = (x : Int) := by
  obtain ⟨r, hr, hrlt, hrb⟩ := bit_reverse_nat n x hn hx
  obtain ⟨s, hs, hslt, hsb⟩ := bit_reverse_nat n r hn hrlt
  rw [hr, hs]
  congr 1
  apply Nat.eq_of_testBit_eq
  intro k
  by_cases hk : k < n
  · rw [hsb k hk, hrb (n - 1 - k) (by omega)]
    congr 1
    omega
  · have hpow : 2 ^ n ≤ 2 ^ k := Nat.pow_le_pow_right (by norm_num) (by omega)
    rw [Nat.testBit_lt_two_pow (lt_of_lt_of_le hslt hpow),
      Nat.testBit_lt_two_pow (lt_of_lt_of_le hx hpow)]

theorem bit_reverse_perm_range (n : Nat) (hn : n ≤ 14) :
    ((List.range (2 ^ n)).map (fun i : Nat => (bit_reverse (i : Int) (n : Int)).toNat)).Perm
      (List.range (2 ^ n)) := by
  apply List.Subperm.perm_of_length_le
  · apply List.subperm_of_subset
    · apply List.Nodup.map_on _ (List.nodup_range _)
      intro x hx y hy hxy
      have hx' := List.mem_range.mp hx
      have hy' := List.mem_range.mp hy
      obtain ⟨r, hr, _, _⟩ := bit_reverse_nat n x hn hx'
      obtain ⟨s, hs, _, _⟩ := bit_reverse_nat n y hn hy'
      have e1 := bit_reverse_twice n x hn hx'
      have e2 := bit_reverse_twice n y hn hy'
      simp only [hr, hs, Int.toNat_ofNat] at hxy
      rw [hr, hxy, ← hs, e2] at e1
      exact_mod_cast e1.symm
    · intro j hj
      obtain ⟨i, hi, rfl⟩ := List.mem_map.mp hj
      obtain ⟨r, hr, hrlt, _⟩ := bit_reverse_nat n i hn (List.mem_range.mp hi)
      rw [hr, Int.toNat_ofNat]
      exact List.mem_range.mpr hrlt
  · simp

theorem list_eq_map_range (X : List complex_t) :
    X = (List.range X.length).map (fun j => X.getD j { real := 0, imag := 0 }) := by
  apply List.ext_getElem?
  intro j
  rw [List.getElem?_map]
  by_cases hj : j < X.length
  · rw [List.getElem?_range hj, List.getElem?_eq_getElem hj]
    simp only [Option.map_some', List.getD_eq_getElem?_getD, List.getElem?_eq_getElem hj,
      Option.getD_some]
  · rw [List.getElem?_eq_none (by omega), List.getElem?_eq_none (by simp; omega)]
    rfl

/-- The block the copy phase writes is a permutation of the input block. -/
theorem fft_copy_perm (h : Heap) (inp out m : Nat) (X O : List complex_t)
    (hm : m ≤ 14) (hX : h[inp]? = some (some X)) (hXlen : X.length = 2 ^ m)
    (hO : h[out]? = some (some O)) (hOlen : O.length = 2 ^ m) (hio : inp ≠ out) :
    ∃ C : List complex_t,
      fft_copy h (some inp) (some out) ((2 : Int) ^ m) (m : Int) = some (h.set out (some C)) ∧
      C = (List.range (2 ^ m)).map
        (fun i : Nat => X.getD (bit_reverse (i : Int) (m : Int)).toNat { real := 0, imag := 0 }) ∧
      C.Perm X := by
  have e2m : ((2 : Int) ^ m).toNat = 2 ^ m := by
    have : ((2 : Int) ^ m) = ((2 ^ m : Nat) : Int) := by push_cast; rfl
    rw [this, Int.toNat_ofNat]
  obtain ⟨C, h1, hClen, hcp, _⟩ := fft_copy_loop h inp out m X O hm hX hXlen hO hOlen hio
    (2 ^ m) (le_refl _)
  have hw : ∀ p : Nat, p < 2 ^ m → wrap16 (p : Int) = (p : Int) := by
    intro p hp
    have := two_pow_le_16384 hm
    exact wrap16_of_range (by omega) (by omega)
  have hC : C = (List.range (2 ^ m)).map
      (fun i : Nat => X.getD (bit_reverse (i : Int) (m : Int)).toNat { real := 0, imag := 0 }) := by
    apply List.ext_getElem?
    intro p
    rw [List.getElem?_map]
    by_cases hp : p < 2 ^ m
    · obtain ⟨e, hlt⟩ := hcp p hp
      rw [hw p hp] at e hlt
      have hlt' : (bit_reverse (p : Int) (m : Int)).toNat < X.length := by omega
      rw [e, List.getElem?_range hp, List.getElem?_eq_getElem hlt']
      simp only [Option.map_some', List.getD_eq_getElem?_getD, List.getElem?_eq_getElem hlt',
        Option.getD_some]
    · rw [List.getElem?_eq_none (by omega), List.getElem?_eq_none (by simp; omega)]
      rfl
  refine ⟨C, ?_, hC, ?_⟩
  · unfold fft_copy
    rw [e2m]
    exact h1
  · have hperm := (bit_reverse_perm_range m hm).map
      (fun j => X.getD j ({ real := 0, imag := 0 } : complex_t))
    rw [List.map_map] at hperm
    have hX' := list_eq_map_range X
    rw [hXlen] at hX'
    rw [hC]
    conv_rhs => rw [hX']
    exact hperm

/-- C20: for `n ≤ 14`, `bit_reverse(·, n)` is an involution on `[0, 2^n)`, so
`i ↦ bit_reverse(i, n)` is a permutation of `[0, 2^n)`; and the copy phase of
`fft_radix2` between two distinct blocks of `2^n` entries writes
`output[i] = input[bit_reverse(i, n)]`, a permutation of the input block: every
input sample is placed exactly once. -/
theorem bit_reverse_involution (h : Heap) (inp out n : Nat) (X O : List complex_t)
    (hn : n ≤ 14) (hX : h[inp]? = some (some X)) (hXlen : X.length = 2 ^ n)
    (hO : h[out]? = some (some O)) (hOlen : O.length = 2 ^ n) (hio : inp ≠ out) :
    (∀ x : Nat, x < 2 ^ n →
      bit_reverse (bit_reverse (x : Int) (n : Int)) (n : Int) = (x : Int)) ∧
    ((List.range (2 ^ n)).map (fun i : Nat => (bit_reverse (i : Int) (n : Int)).toNat)).Perm
      (List.range (2 ^ n)) ∧
    ∃ C : List complex_t,
      fft_copy h (some inp) (some out) ((2 : Int) ^ n) (n : Int) = some (h.set out (some C)) ∧
      C = (List.range (2 ^ n)).map
        (fun i : Nat => X.getD (bit_reverse (i : Int) (n : Int)).toNat { real := 0, imag := 0 }) ∧
      C.Perm X :=
  ⟨fun x hx => bit_reverse_twice n x hn hx, bit_reverse_perm_range n hn,
    fft_copy_perm h inp out n X O hn hX hXlen hO hOlen hio⟩

theorem bit_reverse_involution_witness :
    (∀ x : Nat, x < 2 ^ 2 →
      bit_reverse (bit_reverse (x : Int) ((2 : Nat) : Int)) ((2 : Nat) : Int) = (x : Int)) ∧
    ((List.range (2 ^ 2)).map (fun i : Nat => (bit_reverse (i : Int) ((2 : Nat) : Int)).toNat)).Perm
      (List.range (2 ^ 2)) ∧
    ∃ C : List complex_t,
      fft_copy [some [⟨1, 2⟩, ⟨3, 4⟩, ⟨5, 6⟩, ⟨7, 8⟩], some [⟨0, 0⟩, ⟨0, 0⟩, ⟨0, 0⟩, ⟨0, 0⟩]]
          (some 0) (some 1) ((2 : Int) ^ 2) ((2 : Nat) : Int)
        = some (([some [⟨1, 2⟩, ⟨3, 4⟩, ⟨5, 6⟩, ⟨7, 8⟩],
            some [⟨0, 0⟩, ⟨0, 0⟩, ⟨0, 0⟩, ⟨0, 0⟩]] : Heap).set 1 (some C)) ∧
      C = (List.range (2 ^ 2)).map
        (fun i : Nat => ([⟨1, 2⟩, ⟨3, 4⟩, ⟨5, 6⟩, ⟨7, 8⟩] : List complex_t).getD
          (bit_reverse (i : Int) ((2 : Nat) : Int)).toNat { real := 0, imag := 0 }) ∧
      C.Perm [⟨1, 2⟩, ⟨3, 4⟩, ⟨5, 6⟩, ⟨7, 8⟩] :=
  bit_reverse_involution
    [some [⟨1, 2⟩, ⟨3, 4⟩, ⟨5, 6⟩, ⟨7, 8⟩], some [⟨0, 0⟩, ⟨0, 0⟩, ⟨0, 0⟩, ⟨0, 0⟩]]
    0 1 2 [⟨1, 2⟩, ⟨3, 4⟩, ⟨5, 6⟩, ⟨7, 8⟩] [⟨0, 0⟩, ⟨0, 0⟩, ⟨0, 0⟩, ⟨0, 0⟩]
    (by decide) rfl rfl rfl rfl (by decide)

/-! ## The butterfly network of `fft_radix2` -/

theorem foldlM_simulation {α β γ : Type} (R : β → γ → Prop) (f : β → α → Option β)
    (g : γ → α → γ) :
    ∀ (l : List α) (b : β) (c : γ),
      (∀ a ∈ l, ∀ b c, R b c → ∃ b', f b a = some b' ∧ R b' (g c a)) → R b c →
      ∃ b', l.foldlM f b = some b' ∧ R b' (l.foldl g c)
  | [], b, _, _, hb => ⟨b, rfl, hb⟩
  | a :: l, b, c, h, hb => by
    obtain ⟨b1, h1, hb1⟩ := h a (List.mem_cons_self a l) b c hb
    obtain ⟨b2, h2, hb2⟩ := foldlM_simulation R f g l b1 (g c a)
      (fun a' ha' => h a' (List.mem_cons_of_mem a ha')) hb1
    refine ⟨b2, ?_, hb2⟩
    simp only [List.foldlM_cons, h1, Option.bind_eq_bind, Option.some_bind, h2]

/-- A butterfly of the code with in-range indices is the butterfly of the
network on the output block. -/
theorem fft_butterfly_exact (h : Heap) (fft : fft_t) (tw out N G Q : Nat) (T : List complex_t)
    (htw : fft.twiddle_factors = some tw) (hT : h[tw]? = some (some T)) (hTlen : N ≤ T.length)
    (hne : tw ≠ out) (hout : out < h.length)
    (hN : N = 2 * G * Q) (hN14 : N ≤ 16384)
    (g k : Nat) (hg : g < Q) (hk : k < G) (O : List complex_t) (hOlen : O.length = N) :
    fft_butterfly fft (some out) (G : Int) (Q : Int) ((g : Int) * (2 * (G : Int)))
        (h.set out (some O)) k
      = some (h.set out (some (butterfly_net T G Q (g * (2 * G)) O k))) ∧
    (butterfly_net T G Q (g * (2 * G)) O k).length = N := by
  have h1 : k * Q < G * Q := Nat.mul_lt_mul_of_pos_right hk (by omega)
  have h2 : (g + 1) * (2 * G) ≤ Q * (2 * G) := Nat.mul_le_mul_right _ (by omega)
  have h3 : Q * (2 * G) = N := by rw [hN]; ring
  have h4 : (g + 1) * (2 * G) = g * (2 * G) + 2 * G := by ring
  have h5 : G * Q + G * Q = N := by rw [hN]; ring
  have e1 : (k : Int) * (Q : Int) = ((k * Q : Nat) : Int) := by push_cast; ring
  have e2 : (g : Int) * (2 * (G : Int)) + (k : Int) = ((g * (2 * G) + k : Nat) : Int) := by
    push_cast; ring
  have e3 : (g : Int) * (2 * (G : Int)) + (k : Int) + (G : Int)
      = ((g * (2 * G) + k + G : Nat) : Int) := by push_cast; ring
  have w1 : wrap16 ((k : Int) * (Q : Int)) = ((k * Q : Nat) : Int) := by
    rw [e1]; exact wrap16_of_range (by omega) (by omega)
  have w2 : wrap16 ((g : Int) * (2 * (G : Int)) + (k : Int)) = ((g * (2 * G) + k : Nat) : Int) := by
    rw [e2]; exact wrap16_of_range (by omega) (by omega)
  have w3 : wrap16 ((g : Int) * (2 * (G : Int)) + (k : Int) + (G : Int))
      = ((g * (2 * G) + k + G : Nat) : Int) := by
    rw [e3]; exact wrap16_of_range (by omega) (by omega)
  have i1 : g * (2 * G) + k < O.length := by omega
  have i2 : g * (2 * G) + k + G < O.length := by omega
  have i0 : k * Q < T.length := by omega
  have d0 : T.getD (k * Q) { real := 0, imag := 0 } = T[k * Q] := by
    rw [List.getD_eq_getElem?_getD, List.getElem?_eq_getElem i0]; rfl
  have d1 : O.getD (g * (2 * G) + k) { real := 0, imag := 0 } = O[g * (2 * G) + k] := by
    rw [List.getD_eq_getElem?_getD, List.getElem?_eq_getElem i1]; rfl
  have d2 : O.getD (g * (2 * G) + k + G) { real := 0, imag := 0 } = O[g * (2 * G) + k + G] := by
    rw [List.getD_eq_getElem?_getD, List.getElem?_eq_getElem i2]; rfl
  have l0 : hload (h.set out (some O)) fft.twiddle_factors ((k * Q : Nat) : Int)
      = some T[k * Q] := by
    rw [htw, hload_set_ne h out tw _ _ (Ne.symm hne), hload_of_getElem? h tw T _ hT,
      rd_eq_some_getElem T _ i0]
  have l2 : hload (h.set out (some O)) (some out) ((g * (2 * G) + k + G : Nat) : Int)
      = some O[g * (2 * G) + k + G] := by
    rw [hload_set_same h out O _ hout, rd_eq_some_getElem O _ i2]
  have l1 : hload (h.set out (some O)) (some out) ((g * (2 * G) + k : Nat) : Int)
      = some O[g * (2 * G) + k] := by
    rw [hload_set_same h out O _ hout, rd_eq_some_getElem O _ i1]
  have s1 := hstore_set_same h out O ((g * (2 * G) + k : Nat) : Int)
    (complex_add O[g * (2 * G) + k] (complex_mul O[g * (2 * G) + k + G] T[k * Q]))
    hout (by omega) (by omega)
  have s2 := hstore_set_same h out
    (O.set (g * (2 * G) + k)
      (complex_add O[g * (2 * G) + k] (complex_mul O[g * (2 * G) + k + G] T[k * Q])))
    ((g * (2 * G) + k + G : Nat) : Int)
    (complex_sub O[g * (2 * G) + k] (complex_mul O[g * (2 * G) + k + G] T[k * Q]))
    hout (by omega) (by rw [List.length_set]; omega)
  simp only [Int.toNat_ofNat] at s1 s2
  constructor
  · unfold fft_butterfly butterfly_net
    simp only [w1, w2, w3, l0, l1, l2, d0, d1, d2, Option.bind_eq_bind, Option.some_bind]
    rw [s1]
    simp only [Option.some_bind]
    rw [s2]
  · unfold butterfly_net
    simp only [List.length_set]
    exact hOlen

/-- A stage of the code is the stage of the network on the output block. -/
theorem fft_stage_exact (h : Heap) (fft : fft_t) (tw out m : Nat) (T : List complex_t)
    (hm : m ≤ 14) (hsize : fft.fft_size = (2 : Int) ^ m)
    (htw : fft.twiddle_factors = some tw) (hT : h[tw]? = some (some T)) (hTlen : 2 ^ m ≤ T.length)
    (hne : tw ≠ out) (hout : out < h.length)
    (s : Nat) (hs : s < m) (O : List complex_t) (hOlen : O.length = 2 ^ m) :
    fft_stage fft (some out) (h.set out (some O)) s
      = some (h.set out (some (stage_net T (2 ^ m) O s))) ∧
    (stage_net T (2 ^ m) O s).length = 2 ^ m := by
  obtain ⟨p1, p2, p3, p4, p5⟩ := fft_stage_params m s hm hs
  have hGpos : 0 < 2 ^ s := pow_pos (by norm_num) _
  have hsz : ¬ ((2 : Int) ^ m ≤ 0) := not_le.mpr (pow_pos (by norm_num) _)
  have hgs : ¬ (((2 ^ s : Nat) : Int) ≤ 0) := not_le.mpr (by exact_mod_cast hGpos)
  have hsplit := stage_split m s hs
  have hQ : 2 ^ m / (2 * 2 ^ s) = 2 ^ (m - s - 1) := by
    rw [hsplit]
    exact Nat.mul_div_cancel_left _ (by positivity)
  have inner : ∀ g ∈ List.range (2 ^ (m - s - 1)), ∀ (H1 : Heap) (O1 : List complex_t),
      (H1 = h.set out (some O1) ∧ O1.length = 2 ^ m) →
      ∃ H2, (List.range (2 ^ s)).foldlM
        (fft_butterfly fft (some out) ((2 ^ s : Nat) : Int) ((2 ^ (m - s - 1) : Nat) : Int)
          ((g : Int) * (2 * ((2 ^ s : Nat) : Int)))) H1 = some H2 ∧
        (H2 = h.set out (some ((List.range (2 ^ s)).foldl
          (butterfly_net T (2 ^ s) (2 ^ (m - s - 1)) (g * (2 * 2 ^ s))) O1)) ∧
         ((List.range (2 ^ s)).foldl
          (butterfly_net T (2 ^ s) (2 ^ (m - s - 1)) (g * (2 * 2 ^ s))) O1).length = 2 ^ m) := by
    intro g hg H1 O1 hR
    exact foldlM_simulation
      (fun (H : Heap) (O : List complex_t) => H = h.set out (some O) ∧ O.length = 2 ^ m) _ _ _
      H1 O1
      (fun k hk H2 O2 hR2 => by
        obtain ⟨rfl, hlen2⟩ := hR2
        obtain ⟨e, hl⟩ := fft_butterfly_exact h fft tw out (2 ^ m) (2 ^ s) (2 ^ (m - s - 1)) T
          htw hT hTlen hne hout hsplit (two_pow_le_16384 hm) g k
          (List.mem_range.mp hg) (List.mem_range.mp hk) O2 hlen2
        exact ⟨_, e, rfl, hl⟩) hR
  obtain ⟨H', hH', hH'eq, hlen'⟩ := foldlM_simulation
    (fun (H : Heap) (O : List complex_t) => H = h.set out (some O) ∧ O.length = 2 ^ m) _
    (fun (O : List complex_t) (g : Nat) => (List.range (2 ^ s)).foldl
          (butterfly_net T (2 ^ s) (2 ^ (m - s - 1)) (g * (2 * 2 ^ s))) O)
    (List.range (2 ^ (m - s - 1))) (h.set out (some O)) O inner ⟨rfl, hOlen⟩
  constructor
  · unfold fft_stage stage_net
    simp only [hsize, p1, p2, p3, p4, p5, Option.bind_eq_bind, Option.some_bind, hsz, hgs,
      if_false, Int.toNat_ofNat, hQ]
    rw [hH', hH'eq]
  · unfold stage_net
    rw [hQ]
    exact hlen'

/-- C19: on a context of size `2 ^ m` (`m ≤ 14`) with distinct twiddle, input and
output blocks, `fft_radix2` returns, writes only the output block, and leaves
there the result of the butterfly network `fft_net`: the bit-reversed copy
`out[i] = input[bit_reverse(i, m)]`, then for `stage = 0 .. m-1`, every group
start and every `k < group_size` the pair `(p, q)` at
`(group + k, group + k + group_size)` replaced by
`(complex_add p t, complex_sub p t)` with `t = complex_mul q T[k * twiddle_step]`
and `p` the value before the butterfly.  For `N = 2` the network gives
`[complex_add x0 t, complex_sub x0 t]` with `t = complex_mul x1 T[0]`. -/
theorem fft_radix2_butterfly_network (h : Heap) (fft : fft_t) (tw inp out m : Nat)
    (T X O : List complex_t)
    (hm : m ≤ 14) (hsize : fft.fft_size = (2 : Int) ^ m) (hlog : fft.log2_size = (m : Int))
    (htw : fft.twiddle_factors = some tw) (hT : h[tw]? = some (some T)) (hTlen : 2 ^ m ≤ T.length)
    (hX : h[inp]? = some (some X)) (hXlen : X.length = 2 ^ m)
    (hO : h[out]? = some (some O)) (hOlen : O.length = 2 ^ m)
    (hio : inp ≠ out) (hto : tw ≠ out) :
    fft_radix2 h fft (some inp) (some out) = some (h.set out (some (fft_net T X m))) ∧
    ∀ (x0 x1 : complex_t) (W : List complex_t),
      fft_net W [x0, x1] 1
        = [complex_add x0 (complex_mul x1 (W.getD 0 { real := 0, imag := 0 })),
           complex_sub x0 (complex_mul x1 (W.getD 0 { real := 0, imag := 0 }))] := by
  have hout : out < h.length := lt_length_of_getElem? h out _ hO
  obtain ⟨C, hC, hCeq, _⟩ := fft_copy_perm h inp out m X O hm hX hXlen hO hOlen hio
  have hClen : C.length = 2 ^ m := by rw [hCeq]; simp
  obtain ⟨H', hH', hH'eq, _⟩ := foldlM_simulation
    (fun (H : Heap) (B : List complex_t) => H = h.set out (some B) ∧ B.length = 2 ^ m)
    (fft_stage fft (some out)) (stage_net T (2 ^ m)) (List.range m) (h.set out (some C)) C
    (fun s hs H B hR => by
      obtain ⟨rfl, hlen⟩ := hR
      obtain ⟨e, hl⟩ := fft_stage_exact h fft tw out m T hm hsize htw hT hTlen hto hout s
        (List.mem_range.mp hs) B hlen
      exact ⟨_, e, rfl, hl⟩) ⟨rfl, hClen⟩
  constructor
  · unfold fft_radix2
    simp only [hsize, hlog, hC, Option.bind_eq_bind, Option.some_bind, Int.toNat_ofNat]
    rw [hH', hH'eq, hCeq]
    rfl
  · intro x0 x1 W
    rfl

theorem fft_radix2_butterfly_network_witness :
    fft_radix2 [some [⟨32767, 0⟩, ⟨-32767, 0⟩], some [⟨3, 4⟩, ⟨5, 6⟩], some [⟨0, 0⟩, ⟨0, 0⟩]]
        { twiddle_factors := some 0, temp_buffer := none, fft_size := 2, log2_size := 1 }
        (some 1) (some 2)
      = some (([some [⟨32767, 0⟩, ⟨-32767, 0⟩], some [⟨3, 4⟩, ⟨5, 6⟩], some [⟨0, 0⟩, ⟨0, 0⟩]] :
          Heap).set 2 (some (fft_net [⟨32767, 0⟩, ⟨-32767, 0⟩] [⟨3, 4⟩, ⟨5, 6⟩] 1))) :=
  (fft_radix2_butterfly_network
    [some [⟨32767, 0⟩, ⟨-32767, 0⟩], some [⟨3, 4⟩, ⟨5, 6⟩], some [⟨0, 0⟩, ⟨0, 0⟩]]
    { twiddle_factors := some 0, temp_buffer := none, fft_size := 2, log2_size := 1 }
    0 1 2 1 [⟨32767, 0⟩, ⟨-32767, 0⟩] [⟨3, 4⟩, ⟨5, 6⟩] [⟨0, 0⟩, ⟨0, 0⟩]
    (by decide) rfl rfl rfl rfl (by decide) rfl rfl rfl rfl (by decide) (by decide)).1

/-! ## Accumulator headroom of the FIR filter -/

/-- Every tap of the MAC loop of `fir_process` reads inside both arrays. -/
theorem fir_tap_reads (fir : fir_filter_t) (d : List Int)
    (hL : 1 ≤ fir.tap_count) (hc0 : 0 ≤ fir.index) (hcL : fir.index < fir.tap_count)
    (hco : fir.tap_count ≤ (fir.coeffs.length : Int)) (hd : fir.tap_count ≤ (d.length : Int))
    (i : Nat) (hi : (i : Int) < fir.tap_count) (acc : Int) :
    fir_tap fir d acc i = some (mac acc (fir.coeffs.getD i 0)
      (d.getD ((fir.index - (i : Int) + fir.tap_count) % fir.tap_count).toNat 0)) := by
  have hLpos : 0 < fir.tap_count := by omega
  have h1 : rd fir.coeffs (i : Int) = some (fir.coeffs.getD i 0) := by
    rw [rd_eq_getElem?, List.getD_eq_getElem?_getD, List.getElem?_eq_getElem (by omega)]
    rfl
  have h2 := cmod_pos (a := fir.index - (i : Int) + fir.tap_count) (by omega) hLpos
  have h30 : 0 ≤ (fir.index - (i : Int) + fir.tap_count) % fir.tap_count :=
    Int.emod_nonneg _ (by omega)
  have h3L : (fir.index - (i : Int) + fir.tap_count) % fir.tap_count < fir.tap_count :=
    Int.emod_lt_of_pos _ hLpos
  have h3 : rd d ((fir.index - (i : Int) + fir.tap_count) % fir.tap_count)
      = some (d.getD ((fir.index - (i : Int) + fir.tap_count) % fir.tap_count).toNat 0) := by
    rw [rd_of_nonneg _ h30, List.getD_eq_getElem?_getD, List.getElem?_eq_getElem (by omega)]
    rfl
  unfold fir_tap
  rw [h1, h2]
  simp only [Option.bind_eq_bind, Option.some_bind]
  rw [h3]
  rfl

theorem getD_int16_of_forall (d : List Int) (hd : ∀ v ∈ d, -32768 ≤ v ∧ v ≤ 32767) (j : Nat) :
    -32768 ≤ d.getD j 0 ∧ d.getD j 0 ≤ 32767 := by
  rw [List.getD_eq_getElem?_getD]
  by_cases hj : j < d.length
  · rw [List.getElem?_eq_getElem hj]
    exact hd _ (List.getElem_mem _)
  · rw [List.getElem?_eq_none (by omega)]
    exact ⟨by decide, by decide⟩

/-- A dot product of coefficients with 16-bit samples is bounded by `32768`
times the sum of the absolute coefficients. -/
theorem abs_dot_le (c s : Nat → Int) (hs : ∀ i, -32768 ≤ s i ∧ s i ≤ 32767) (k : Nat) :
    |∑ i in Finset.range k, c i * s i| ≤ 32768 * ∑ i in Finset.range k, |c i| := by
  calc |∑ i in Finset.range k, c i * s i|
      ≤ ∑ i in Finset.range k, |c i * s i| := Finset.abs_sum_le_sum_abs _ _
    _ ≤ ∑ i in Finset.range k, 32768 * |c i| := by
        apply Finset.sum_le_sum
        intro i _
        rw [abs_mul, mul_comm]
        have : |s i| ≤ 32768 := abs_le.mpr ⟨by have := (hs i).1; omega, by have := (hs i).2; omega⟩
        exact mul_le_mul_of_nonneg_right this (abs_nonneg _)
    _ = 32768 * ∑ i in Finset.range k, |c i| := by rw [Finset.mul_sum]

theorem sum_abs_mono (c : Nat → Int) {k L : Nat} (hk : k ≤ L) :
    ∑ i in Finset.range k, |c i| ≤ ∑ i in Finset.range L, |c i| :=
  Finset.sum_le_sum_of_subset_of_nonneg (Finset.range_mono hk) (fun _ _ _ => abs_nonneg _)

/-- C22: accumulator headroom of `fir_process`.  For a filter with tap count
`L` in `[1, 32767]`, cursor in `[0, L)`, arrays of at least `L` entries,
coefficients with `sum |coeffs[i]| ≤ 65535`, a 16-bit delay line and a 16-bit
input sample: after every number `k ≤ L` of iterations the accumulator of the MAC
loop is the exact integer partial sum and lies in the signed 32-bit range, and
the call returns `saturate_16` of the exact integer dot product. -/
theorem fir_process_no_wraparound (fir : fir_filter_t) (s : Int)
    (hL : 1 ≤ fir.tap_count) (hL16 : fir.tap_count ≤ 32767)
    (hc0 : 0 ≤ fir.index) (hcL : fir.index < fir.tap_count)
    (hco : fir.tap_count ≤ (fir.coeffs.length : Int))
    (hd : fir.tap_count ≤ (fir.delay_line.length : Int))
    (hsum : ∑ i in Finset.range fir.tap_count.toNat, |fir.coeffs.getD i 0| ≤ 65535)
    (hd16 : ∀ v ∈ fir.delay_line, -32768 ≤ v ∧ v ≤ 32767)
    (hs1 : -32768 ≤ s) (hs2 : s ≤ 32767) :
    (∀ k, k ≤ fir.tap_count.toNat →
      (List.range k).foldlM (fir_tap fir (fir.delay_line.set fir.index.toNat s)) (0 : Int)
        = some (∑ i in Finset.range k, fir.coeffs.getD i 0 *
            (fir.delay_line.set fir.index.toNat s).getD
              ((fir.index - (i : Int) + fir.tap_count) % fir.tap_count).toNat 0) ∧
      -2147483648 ≤ ∑ i in Finset.range k, fir.coeffs.getD i 0 *
            (fir.delay_line.set fir.index.toNat s).getD
              ((fir.index - (i : Int) + fir.tap_count) % fir.tap_count).toNat 0 ∧
      ∑ i in Finset.range k, fir.coeffs.getD i 0 *
            (fir.delay_line.set fir.index.toNat s).getD
              ((fir.index - (i : Int) + fir.tap_count) % fir.tap_count).toNat 0 ≤ 2147483647) ∧
    fir_process fir s = some
      ({ coeffs := fir.coeffs
         delay_line := fir.delay_line.set fir.index.toNat s
         tap_count := fir.tap_count
         index := (fir.index + 1) % fir.tap_count },
       saturate_16 (∑ i in Finset.range fir.tap_count.toNat,
         fir.coeffs.getD i 0 *
           (fir.delay_line.set fir.index.toNat s).getD
             ((fir.index - (i : Int) + fir.tap_count) % fir.tap_count).toNat 0)) := by
  have hLpos : 0 < fir.tap_count := by omega
  have hd16' : ∀ v ∈ fir.delay_line.set fir.index.toNat s, -32768 ≤ v ∧ v ≤ 32767 := by
    intro v hv
    rcases List.mem_or_eq_of_mem_set hv with h | h
    · exact hd16 v h
    · rw [h]; exact ⟨hs1, hs2⟩
  have hsamp : ∀ i : Nat, -32768 ≤ (fir.delay_line.set fir.index.toNat s).getD
        ((fir.index - (i : Int) + fir.tap_count) % fir.tap_count).toNat 0 ∧
      (fir.delay_line.set fir.index.toNat s).getD
        ((fir.index - (i : Int) + fir.tap_count) % fir.tap_count).toNat 0 ≤ 32767 :=
    fun i => getD_int16_of_forall _ hd16' _
  have hbound : ∀ k, k ≤ fir.tap_count.toNat →
      |∑ i in Finset.range k, fir.coeffs.getD i 0 *
        (fir.delay_line.set fir.index.toNat s).getD
          ((fir.index - (i : Int) + fir.tap_count) % fir.tap_count).toNat 0| ≤ 2147450880 := by
    intro k hk
    have h1 := abs_dot_le (fun i => fir.coeffs.getD i 0)
      (fun i => (fir.delay_line.set fir.index.toNat s).getD
        ((fir.index - (i : Int) + fir.tap_count) % fir.tap_count).toNat 0) hsamp k
    have h2 := sum_abs_mono (fun i => fir.coeffs.getD i 0) hk
    simp only at h1 h2
    omega
  have hloop : ∀ k, k ≤ fir.tap_count.toNat →
      (List.range k).foldlM (fir_tap fir (fir.delay_line.set fir.index.toNat s)) (0 : Int)
        = some (∑ i in Finset.range k, fir.coeffs.getD i 0 *
            (fir.delay_line.set fir.index.toNat s).getD
              ((fir.index - (i : Int) + fir.tap_count) % fir.tap_count).toNat 0) := by
    intro k hk
    have hfold := foldlM_eq_some_foldl
      (fir_tap fir (fir.delay_line.set fir.index.toNat s))
      (fun acc i => mac acc (fir.coeffs.getD i 0)
        ((fir.delay_line.set fir.index.toNat s).getD
          ((fir.index - (i : Int) + fir.tap_count) % fir.tap_count).toNat 0))
      (List.range k) 0
      (fun i hi acc => fir_tap_reads fir _ hL hc0 hcL hco (by rw [List.length_set]; exact hd) i
        (by have := List.mem_range.mp hi; omega) acc)
    rw [hfold, foldl_mac_eq_sum
      (fun i => fir.coeffs.getD i 0)
      (fun i => (fir.delay_line.set fir.index.toNat s).getD
        ((fir.index - (i : Int) + fir.tap_count) % fir.tap_count).toNat 0)]
    have hb := abs_le.mp (hbound k hk)
    rw [wrap32_of_range (by omega) (by omega)]
  refine ⟨fun k hk => ⟨hloop k hk, ?_, ?_⟩, ?_⟩
  · have hb := abs_le.mp (hbound k hk); omega
  · have hb := abs_le.mp (hbound k hk); omega
  · have hw := wr_eq_some fir.delay_line s hc0 (by omega)
    have hnext := cmod_pos (a := fir.index + 1) (by omega) hLpos
    have hn0 : 0 ≤ (fir.index + 1) % fir.tap_count := Int.emod_nonneg _ (by omega)
    have hnL : (fir.index + 1) % fir.tap_count < fir.tap_count := Int.emod_lt_of_pos _ hLpos
    have hwrap := wrap16_of_range (v := (fir.index + 1) % fir.tap_count) (by omega) (by omega)
    simp only [fir_process, hw, hloop _ (le_refl _), hnext, hwrap, Option.bind_eq_bind,
      Option.some_bind, Option.pure_def]

theorem fir_process_no_wraparound_witness :
    fir_process { coeffs := [32767, -32768], delay_line := [-32768, 9], tap_count := 2, index := 1 }
        32767
      = some ({ coeffs := [32767, -32768], delay_line := [-32768, 32767], tap_count := 2,
                index := 0 }, 32767) :=
  ((fir_process_no_wraparound
    { coeffs := [32767, -32768], delay_line := [-32768, 9], tap_count := 2, index := 1 } 32767
    (by decide) (by decide) (by decide) (by decide) (by decide) (by decide) (by decide)
    (by decide) (by decide) (by decide)).2).trans (by decide)

/-! ## Index safety and frame of the transforms -/

theorem butterfly_index_bounds (G Q g k : Nat) (hg : g < Q) (hk : k < G) :
    2 * (k * Q) < 2 * G * Q ∧ g * (2 * G) + k + G < 2 * G * Q := by
  have h1 : k * Q < G * Q := Nat.mul_lt_mul_of_pos_right hk (by omega)
  have h2 : (g + 1) * (2 * G) ≤ Q * (2 * G) := Nat.mul_le_mul_right _ (by omega)
  have h3 : Q * (2 * G) = 2 * G * Q := by ring
  have h4 : (g + 1) * (2 * G) = g * (2 * G) + 2 * G := by ring
  have h5 : 2 * (G * Q) = 2 * G * Q := by ring
  constructor <;> omega

/-- In one stage every position below `2 * G * Q` belongs to exactly one
butterfly `(g, k)`, as its first index `g * 2G + k` or its second index
`g * 2G + k + G`. -/
theorem butterfly_cover (G Q p : Nat) (hG : 0 < G) (hp : p < 2 * G * Q) :
    ∃! gk : Nat × Nat, gk.1 < Q ∧ gk.2 < G ∧
      (p = gk.1 * (2 * G) + gk.2 ∨ p = gk.1 * (2 * G) + gk.2 + G) := by
  have hdm := Nat.div_add_mod p (2 * G)
  have hr : p % (2 * G) < 2 * G := Nat.mod_lt _ (by omega)
  have hgQ : p / (2 * G) < Q := Nat.div_lt_of_lt_mul hp
  have hcomm : 2 * G * (p / (2 * G)) = p / (2 * G) * (2 * G) := Nat.mul_comm _ _
  have huniq : ∀ g k : Nat, k < G → (p = g * (2 * G) + k ∨ p = g * (2 * G) + k + G) →
      g = p / (2 * G) ∧ (p % (2 * G) = k ∨ p % (2 * G) = k + G) := by
    intro g k hk halt
    rcases halt with e | e
    · have : p / (2 * G) = g ∧ p % (2 * G) = k := (Nat.div_mod_unique (by omega)).mpr
        ⟨by rw [Nat.mul_comm (2 * G) g]; omega, by omega⟩
      exact ⟨this.1.symm, Or.inl this.2⟩
    · have : p / (2 * G) = g ∧ p % (2 * G) = k + G := (Nat.div_mod_unique (by omega)).mpr
        ⟨by rw [Nat.mul_comm (2 * G) g]; omega, by omega⟩
      exact ⟨this.1.symm, Or.inr this.2⟩
  by_cases hlow : p % (2 * G) < G
  · have e0 : p = p / (2 * G) * (2 * G) + p % (2 * G) := by omega
    refine ⟨(p / (2 * G), p % (2 * G)), ⟨hgQ, hlow, Or.inl e0⟩, ?_⟩
    rintro ⟨g, k⟩ ⟨_, hk, halt⟩
    obtain ⟨e1, e2⟩ := huniq g k hk halt
    simp only [Prod.mk.injEq]
    exact ⟨e1, by omega⟩
  · have e0 : p = p / (2 * G) * (2 * G) + (p % (2 * G) - G) + G := by omega
    have e1 : p % (2 * G) - G < G := by omega
    refine ⟨(p / (2 * G), p % (2 * G) - G), ⟨hgQ, e1, Or.inr e0⟩, ?_⟩
    rintro ⟨g, k⟩ ⟨_, hk, halt⟩
    obtain ⟨e1, e2⟩ := huniq g k hk halt
    simp only [Prod.mk.injEq]
    exact ⟨e1, by omega⟩

/-- On a valid context `fft_radix2` returns and writes only the output block. -/
theorem fft_radix2_returns (h : Heap) (fft : fft_t) (tw inp out m : Nat)
    (T X O : List complex_t)
    (hm : m ≤ 14) (hsize : fft.fft_size = (2 : Int) ^ m) (hlog : fft.log2_size = (m : Int))
    (htw : fft.twiddle_factors = some tw) (hT : h[tw]? = some (some T)) (hTlen : 2 ^ m ≤ T.length)
    (hX : h[inp]? = some (some X)) (hXlen : X.length = 2 ^ m)
    (hO : h[out]? = some (some O)) (hOlen : O.length = 2 ^ m)
    (hio : inp ≠ out) (hto : tw ≠ out) :
    ∃ F : List complex_t, fft_radix2 h fft (some inp) (some out) = some (h.set out (some F)) ∧
      F.length = 2 ^ m := by
  have hout : out < h.length := lt_length_of_getElem? h out _ hO
  obtain ⟨C, hC, hCeq, _⟩ := fft_copy_perm h inp out m X O hm hX hXlen hO hOlen hio
  have hClen : C.length = 2 ^ m := by rw [hCeq]; simp
  obtain ⟨H1, hH1, hH1eq, hlen⟩ := foldlM_simulation
    (fun (H : Heap) (B : List complex_t) => H = h.set out (some B) ∧ B.length = 2 ^ m)
    (fft_stage fft (some out)) (stage_net T (2 ^ m)) (List.range m) (h.set out (some C)) C
    (fun s hs H B hR => by
      obtain ⟨rfl, hlen⟩ := hR
      obtain ⟨e, hl⟩ := fft_stage_exact h fft tw out m T hm hsize htw hT hTlen hto hout s
        (List.mem_range.mp hs) B hlen
      exact ⟨_, e, rfl, hl⟩) ⟨rfl, hClen⟩
  refine ⟨_, ?_, hlen⟩
  unfold fft_radix2
  simp only [hsize, hlog, hC, Option.bind_eq_bind, Option.some_bind, Int.toNat_ofNat]
  rw [hH1, hH1eq]

/-- The heap `ifft_radix2` leaves: the input block conjugated in 16-bit
arithmetic, a new output block, every other block untouched. -/
theorem ifft_radix2_heap (h : Heap) (fft : fft_t) (tw inp out m : Nat)
    (T X O : List complex_t)
    (hm : m ≤ 14) (hsize : fft.fft_size = (2 : Int) ^ m) (hlog : fft.log2_size = (m : Int))
    (htw : fft.twiddle_factors = some tw) (hT : h[tw]? = some (some T)) (hTlen : 2 ^ m ≤ T.length)
    (hX : h[inp]? = some (some X)) (hXlen : X.length = 2 ^ m)
    (hO : h[out]? = some (some O)) (hOlen : O.length = 2 ^ m)
    (hio : inp ≠ out) (hto : tw ≠ out) (hti : tw ≠ inp) :
    ∃ Y : List complex_t, ifft_radix2 h fft (some inp) (some out)
        = some ((h.set inp (some (X.map conj16))).set out (some Y)) ∧ Y.length = 2 ^ m := by
  have hinp : inp < h.length := lt_length_of_getElem? h inp _ hX
  have hout : out < h.length := lt_length_of_getElem? h out _ hO
  have e2m : ((2 : Int) ^ m).toNat = 2 ^ m := by
    have : ((2 : Int) ^ m) = ((2 ^ m : Nat) : Int) := by push_cast; rfl
    rw [this, Int.toNat_ofNat]
  have hconj := heap_map_loop h inp (2 ^ m) X conj16
    (fun (h : Heap) (i : Nat) => do
      let c ← hload h (some inp) (i : Int)
      hstore h (some inp) (i : Int) { c with imag := wrap16 (-c.imag) }) hXlen
    (by
      intro B i hi _ _
      have hs := hstore_set_same h inp B (i : Int) (conj16 B[i]) hinp (by omega) (by omega)
      simp only [Int.toNat_ofNat] at hs
      simp only [hload_set_same h inp B _ hinp, rd_eq_some_getElem B i hi, Option.bind_eq_bind,
        Option.some_bind]
      exact hs)
  rw [heap_set_self h inp X hX] at hconj
  obtain ⟨F, hF, hFlen⟩ := fft_radix2_returns (h.set inp (some (X.map conj16))) fft tw inp out m
    T (X.map conj16) O hm hsize hlog htw
    (by rw [List.getElem?_set_ne (Ne.symm hti)]; exact hT) hTlen
    (by rw [List.getElem?_set_self hinp])
    (by rw [List.length_map]; exact hXlen)
    (by rw [List.getElem?_set_ne hio]; exact hO) hOlen hio hto
  have hout1 : out < (h.set inp (some (X.map conj16))).length := by
    rw [List.length_set]; exact hout
  have hm32 : (0 : Int) ≤ (m : Int) ∧ (m : Int) < 32 := by omega
  have hscale := heap_map_loop (h.set inp (some (X.map conj16))) out (2 ^ m) F
    (fun c => { real := wrap16 (Int.shiftRight c.real m),
                imag := wrap16 (Int.shiftRight (-c.imag) m) })
    (fun (h : Heap) (i : Nat) => do
      let c ← hload h (some out) (i : Int)
      let re ← cshr c.real fft.log2_size
      let h ← hstore h (some out) (i : Int) { c with real := wrap16 re }
      let c ← hload h (some out) (i : Int)
      let im ← cshr (-c.imag) fft.log2_size
      hstore h (some out) (i : Int) { c with imag := wrap16 im }) hFlen
    (by
      intro B i hi hBlen _
      have l1 : hload ((h.set inp (some (X.map conj16))).set out (some B)) (some out) (i : Int)
          = some B[i] := by
        rw [hload_set_same _ out B _ hout1, rd_eq_some_getElem B i hi]
      have s1 := hstore_set_same (h.set inp (some (X.map conj16))) out B (i : Int)
        { B[i] with real := wrap16 (Int.shiftRight B[i].real m) } hout1 (by omega) (by omega)
      have l2 : hload ((h.set inp (some (X.map conj16))).set out
          (some (B.set i { B[i] with real := wrap16 (Int.shiftRight B[i].real m) })))
          (some out) (i : Int)
          = some { B[i] with real := wrap16 (Int.shiftRight B[i].real m) } := by
        rw [hload_set_same _ out _ _ hout1, rd_eq_getElem?, List.getElem?_set_self hi]
      have s2 := hstore_set_same (h.set inp (some (X.map conj16))) out
        (B.set i { B[i] with real := wrap16 (Int.shiftRight B[i].real m) }) (i : Int)
        { real := wrap16 (Int.shiftRight B[i].real m),
          imag := wrap16 (Int.shiftRight (-B[i].imag) m) } hout1 (by omega)
        (by rw [List.length_set]; omega)
      simp only [Int.toNat_ofNat, List.set_set] at s1 s2
      have c1 : cshr B[i].real fft.log2_size = some (Int.shiftRight B[i].real m) := by
        simp only [cshr, hlog, hm32, and_self, if_true, Int.toNat_ofNat]
      have c2 : cshr (-B[i].imag) fft.log2_size = some (Int.shiftRight (-B[i].imag) m) := by
        simp only [cshr, hlog, hm32, and_self, if_true, Int.toNat_ofNat]
      simp only [l1, c1, s1, l2, c2, s2, Option.bind_eq_bind, Option.some_bind])
  have hres : ifft_radix2 h fft (some inp) (some out)
      = some ((h.set inp (some (X.map conj16))).set out (some (F.map
          (fun c => (⟨wrap16 (Int.shiftRight c.real m),
            wrap16 (Int.shiftRight (-c.imag) m)⟩ : complex_t))))) := by
    unfold ifft_radix2
    simp only [hsize, e2m]
    rw [hconj]
    simp only [Option.bind_eq_bind, Option.some_bind]
    rw [hF]
    simp only [Option.some_bind]
    exact hscale
  exact ⟨_, hres, by rw [List.length_map]; exact hFlen⟩

/-- C21: index safety of `fft_radix2` on a context of size `N = 2 ^ m`,
`m ≤ 14` (so for `1 ≤ m ≤ 14`), with distinct twiddle, input and output blocks of `N` entries.
The call returns (no access leaves its block).  For every `i < N` the index
`bit_reverse(i, m)` is in `[0, N)`.  In every stage `s < m` the 16-bit values
`group_size = 2^s` and `twiddle_step = N >> (s + 1)` are exact, the group loop
runs `N / (2 * group_size)` times, and for every group and every
`k < group_size`: `twiddle_index = k * twiddle_step` is in `[0, N/2)`,
`0 ≤ index1 < index2 < N`, and none of the three 16-bit values wraps.  Within a
stage every position in `[0, N)` is an index of exactly one butterfly. -/
theorem fft_radix2_index_safety (h : Heap) (fft : fft_t) (tw inp out m : Nat)
    (T X O : List complex_t)
    (hm : m ≤ 14)
    (hsize : fft.fft_size = (2 : Int) ^ m) (hlog : fft.log2_size = (m : Int))
    (htw : fft.twiddle_factors = some tw) (hT : h[tw]? = some (some T)) (hTlen : 2 ^ m ≤ T.length)
    (hX : h[inp]? = some (some X)) (hXlen : X.length = 2 ^ m)
    (hO : h[out]? = some (some O)) (hOlen : O.length = 2 ^ m)
    (hio : inp ≠ out) (hto : tw ≠ out) :
    (∃ F : List complex_t, fft_radix2 h fft (some inp) (some out) = some (h.set out (some F))) ∧
    (∀ i : Nat, i < 2 ^ m → wrap16 (i : Int) = (i : Int) ∧
      0 ≤ bit_reverse (wrap16 (i : Int)) fft.log2_size ∧
      bit_reverse (wrap16 (i : Int)) fft.log2_size < fft.fft_size) ∧
    (∀ s : Nat, s < m →
      cshl 1 (s : Int) = some ((2 ^ s : Nat) : Int) ∧
      wrap16 ((2 ^ s : Nat) : Int) = ((2 ^ s : Nat) : Int) ∧
      cshr fft.fft_size ((s : Int) + 1) = some ((2 ^ (m - s - 1) : Nat) : Int) ∧
      wrap16 ((2 ^ (m - s - 1) : Nat) : Int) = ((2 ^ (m - s - 1) : Nat) : Int) ∧
      ((fft.fft_size + 2 * ((2 ^ s : Nat) : Int) - 1) / (2 * ((2 ^ s : Nat) : Int))).toNat
        = 2 ^ (m - s - 1) ∧
      ∀ g k : Nat, g < 2 ^ (m - s - 1) → k < 2 ^ s →
        wrap16 ((k : Int) * ((2 ^ (m - s - 1) : Nat) : Int))
          = (k : Int) * ((2 ^ (m - s - 1) : Nat) : Int) ∧
        0 ≤ (k : Int) * ((2 ^ (m - s - 1) : Nat) : Int) ∧
        2 * ((k : Int) * ((2 ^ (m - s - 1) : Nat) : Int)) < fft.fft_size ∧
        wrap16 ((g : Int) * (2 * ((2 ^ s : Nat) : Int)) + (k : Int))
          = (g : Int) * (2 * ((2 ^ s : Nat) : Int)) + (k : Int) ∧
        wrap16 ((g : Int) * (2 * ((2 ^ s : Nat) : Int)) + (k : Int) + ((2 ^ s : Nat) : Int))
          = (g : Int) * (2 * ((2 ^ s : Nat) : Int)) + (k : Int) + ((2 ^ s : Nat) : Int) ∧
        0 ≤ (g : Int) * (2 * ((2 ^ s : Nat) : Int)) + (k : Int) ∧
        (g : Int) * (2 * ((2 ^ s : Nat) : Int)) + (k : Int)
          < (g : Int) * (2 * ((2 ^ s : Nat) : Int)) + (k : Int) + ((2 ^ s : Nat) : Int) ∧
        (g : Int) * (2 * ((2 ^ s : Nat) : Int)) + (k : Int) + ((2 ^ s : Nat) : Int)
          < fft.fft_size) ∧
    (∀ s : Nat, s < m → ∀ p : Nat, p < 2 ^ m →
      ∃! gk : Nat × Nat, gk.1 < 2 ^ (m - s - 1) ∧ gk.2 < 2 ^ s ∧
        (p = gk.1 * (2 * 2 ^ s) + gk.2 ∨ p = gk.1 * (2 * 2 ^ s) + gk.2 + 2 ^ s)) := by
  have hN14 := two_pow_le_16384 hm
  have e2m : ((2 : Int) ^ m) = ((2 ^ m : Nat) : Int) := by push_cast; rfl
  refine ⟨?_, ?_, ?_, ?_⟩
  · obtain ⟨F, hF, _⟩ := fft_radix2_returns h fft tw inp out m T X O hm hsize hlog htw hT hTlen
      hX hXlen hO hOlen hio hto
    exact ⟨F, hF⟩
  · intro i hi
    obtain ⟨b0, b1⟩ := bit_reverse_bounds i m hm hi
    rw [hlog, hsize]
    exact ⟨wrap16_of_range (by omega) (by omega), b0, b1⟩
  · intro s hs
    obtain ⟨p1, p2, p3, p4, p5⟩ := fft_stage_params m s hm hs
    rw [hsize]
    refine ⟨p1, p2, p3, p4, p5, ?_⟩
    intro g k hg hk
    have hsplit := stage_split m s hs
    obtain ⟨b1, b2⟩ := butterfly_index_bounds (2 ^ s) (2 ^ (m - s - 1)) g k hg hk
    rw [← hsplit] at b1 b2
    rw [e2m]
    have hGpos : 0 < 2 ^ s := pow_pos (by norm_num) _
    have c1 : (k : Int) * ((2 ^ (m - s - 1) : Nat) : Int) = ((k * 2 ^ (m - s - 1) : Nat) : Int) := by
      push_cast; ring
    have c2 : (g : Int) * (2 * ((2 ^ s : Nat) : Int)) + (k : Int)
        = ((g * (2 * 2 ^ s) + k : Nat) : Int) := by push_cast; ring
    rw [c1, c2]
    generalize k * 2 ^ (m - s - 1) = a at *
    generalize g * (2 * 2 ^ s) = b at *
    generalize 2 ^ s = G at *
    generalize 2 ^ m = N at *
    refine ⟨wrap16_of_range (by omega) (by omega), by omega, by omega,
      wrap16_of_range (by omega) (by omega), wrap16_of_range (by omega) (by omega),
      by omega, by omega, by omega⟩
  · intro s hs p hp
    have hsplit := stage_split m s hs
    rw [hsplit] at hp
    exact butterfly_cover (2 ^ s) (2 ^ (m - s - 1)) p (pow_pos (by norm_num) _) hp

theorem fft_radix2_index_safety_witness :
    ∃ F : List complex_t, fft_radix2
        [some [⟨32767, 0⟩, ⟨0, -32767⟩, ⟨-32767, 0⟩, ⟨0, 32767⟩],
         some [⟨1, 2⟩, ⟨3, 4⟩, ⟨5, 6⟩, ⟨7, 8⟩],
         some [⟨0, 0⟩, ⟨0, 0⟩, ⟨0, 0⟩, ⟨0, 0⟩]]
        { twiddle_factors := some 0, temp_buffer := none, fft_size := 4, log2_size := 2 }
        (some 1) (some 2)
      = some (([some [⟨32767, 0⟩, ⟨0, -32767⟩, ⟨-32767, 0⟩, ⟨0, 32767⟩],
         some [⟨1, 2⟩, ⟨3, 4⟩, ⟨5, 6⟩, ⟨7, 8⟩],
         some [⟨0, 0⟩, ⟨0, 0⟩, ⟨0, 0⟩, ⟨0, 0⟩]] : Heap).set 2 (some F)) :=
  (fft_radix2_index_safety
    [some [⟨32767, 0⟩, ⟨0, -32767⟩, ⟨-32767, 0⟩, ⟨0, 32767⟩],
     some [⟨1, 2⟩, ⟨3, 4⟩, ⟨5, 6⟩, ⟨7, 8⟩],
     some [⟨0, 0⟩, ⟨0, 0⟩, ⟨0, 0⟩, ⟨0, 0⟩]]
    { twiddle_factors := some 0, temp_buffer := none, fft_size := 4, log2_size := 2 }
    0 1 2 2 [⟨32767, 0⟩, ⟨0, -32767⟩, ⟨-32767, 0⟩, ⟨0, 32767⟩]
    [⟨1, 2⟩, ⟨3, 4⟩, ⟨5, 6⟩, ⟨7, 8⟩] [⟨0, 0⟩, ⟨0, 0⟩, ⟨0, 0⟩, ⟨0, 0⟩]
    (by decide) rfl rfl rfl rfl (by decide) rfl rfl rfl rfl (by decide) (by decide)).1

/-- C23: on a context of size `2 ^ m` (`m ≤ 14`) with distinct twiddle, input and
output blocks, `ifft_radix2` returns with the caller's input block overwritten:
for every `i < N` the entry `input[i]` has the real part of `x[i]` and the 16-bit
negation of the imaginary part of `x[i]` (an imaginary part `-32768` stays
`-32768`); the block is left conjugated, and every block other than the input
and the output is unchanged. -/
theorem ifft_radix2_overwrites_input (h : Heap) (fft : fft_t) (tw inp out m : Nat)
    (T X O : List complex_t)
    (hm : m ≤ 14) (hsize : fft.fft_size = (2 : Int) ^ m) (hlog : fft.log2_size = (m : Int))
    (htw : fft.twiddle_factors = some tw) (hT : h[tw]? = some (some T)) (hTlen : 2 ^ m ≤ T.length)
    (hX : h[inp]? = some (some X)) (hXlen : X.length = 2 ^ m)
    (hO : h[out]? = some (some O)) (hOlen : O.length = 2 ^ m)
    (hio : inp ≠ out) (hto : tw ≠ out) (hti : tw ≠ inp) :
    ∃ h1 : Heap, ifft_radix2 h fft (some inp) (some out) = some h1 ∧
      hblock h1 (some inp) = some (X.map conj16) ∧
      (∀ i : Nat, i < 2 ^ m → ∃ x c : complex_t, X[i]? = some x ∧
        hload h1 (some inp) (i : Int) = some c ∧
        c.real = x.real ∧ c.imag = wrap16 (-x.imag)) ∧
      (∀ r : Int, conj16 { real := r, imag := -32768 } = { real := r, imag := -32768 }) ∧
      (∀ b : Nat, b ≠ inp → b ≠ out → h1[b]? = h[b]?) := by
  have hinp : inp < h.length := lt_length_of_getElem? h inp _ hX
  obtain ⟨Y, hY, _⟩ := ifft_radix2_heap h fft tw inp out m T X O hm hsize hlog htw hT hTlen
    hX hXlen hO hOlen hio hto hti
  have hblk : hblock ((h.set inp (some (X.map conj16))).set out (some Y)) (some inp)
      = some (X.map conj16) := by
    rw [hblock_set_ne _ out inp _ (Ne.symm hio), hblock_set_same h inp _ hinp]
  refine ⟨_, hY, hblk, ?_, ?_, ?_⟩
  · intro i hi
    have hi' : i < X.length := by omega
    refine ⟨X[i], conj16 X[i], List.getElem?_eq_getElem hi', ?_, rfl, rfl⟩
    unfold hload
    rw [hblk]
    simp only [Option.bind_eq_bind, Option.some_bind]
    rw [rd_eq_getElem?, List.getElem?_map, List.getElem?_eq_getElem hi']
    rfl
  · intro r
    rfl
  · intro b hbi hbo
    rw [List.getElem?_set_ne (Ne.symm hbo), List.getElem?_set_ne (Ne.symm hbi)]

theorem ifft_radix2_overwrites_input_witness :
    ∃ h1 : Heap, ifft_radix2
        [some [⟨32767, 0⟩, ⟨-32767, 0⟩], some [⟨100, -5⟩, ⟨-7, -32768⟩], some [⟨0, 0⟩, ⟨0, 0⟩]]
        { twiddle_factors := some 0, temp_buffer := none, fft_size := 2, log2_size := 1 }
        (some 1) (some 2) = some h1 ∧
      hblock h1 (some 1) = some [⟨100, 5⟩, ⟨-7, -32768⟩] :=
  let ⟨h1, e, hb, _⟩ := ifft_radix2_overwrites_input
    [some [⟨32767, 0⟩, ⟨-32767, 0⟩], some [⟨100, -5⟩, ⟨-7, -32768⟩], some [⟨0, 0⟩, ⟨0, 0⟩]]
    { twiddle_factors := some 0, temp_buffer := none, fft_size := 2, log2_size := 1 }
    0 1 2 1 [⟨32767, 0⟩, ⟨-32767, 0⟩] [⟨100, -5⟩, ⟨-7, -32768⟩] [⟨0, 0⟩, ⟨0, 0⟩]
    (by decide) rfl rfl rfl rfl (by decide) rfl rfl rfl rfl (by decide) (by decide) (by decide)
  ⟨h1, e, hb.trans (by decide)⟩

end DSP
